import Mathlib

/-!
Verification of the trie-based router (`src/index.ts`).

The source file concatenates two versions of the same engine: an "old"
version (lines 1-302) and a "new" version (lines 303-626).  Both are
embedded below; definitions without a suffix follow the new version, and
definitions suffixed `Old` follow the old one.

Modelling conventions:
* JavaScript strings are modelled by Lean `String`; character indices and
  `length` are code-point based (the source only manipulates whole
  characters, and all concrete inputs of the spec are in the BMP where
  UTF-16 code-unit indices and code points coincide).
* Fallible registration-time code (`throw new TypeError(...)`) is modelled
  with `Except String`, carrying the exact message text of the source.
* The Unicode character class `/[\p{L}\p{N}]/u` used by `parse` is
  abstracted as a predicate argument `nc : Char → Bool`; every theorem is
  uniform in it, and concrete examples instantiate it with
  `Char.isAlphanum` (all concrete inputs are ASCII, where the two agree).
* `Map` objects are modelled as insertion-ordered association lists:
  JavaScript `Map` iteration order is insertion order, and `set` on an
  existing key keeps its slot.
* `Array.prototype.sort` with a consistent comparator is modelled by a
  stable insertion sort: for a consistent comparator ECMAScript fully
  determines the output (the unique stable sorted permutation).
-/

namespace TrieRouter

/-- Decidable equality of registration outcomes, for evaluating concrete
examples by kernel reduction. -/
def exceptDecEq {e a : Type} [DecidableEq e] [DecidableEq a] : DecidableEq (Except e a)
  | .error x, .error y =>
    match decEq x y with
    | isTrue h => isTrue (h ▸ rfl)
    | isFalse h => isFalse fun hh => h (Except.error.inj hh)
  | .ok x, .ok y =>
    match decEq x y with
    | isTrue h => isTrue (h ▸ rfl)
    | isFalse h => isFalse fun hh => h (Except.ok.inj hh)
  | .ok _, .error _ => isFalse fun hh => Except.noConfusion hh
  | .error _, .ok _ => isFalse fun hh => Except.noConfusion hh

instance {e a : Type} [DecidableEq e] [DecidableEq a] : DecidableEq (Except e a) :=
  exceptDecEq

/-- A token of a parsed segment: a literal text fragment or a named
parameter (source: `type Path = (Parameter | string)[]`). -/
inductive Token where
  | lit (text : String)
  | param (name : String)
deriving DecidableEq, Repr

/-- A parsed route segment, source type `Path`. -/
abbrev Path := List Token

/-- A match result (source: `interface Result`). -/
structure Result where
  route : String
  keys : List String
  values : List String
deriving DecidableEq, Repr

/-- Number of parameter tokens of a segment path. -/
def paramsCount (p : Path) : Nat :=
  p.countP fun t => match t with | .param _ => true | .lit _ => false

/-- The parameter names of a segment path, in order (the `params.push`
calls performed by `pathToKey` in the source). -/
def pathParams (p : Path) : List String :=
  p.filterMap fun t => match t with | .param n => some n | .lit _ => none

/-- Well-formedness of a segment path, as guaranteed by `parse`: every
literal token is nonempty and contains no `[`, and no parameter token
immediately follows another parameter token. -/
def wfPath : Path → Bool
  | [] => true
  | .lit s :: rest => decide (s ≠ "") && decide ('[' ∉ s.data) && wfPath rest
  | .param _ :: rest =>
    match rest with
    | .param _ :: _ => false
    | _ => wfPath rest

/-- Well-formedness of the parser's reversed accumulator: the same
conditions as `wfPath`, read from the end of the array. -/
def wfRev : Path → Bool
  | [] => true
  | .lit s :: rest => decide (s ≠ "") && decide ('[' ∉ s.data) && wfRev rest
  | .param _ :: rest =>
    (match rest with
     | .param _ :: _ => false
     | _ => true) && wfRev rest

/-- Codepoint-lexicographic strict comparison of character lists,
modelling JavaScript string `<`/`>` (code-unit order; identical to
code-point order on the BMP). -/
def listLtCh : List Char → List Char → Bool
  | [], [] => false
  | [], _ :: _ => true
  | _ :: _, [] => false
  | a :: as, b :: bs => if a < b then true else if b < a then false else listLtCh as bs

/-- JavaScript string comparison `a < b`. -/
def litLt (a b : String) : Bool := listLtCh a.data b.data

/-- The accumulator loop of JavaScript `split("/")`. -/
def splitGo : List Char → List Char → List String
  | [], acc => [String.mk acc.reverse]
  | c :: rest, acc =>
    if c = '/' then String.mk acc.reverse :: splitGo rest []
    else splitGo rest (c :: acc)

/-- JavaScript `pathname.split("/")`: the `/`-separated pieces, keeping
empty pieces, with `"" ↦ [""]`. -/
def splitSlash (s : String) : List String := splitGo s.data []

/-! ## The segment parser (`parse`, identical in both versions)

The source scans the segment with an index-based outer `while` loop and an
inner name-scanning `while` loop; both advance the index one character per
iteration, so together they are one character-at-a-time scan, embedded
below as a fold over the characters with an explicit parser state.  The
source mutates the end of the `path` array; the accumulator is kept
reversed (its head is the array's last element) and reversed at the
end. -/

/-- Append one literal character: extend the final literal token, or start
a new one (source lines 620-622 / 296-298).  The accumulator is reversed. -/
def pushChar (racc : Path) (c : Char) : Path :=
  match racc with
  | .lit s :: rest => .lit (s.push c) :: rest
  | _ => .lit (String.singleton c) :: racc

/-- Whether the last element pushed so far is a parameter token
(source: `typeof path[path.length - 1] === "object"`). -/
def lastIsParam (racc : Path) : Bool :=
  match racc with
  | .param _ :: _ => true
  | _ => false

/-- Parser state.  The source's outer `while` corresponds to `scan` and
its inner name-scanning `while` (which also advances `i` one character per
iteration) to `name`; an exception is the absorbing `fail` state. -/
inductive PState where
  | scan (racc : Path)
  | name (acc : String) (racc : Path)
  | fail (e : String)
deriving DecidableEq, Repr

/-- One character step of `parse` at index `i` (source lines 582-623; the
`scan` transitions are the outer loop body, the `name` transitions the
inner loop body, with identical tests, pushes and error messages). -/
def parseStep (nc : Char → Bool) (i : Nat) (st : PState) (c : Char) : PState :=
  match st with
  | .fail e => .fail e
  | .scan racc =>
    if c = '[' then
      if lastIsParam racc then
        .fail ("A parameter must not immediately follow another paramter at " ++ toString i)
      else .name "" racc
    else .scan (pushChar racc c)
  | .name acc racc =>
    if c = ']' then
      if acc = "" then .fail ("Missing parameter name at " ++ toString i)
      else .scan (.param acc :: racc)
    else if nc c then .name (acc.push c) racc
    else .fail ("Invalid name character at " ++ toString i)

/-- The whole scan: fold `parseStep` over the characters, tracking the
index. -/
def parseRun (nc : Char → Bool) (cs : List Char) (i : Nat) (st : PState) :
    Nat × PState :=
  match cs with
  | [] => (i, st)
  | c :: rest => parseRun nc rest (i + 1) (parseStep nc i st c)

/-- The segment parser, source `parse` (new version lines 577-626, old
version lines 253-302; the two are identical).  Ending inside a bracket is
the source's `i === length` check in the inner loop (lines 605-607). -/
def parse (nc : Char → Bool) (segment : String) : Except String Path :=
  match parseRun nc segment.data 0 (.scan []) with
  | (_, .scan racc) => .ok racc.reverse
  | (i, .name _ _) => .error ("Missing parameter name close character at " ++ toString i)
  | (_, .fail e) => .error e

/-- Re-serialization of a token (claim C9: literal text, or `[name]`). -/
def serializeTok : Token → String
  | .lit s => s
  | .param n => "[" ++ n ++ "]"

/-- Re-serialization of a segment path: the tokens' texts concatenated in
order. -/
def serializePath : Path → String
  | [] => ""
  | t :: rest => serializeTok t ++ serializePath rest

/-- The characters a parser state accounts for: the re-serialized
accumulator, plus the pending open bracket and partial name inside a
parameter. -/
def consumed : PState → List Char
  | .scan racc => (serializePath racc.reverse).data
  | .name acc racc => (serializePath racc.reverse).data ++ '[' :: acc.data
  | .fail _ => []

/-- Well-formedness invariant of a parser state. -/
def stateWf : PState → Bool
  | .scan racc => wfRev racc
  | .name _ racc => wfRev racc && !lastIsParam racc
  | .fail _ => true

/-! ## The segment matchers (`createMatch`, new version lines 517-560 and
old version lines 196-236)

The matcher loop walks the token list with a scan offset into the input
segment.  It is embedded as recursion over the token list; the input is
handled as its character list, with `o` the current offset.  A parameter
token and its following literal delimiter are consumed in one step, exactly
as the source's `i += 2`. -/

/-- JavaScript `pathname.slice(offset, offset + part.length) === part`:
the characters of `s` starting at `o` begin with `part` (a too-short
remainder compares unequal, like the clamped `slice`). -/
def substrAt (s : List Char) (o : Nat) (part : List Char) : Bool :=
  decide ((s.drop o).take part.length = part)

/-- JavaScript `pathname.indexOf(next, offset)`: the least index `j ≥ o`
at which `next` occurs in `s`, or `none` (source returns `-1`). -/
def idxOf (s pat : List Char) (o : Nat) : Option Nat :=
  (List.range (s.length + 1)).find? fun j => o ≤ j && substrAt s j pat

/-- The matcher loop of the new `createMatch` (lines 528-556).  The branch
for a parameter followed by another parameter models the source's unsound
`path[i + 1] as string` cast as failure; `parse` never produces adjacent
parameters, so the trie never exercises that branch. -/
def matchGo : Path → List Char → Nat → Option (List String)
  | [], _, _ => some []
  | tok :: rest, s, o =>
    if s.length = o then none
    else
      match tok with
      | .lit part =>
        if substrAt s o part.data then matchGo rest s (o + part.length) else none
      | .param _ =>
        match rest with
        | [] => some [String.mk (s.drop o)]
        | .lit nx :: rest' =>
          match idxOf s nx.data o with
          | none => none
          | some j =>
            if j = o then none
            else
              match matchGo rest' s (j + nx.length) with
              | some ps => some (String.mk ((s.drop o).take (j - o)) :: ps)
              | none => none
        | .param _ :: _ => none

/-- New-version `createMatch` (lines 517-560), including the dedicated
empty-path matcher (line 521). -/
def createMatch (p : Path) (segment : String) : Option (List String) :=
  if p.length = 0 then (if segment = "" then some [] else none)
  else matchGo p segment.data 0

/-- The matcher loop of the old `createMatch` (lines 199-235): identical
except that the input-exhausted check is made only before a parameter
token, not before a literal token. -/
def matchGoOld : Path → List Char → Nat → Option (List String)
  | [], _, _ => some []
  | tok :: rest, s, o =>
    match tok with
    | .lit part =>
      if substrAt s o part.data then matchGoOld rest s (o + part.length) else none
    | .param _ =>
      if s.length = o then none
      else
        match rest with
        | [] => some [String.mk (s.drop o)]
        | .lit nx :: rest' =>
          match idxOf s nx.data o with
          | none => none
          | some j =>
            if j = o then none
            else
              match matchGoOld rest' s (j + nx.length) with
              | some ps => some (String.mk ((s.drop o).take (j - o)) :: ps)
              | none => none
        | .param _ :: _ => none

/-- Old-version `createMatch` (lines 196-236): no empty-path special case,
so the empty path matches every input with no captures. -/
def createMatchOld (p : Path) (segment : String) : Option (List String) :=
  matchGoOld p segment.data 0

/-! ## The route sorter (`buildRoutes`, new version lines 429-465, old
version lines 119-155; the two are identical)

The comparator of the source returns a number; only its sign matters, so it
is embedded as an `Ordering`-valued function.  The `typeof` dispatch on
`pathsA[j]`/`pathsB[j]` distinguishes `"string"` (a literal token),
`"object"` (a parameter token) and `"undefined"` (the token list is
exhausted, `j` having run to the longer length); the conditional
`typeofA === "string" ? -1 : typeofB === "object" ? -1 : 1` realizes the
order literal < exhausted < parameter at each position. -/

/-- Token comparison at one position when both tokens are present
(source lines 452-459). -/
def cmpTok : Token → Token → Ordering
  | .lit a, .lit b => if a = b then .eq else if litLt b a then .gt else .lt
  | .lit _, .param _ => .lt
  | .param _, .lit _ => .gt
  | .param _, .param _ => .eq

/-- The inner `j` loop (source lines 447-460): position-wise comparison up
to the longer token list, an exhausted list ranking between a literal and a
parameter. -/
def cmpToks : Path → Path → Ordering
  | [], [] => .eq
  | [], .lit _ :: _ => .gt
  | [], .param _ :: _ => .lt
  | .lit _ :: _, [] => .lt
  | .param _ :: _, [] => .gt
  | a :: as, b :: bs => (cmpTok a b).then (cmpToks as bs)

/-- The outer `i` loop (source lines 442-461), reached only for equal
segment counts. -/
def cmpSegs : List Path → List Path → Ordering
  | a :: as, b :: bs => (cmpToks a b).then (cmpSegs as bs)
  | _, _ => .eq

/-- The full comparator (source lines 435-464): segment count first, then
the first differing segment. -/
def cmpRoutes (a b : List Path) : Ordering :=
  if a.length = b.length then cmpSegs a b
  else if a.length < b.length then .lt else .gt

/-- Stable insertion of `x` in front of the first element it need not
follow.  `le x y = true` means the comparator did not order `x` after
`y`. -/
def insSorted (le : α → α → Bool) (x : α) : List α → List α
  | [] => [x]
  | y :: ys => if le x y then x :: y :: ys else y :: insSorted le x ys

/-- Stable sort by a boolean `le`; elements are inserted right to left, so
an earlier element is placed before every later element it ties with.  For
a consistent comparator this is the unique output ECMAScript prescribes for
`Array.prototype.sort`. -/
def sortBy (le : α → α → Bool) (l : List α) : List α :=
  l.foldr (insSorted le) []

/-- The `le` used to model `.sort(([, a], [, b]) => ...)`: the comparator
did not return a positive number. -/
def routeLe (a b : String × List Path) : Bool :=
  cmpRoutes a.2 b.2 ≠ .gt

/-- One entry of `buildRoutes`' `.map` callback: the route string together
with the parse of each of its `/`-separated segments. -/
def parseRoute (nc : Char → Bool) (route : String) :
    Except String (String × List Path) := do
  let ps ← (splitSlash route).mapM (parse nc)
  pure (route, ps)

/-- Source `buildRoutes` (new version lines 429-465): parse every
`/`-separated segment of every input, then sort.  A `parse` failure aborts
(the source's exception propagates out of `.map`). -/
def buildRoutes (nc : Char → Bool) (inputs : List String) :
    Except String (List (String × List Path)) := do
  let parsed ← inputs.mapM (parseRoute nc)
  pure (sortBy routeLe parsed)

/-! ## The trie (`Node`, `pathToKey`, `addToTrie`, new version lines
333-424; old version lines 29-114)

`Node.dynamic` is a `Map` keyed by matcher function.  The matcher cache in
`createRouter` guarantees that two dynamic segments receive the same
function if and only if they have the same `pathToKey` key (a fresh closure
is allocated per cache miss), so dynamic transitions are embedded keyed by
that structural key string, each entry also storing the first segment path
inserted with that key — the path the shared closure was compiled from. -/

/-- One `pathToKey` chunk: the literal text, or `"[]"` for a parameter. -/
def serializeKeyTok : Token → String
  | .lit s => s
  | .param _ => "[]"

/-- Source `pathToKey` joining with `"|"`, parameters contributing the
marker `"[]"` (lines 373-384). -/
def pathToKey : Path → String
  | [] => ""
  | [t] => serializeKeyTok t
  | t :: rest => serializeKeyTok t ++ "|" ++ pathToKey rest

/-- The shape of one token: its literal text, or `none` for a parameter.
Two segment paths with the same shape list are indistinguishable to the
trie (`pathToKey` and the transition kind depend only on it). -/
def tokKey : Token → Option String
  | .lit s => some s
  | .param _ => none

/-- A trie node: optional terminal (route and its parameter names), static
transitions in insertion order, dynamic transitions in insertion order
(structural key, the path whose compiled matcher the entry shares, child).
Source `class Node` (lines 333-368). -/
inductive Trie where
  | node (term : Option (String × List String))
         (statics : List (String × Trie))
         (dyns : List (String × Path × Trie))
deriving Repr

/-- One insertion step of `addToTrie`: the transition taken for one
segment path. -/
inductive TransStep where
  | stat (s : String)
  | dyn (key : String) (rep : Path)
deriving Repr

/-- The transition key alone, forgetting the representative path. -/
inductive TransKey where
  | stat (s : String)
  | dyn (key : String)
deriving DecidableEq, Repr

/-- Key of a step. -/
def TransStep.key : TransStep → TransKey
  | .stat s => .stat s
  | .dyn k _ => .dyn k

/-- Transition chosen by the new `addToTrie` for one segment path
(lines 398-416): empty paths and single-literal paths become static
transitions, everything else a dynamic one. -/
def stepOf (p : Path) : TransStep :=
  match p with
  | [] => .stat ""
  | [.lit s] => .stat s
  | _ => .dyn (pathToKey p) p

/-- Transition chosen by the old `addToTrie` (lines 94-106): no
empty-path case, so an empty path becomes a dynamic transition whose
matcher accepts everything. -/
def stepOfOld (p : Path) : TransStep :=
  match p with
  | [.lit s] => .stat s
  | _ => .dyn (pathToKey p) p

/-- Lookup in an insertion-ordered static map. -/
def lookupStat (ss : List (String × Trie)) (s : String) : Option Trie :=
  match ss with
  | [] => none
  | (k, c) :: rest => if k = s then some c else lookupStat rest s

/-- Replace the child stored under an existing static key, keeping its
slot (JavaScript `Map.set` on a present key). -/
def setStat (ss : List (String × Trie)) (s : String) (c : Trie) :
    List (String × Trie) :=
  match ss with
  | [] => []
  | (k, c0) :: rest => if k = s then (k, c) :: rest else (k, c0) :: setStat rest s c

/-- Lookup in an insertion-ordered dynamic map, by structural key. -/
def lookupDyn (ds : List (String × Path × Trie)) (k : String) :
    Option (Path × Trie) :=
  match ds with
  | [] => none
  | (k0, e) :: rest => if k0 = k then some e else lookupDyn rest k

/-- Replace the child of an existing dynamic entry, keeping its slot and
its representative path. -/
def setDyn (ds : List (String × Path × Trie)) (k : String) (c : Trie) :
    List (String × Path × Trie) :=
  match ds with
  | [] => []
  | (k0, rep, c0) :: rest =>
    if k0 = k then (k0, rep, c) :: rest else (k0, rep, c0) :: setDyn rest k c

/-- The walk of `addToTrie` (both versions, lines 395-423 / 91-113):
follow or create one transition per segment path, then mark the reached
node terminal, failing if it already is. -/
def insertGo (steps : List TransStep) (t : Trie) (route : String)
    (ks : List String) : Except String Trie :=
  match steps, t with
  | [], .node term ss ds =>
    match term with
    | some _ => .error ("Route is already defined for " ++ route)
    | none => .ok (.node (some (route, ks)) ss ds)
  | .stat s :: rest, .node term ss ds =>
    match lookupStat ss s with
    | some c => (insertGo rest c route ks).map fun c2 => .node term (setStat ss s c2) ds
    | none =>
      (insertGo rest (.node none [] []) route ks).map fun c2 =>
        .node term (ss ++ [(s, c2)]) ds
  | .dyn k rep :: rest, .node term ss ds =>
    match lookupDyn ds k with
    | some (_, c) => (insertGo rest c route ks).map fun c2 => .node term ss (setDyn ds k c2)
    | none =>
      (insertGo rest (.node none [] []) route ks).map fun c2 =>
        .node term ss (ds ++ [(k, rep, c2)])

/-- New-version `addToTrie` (lines 389-424).  The route's key list is the
concatenation, in segment order, of the parameter names `pathToKey` pushes
for each dynamic segment; static segments contribute none. -/
def addToTrie (t : Trie) (paths : List Path) (route : String) :
    Except String Trie :=
  insertGo (paths.map stepOf) t route (paths.flatMap pathParams)

/-- Old-version `addToTrie` (lines 85-114). -/
def addToTrieOld (t : Trie) (paths : List Path) (route : String) :
    Except String Trie :=
  insertGo (paths.map stepOfOld) t route (paths.flatMap pathParams)

/-- The empty root node. -/
def emptyTrie : Trie := .node none [] []

/-- New-version `createRouter` (lines 473-512), up to producing the trie:
sort the routes, then add each to the trie in order. -/
def createRouter (nc : Char → Bool) (inputs : List String) :
    Except String Trie := do
  let routes ← buildRoutes nc inputs
  routes.foldlM (fun t rp => addToTrie t rp.2 rp.1) emptyTrie

/-- Old-version `createRouter` (lines 163-191), up to producing the trie. -/
def createRouterOld (nc : Char → Bool) (inputs : List String) :
    Except String Trie := do
  let routes ← buildRoutes nc inputs
  routes.foldlM (fun t rp => addToTrieOld t rp.2 rp.1) emptyTrie

/-! ## The match enumerator (`build` and `Node.match`, new version lines
483-511, old version lines 171-190)

`build` yields the terminal's result when the segments are exhausted,
otherwise tries the static transition for the current segment first and
then every dynamic transition in insertion order, accumulating captured
values.  The generator is embedded as the list of results in yield
order. -/

/-- The results of the new `build`, in yield order.  `vals` is the value
accumulator (the new version pushes then truncates `values`; the net
effect on the yielded copies is `vals ++ ps`). -/
def results (t : Trie) (segs : List String) (vals : List String) :
    List Result :=
  match segs, t with
  | [], .node term _ _ =>
    match term with
    | some (r, ks) => [⟨r, ks, vals⟩]
    | none => []
  | seg :: rest, .node _ ss ds =>
    (match lookupStat ss seg with
     | some c => results c rest vals
     | none => []) ++
    ds.flatMap fun e =>
      match createMatch e.2.1 seg with
      | some ps => results e.2.2 rest (vals ++ ps)
      | none => []

/-- The results of the old `build`: identical, except that each dynamic
entry's shared closure was compiled by the old `createMatch`. -/
def resultsOld (t : Trie) (segs : List String) (vals : List String) :
    List Result :=
  match segs, t with
  | [], .node term _ _ =>
    match term with
    | some (r, ks) => [⟨r, ks, vals⟩]
    | none => []
  | seg :: rest, .node _ ss ds =>
    (match lookupStat ss seg with
     | some c => resultsOld c rest vals
     | none => []) ++
    ds.flatMap fun e =>
      match createMatchOld e.2.1 seg with
      | some ps => resultsOld e.2.2 rest (vals ++ ps)
      | none => []

/-- The new router's `match` function (lines 509-511). -/
def routerMatch (t : Trie) (pathname : String) : List Result :=
  results t (splitSlash pathname) []

/-- The old router's `match` function (lines 188-190). -/
def routerMatchOld (t : Trie) (pathname : String) : List Result :=
  resultsOld t (splitSlash pathname) []

/-- Match results of a possibly-failed registration: a failed
`createRouter` returns no router, modelled as no results. -/
def routerMatchE (e : Except String Trie) (pathname : String) : List Result :=
  match e with
  | .ok t => routerMatch t pathname
  | .error _ => []

/-- Old-version counterpart of `routerMatchE`. -/
def routerMatchOldE (e : Except String Trie) (pathname : String) : List Result :=
  match e with
  | .ok t => routerMatchOld t pathname
  | .error _ => []

/-! ## Specification-side definitions

Everything below states the claims' vocabulary; none of it is part of the
embedding of the source. -/

/-- The four parse-error kinds of the spec's taxonomy (claim C7). -/
inductive PErr where
  | adjacent
  | emptyName
  | unterminated
  | badChar
deriving DecidableEq, Repr

/-- The error message carried by each kind, at a character index. -/
def errMsg : PErr → Nat → String
  | .adjacent, i => "A parameter must not immediately follow another paramter at " ++ toString i
  | .emptyName, i => "Missing parameter name at " ++ toString i
  | .unterminated, i => "Missing parameter name close character at " ++ toString i
  | .badChar, i => "Invalid name character at " ++ toString i

/-- Claim-side scanner for C7 assigning each segment either no violation
or the first violation kind together with its character index: on `[` the
name is the maximal run of name characters, which must be nonempty and
closed by `]`, and a parameter must not start immediately after a previous
parameter. -/
def segScan (nc : Char → Bool) : List Char → Nat → Bool → Option (PErr × Nat)
  | [], _, _ => none
  | c :: rest, i, afterParam =>
    if c = '[' then
      if afterParam then some (.adjacent, i)
      else
        match h : rest.drop (rest.takeWhile fun d => d ≠ ']' && nc d).length with
        | [] => some (.unterminated, i + 1 + (rest.takeWhile fun d => d ≠ ']' && nc d).length)
        | d :: rest' =>
          if d = ']' then
            if (rest.takeWhile fun d => d ≠ ']' && nc d).isEmpty then some (.emptyName, i + 1)
            else segScan nc rest' (i + (rest.takeWhile fun d => d ≠ ']' && nc d).length + 2) true
          else some (.badChar, i + 1 + (rest.takeWhile fun d => d ≠ ']' && nc d).length)
    else segScan nc rest (i + 1) false
termination_by cs => cs.length
decreasing_by
  · have h1 : rest'.length < rest.length + 1 := by
      have h2 : (rest.drop (rest.takeWhile fun d => d ≠ ']' && nc d).length).length ≤ rest.length := by
        rw [List.length_drop]
        omega
      rw [h] at h2
      simp at h2
      omega
    simpa using h1
  · simp

/-- Claim-side capture relation for C3, at scan offset `o`: a literal must
occur verbatim at the offset; a final parameter captures the nonempty
remainder; a parameter followed by a literal captures the nonempty text up
to the first occurrence of that literal at or after the offset, which must
exist and not sit at the offset itself. -/
inductive Caps (s : List Char) : Path → Nat → List String → Prop where
  | done (o : Nat) : Caps s [] o []
  | lit (l : String) (rest : Path) (o : Nat) (vs : List String)
      (hne : o < s.length)
      (hsub : (s.drop o).take l.length = l.data)
      (h : Caps s rest (o + l.length) vs) :
      Caps s (.lit l :: rest) o vs
  | last (nm : String) (o : Nat) (hne : o < s.length) :
      Caps s [.param nm] o [String.mk (s.drop o)]
  | mid (nm : String) (l : String) (rest : Path) (o j : Nat) (vs : List String)
      (hne : o < s.length)
      (hj : idxOf s l.data o = some j)
      (hjo : j ≠ o)
      (h : Caps s rest (j + l.length) vs) :
      Caps s (.param nm :: .lit l :: rest) o (String.mk ((s.drop o).take (j - o)) :: vs)

/-- Whether a segment path's final token is a literal (claim C2). -/
def endsLit : Path → Bool
  | [] => false
  | [.lit _] => true
  | [.param _] => false
  | _ :: rest => endsLit rest

/-- Claim-side token comparison of C4 at one position, `none` meaning the
token list is exhausted there.  The exhausted-vs-present rows realize the
amendment: a missing token ranks after a literal and before a
parameter. -/
def specTokCmp : Option Token → Option Token → Ordering
  | some (.lit a), some (.lit b) => if a = b then .eq else if litLt a b then .lt else .gt
  | some (.lit _), some (.param _) => .lt
  | some (.param _), some (.lit _) => .gt
  | some (.param _), some (.param _) => .eq
  | none, some (.lit _) => .gt
  | none, some (.param _) => .lt
  | some (.lit _), none => .lt
  | some (.param _), none => .gt
  | none, none => .eq

/-- Claim-side token comparison as literally stated by C4, which gives no
rule when one list is exhausted: such positions are left comparing
equal. -/
def claimTokCmp : Option Token → Option Token → Ordering
  | some (Token.lit a), some (Token.lit b) => if a = b then .eq else if litLt a b then .lt else .gt
  | some (Token.lit _), some (Token.param _) => .lt
  | some (Token.param _), some (Token.lit _) => .gt
  | _, _ => .eq

/-- First non-equal outcome of a list of comparisons. -/
def firstCmp : List Ordering → Ordering
  | [] => .eq
  | c :: rest => c.then (firstCmp rest)

/-- Claim-side segment comparison: position by position over the longer
length, first difference deciding. -/
def specSegCmp (cmp : Option Token → Option Token → Ordering) (p q : Path) :
    Ordering :=
  firstCmp ((List.range (max p.length q.length)).map fun j => cmp p[j]? q[j]?)

/-- Claim-side route comparison: fewer segments first, then the first
differing segment. -/
def specRouteCmp (cmp : Option Token → Option Token → Ordering)
    (a b : List Path) : Ordering :=
  Ordering.then
    (if a.length = b.length then Ordering.eq
     else if a.length < b.length then Ordering.lt else Ordering.gt)
    (firstCmp ((a.zip b).map fun pq => specSegCmp cmp pq.1 pq.2))

/-- The `le` induced by a claim-side comparator. -/
def specLe (cmp : Option Token → Option Token → Ordering)
    (a b : String × List Path) : Bool :=
  specRouteCmp cmp a.2 b.2 ≠ .gt

/-- The key sequence of a parsed route: the trie transition key of each of
its segment paths, in order (new version). -/
def keyseqOf (rp : String × List Path) : List TransKey :=
  rp.2.map fun p => (stepOf p).key

/-- Whether a trie holds a terminal node at the end of a transition-key
sequence. -/
def hasSeq : Trie → List TransKey → Bool
  | .node term _ _, [] => term.isSome
  | .node _ ss _, .stat s :: rest =>
    match lookupStat ss s with
    | some c => hasSeq c rest
    | none => false
  | .node _ _ ds, .dyn k :: rest =>
    match lookupDyn ds k with
    | some e => hasSeq e.2 rest
    | none => false

/-- Enumeration of the new `build` instrumented with the transition-key
sequence each result was reached through; `results` is its projection. -/
def resultsAux (t : Trie) (segs : List String) (vals : List String) :
    List (List TransKey × Result) :=
  match segs, t with
  | [], .node term _ _ =>
    match term with
    | some (r, ks) => [([], ⟨r, ks, vals⟩)]
    | none => []
  | seg :: rest, .node _ ss ds =>
    (match lookupStat ss seg with
     | some c => (resultsAux c rest vals).map fun e => (TransKey.stat seg :: e.1, e.2)
     | none => []) ++
    ds.flatMap fun d =>
      match createMatch d.2.1 seg with
      | some ps => (resultsAux d.2.2 rest (vals ++ ps)).map fun e => (TransKey.dyn d.1 :: e.1, e.2)
      | none => []

/-- Position of a key in a dynamic transition list. -/
def idxDyn (ds : List (String × Path × Trie)) (k : String) : Nat :=
  match ds with
  | [] => 0
  | (k0, _) :: rest => if k0 = k then 0 else 1 + idxDyn rest k

/-- The rank sequence of a transition-key sequence through a trie: a
static transition ranks `0` at its node, a dynamic transition `1 + its
position` among the node's dynamic entries — the order in which the
enumerator tries transitions. -/
def rankSeq (t : Trie) (ks : List TransKey) : List Nat :=
  match ks, t with
  | [], _ => []
  | .stat s :: rest, .node _ ss _ =>
    0 :: (match lookupStat ss s with
          | some c => rankSeq c rest
          | none => [])
  | .dyn k :: rest, .node _ _ ds =>
    (1 + idxDyn ds k) :: (match lookupDyn ds k with
                          | some e => rankSeq e.2 rest
                          | none => [])

/-- Instrumented enumeration over a possibly-failed registration. -/
def resultsAuxE (e : Except String Trie) (pathname : String) :
    List (List TransKey × Result) :=
  match e with
  | .ok t => resultsAux t (splitSlash pathname) []
  | .error _ => []

/-- Rank sequences over a possibly-failed registration. -/
def rankSeqE (e : Except String Trie) (ks : List TransKey) : List Nat :=
  match e with
  | .ok t => rankSeq t ks
  | .error _ => []

/-- Structural invariant: all static keys and all dynamic keys of every
node are distinct (the source's `Map` keys). -/
inductive NodupKeys : Trie → Prop where
  | mk (term : Option (String × List String)) (ss : List (String × Trie))
      (ds : List (String × Path × Trie))
      (hss : (ss.map (·.1)).Nodup)
      (hds : (ds.map (·.1)).Nodup)
      (hs : ∀ e ∈ ss, NodupKeys e.2)
      (hd : ∀ e ∈ ds, NodupKeys e.2.2) :
      NodupKeys (.node term ss ds)

/-- Structural invariant for claim C10, `n` being the number of parameter
values any match accumulates on the way to this node: a terminal's key
list has length `n`, and each dynamic entry's representative path is a
well-formed nonempty segment path whose structural key is the entry's
key. -/
inductive Inv : Trie → Nat → Prop where
  | mk (term : Option (String × List String)) (ss : List (String × Trie))
      (ds : List (String × Path × Trie)) (n : Nat)
      (hterm : ∀ r ks, term = some (r, ks) → ks.length = n)
      (hrep : ∀ e ∈ ds, wfPath e.2.1 = true ∧ e.2.1 ≠ [] ∧ pathToKey e.2.1 = e.1)
      (hs : ∀ e ∈ ss, Inv e.2 n)
      (hd : ∀ e ∈ ds, Inv e.2.2 (n + paramsCount e.2.1)) :
      Inv (.node term ss ds) n

/-! ## Lemmas about the parser -/

/-- The failure state absorbs the rest of the scan. -/
theorem parseRun_fail (nc : Char → Bool) :
    ∀ (cs : List Char) (i : Nat) (e : String),
    parseRun nc cs i (.fail e) = (i + cs.length, .fail e) := by
  intro cs
  induction cs with
  | nil => intro i e; simp [parseRun]
  | cons c rest ih =>
    intro i e
    simp only [parseRun, parseStep]
    rw [ih]
    simp
    omega

/-- A parse ending in the `fail` state reports that failure. -/
theorem parse_of_fail {nc : Char → Bool} {s : String} {i : Nat} {e : String}
    (h : parseRun nc s.data 0 (.scan []) = (i, .fail e)) :
    parse nc s = .error e := by
  rw [parse, h]

/-- Re-serialization distributes over path concatenation. -/
theorem serializePath_append (a b : Path) :
    serializePath (a ++ b) = serializePath a ++ serializePath b := by
  induction a with
  | nil => simp [serializePath]
  | cons t rest ih => simp [serializePath, ih, String.append_assoc]

/-- Appending one literal character to the accumulator appends it to the
re-serialization. -/
theorem serialize_pushChar (racc : Path) (c : Char) :
    (serializePath (pushChar racc c).reverse).data =
      (serializePath racc.reverse).data ++ [c] := by
  cases racc with
  | nil => simp [pushChar, serializePath, serializeTok, String.singleton]
  | cons t rest =>
    cases t with
    | lit s =>
      simp [pushChar, serializePath, serializeTok, serializePath_append,
        String.data_append, String.data_push]
    | param n =>
      simp [pushChar, serializePath, serializeTok, serializePath_append,
        String.data_append, String.singleton, String.data_push]

/-- A non-failing step consumes exactly its character. -/
theorem consumed_step {nc : Char → Bool} {i : Nat} {st : PState} {c : Char}
    (h : ∀ e, parseStep nc i st c ≠ .fail e) :
    consumed (parseStep nc i st c) = consumed st ++ [c] := by
  cases st with
  | fail e => exact absurd rfl (h e)
  | scan racc =>
    by_cases hc : c = '['
    · subst hc
      cases hlp : lastIsParam racc with
      | true =>
        have hps : parseStep nc i (.scan racc) '[' =
            .fail ("A parameter must not immediately follow another paramter at " ++ toString i) := by
          simp [parseStep, hlp]
        exact absurd hps (h _)
      | false => simp [parseStep, hlp, consumed]
    · simp [parseStep, hc, consumed, serialize_pushChar]
  | name acc racc =>
    by_cases hc : c = ']'
    · subst hc
      by_cases ha : acc = ""
      · have hps : parseStep nc i (.name acc racc) ']' =
            .fail ("Missing parameter name at " ++ toString i) := by
          simp [parseStep, ha]
        exact absurd hps (h _)
      · have hps : parseStep nc i (.name acc racc) ']' = .scan (.param acc :: racc) := by
          simp [parseStep, ha]
        rw [hps]
        simp only [consumed]
        rw [show (Token.param acc :: racc).reverse = racc.reverse ++ [Token.param acc] by simp]
        rw [serializePath_append]
        simp [serializePath, serializeTok, String.data_append]
    · by_cases hn : nc c
      · have hps : parseStep nc i (.name acc racc) c = .name (acc.push c) racc := by
          simp [parseStep, hc, hn]
        rw [hps]
        simp [consumed, String.data_push]
      · have hps : parseStep nc i (.name acc racc) c =
            .fail ("Invalid name character at " ++ toString i) := by
          simp [parseStep, hc, hn]
        exact absurd hps (h _)

/-- Over a whole run ending in a non-failure state, the consumed text
grows by exactly the scanned characters. -/
theorem parseRun_consumed {nc : Char → Bool} :
    ∀ {cs : List Char} {i i2 : Nat} {st st2 : PState},
    parseRun nc cs i st = (i2, st2) → (∀ e, st2 ≠ .fail e) →
    consumed st2 = consumed st ++ cs := by
  intro cs
  induction cs with
  | nil =>
    intro i i2 st st2 h h2
    simp only [parseRun, Prod.mk.injEq] at h
    simp [h.2]
  | cons c rest ih =>
    intro i i2 st st2 h h2
    simp only [parseRun] at h
    have hstep : ∀ e, parseStep nc i st c ≠ .fail e := by
      intro e he
      rw [he, parseRun_fail] at h
      cases h
      exact h2 e rfl
    rw [ih h h2, consumed_step hstep]
    simp

/-- Claim C9 (parse round-trip): re-serializing the tokens of a successful
parse — each literal as its text and each parameter as `[name]` —
reproduces the input segment exactly. -/
theorem parse_roundTrip (nc : Char → Bool) (s : String) (p : Path)
    (h : parse nc s = .ok p) : serializePath p = s := by
  rw [parse] at h
  split at h
  · rename_i i2 racc hrun
    simp only [Except.ok.injEq] at h
    have hc := parseRun_consumed hrun (by simp)
    simp only [consumed, serializePath] at hc
    apply String.ext
    rw [← h]
    simpa using hc
  · exact absurd h (by simp)
  · exact absurd h (by simp)

/-- Appending a literal to a list keeps `lastIsParam` decided by the
head. -/
theorem lastIsParam_append_lit (xs : Path) (u : String) :
    lastIsParam (xs ++ [Token.lit u]) = (!xs.isEmpty && lastIsParam xs) := by
  cases xs with
  | nil => simp [lastIsParam]
  | cons t rest => cases t <;> simp [lastIsParam]

/-- Head computation of `lastIsParam` over an append ending in a
parameter. -/
theorem lastIsParam_append_param (xs : Path) (m : String) :
    lastIsParam (xs ++ [Token.param m]) = (xs.isEmpty || lastIsParam xs) := by
  cases xs with
  | nil => simp [lastIsParam]
  | cons t rest => cases t <;> simp [lastIsParam]

/-- `wfPath` over an append ending in a literal token. -/
theorem wfPath_append_lit (xs : Path) (s : String) :
    wfPath (xs ++ [Token.lit s]) =
      (wfPath xs && (decide (s ≠ "") && decide ('[' ∉ s.data))) := by
  induction xs with
  | nil => simp [wfPath]
  | cons t rest ih =>
    cases t with
    | lit u =>
      simp only [List.cons_append, wfPath, List.append_eq]
      rw [ih]
      cases wfPath rest <;> cases (decide (u ≠ "") && decide ('[' ∉ u.data)) <;> simp
    | param m =>
      cases rest with
      | nil => simp [wfPath]
      | cons t2 rest2 =>
        cases t2 with
        | lit u2 =>
          simp only [List.cons_append, wfPath, List.append_eq]
          exact ih
        | param m2 => simp [wfPath]

/-- `wfPath` over an append ending in a parameter token. -/
theorem wfPath_append_param (xs : Path) (n : String) :
    wfPath (xs ++ [Token.param n]) = (wfPath xs && !lastIsParam xs.reverse) := by
  induction xs with
  | nil => simp [wfPath, lastIsParam]
  | cons t rest ih =>
    cases t with
    | lit u =>
      simp only [List.cons_append, wfPath, List.append_eq]
      rw [ih]
      rw [List.reverse_cons, lastIsParam_append_lit]
      cases h : rest.reverse with
      | nil =>
        have hre : rest = [] := by simpa using congrArg List.reverse h
        subst hre
        simp [lastIsParam]
      | cons a b =>
        simp only [h, List.isEmpty_cons, Bool.not_false, Bool.true_and]
        cases wfPath rest <;> cases lastIsParam (a :: b) <;>
          cases (decide (u ≠ "") && decide ('[' ∉ u.data)) <;> simp
    | param m =>
      cases rest with
      | nil => simp [wfPath, lastIsParam]
      | cons t2 rest2 =>
        cases t2 with
        | lit u2 =>
          have hL : wfPath ((Token.param m :: Token.lit u2 :: rest2) ++ [Token.param n]) =
              wfPath ((Token.lit u2 :: rest2) ++ [Token.param n]) := rfl
          have hR : wfPath (Token.param m :: Token.lit u2 :: rest2) =
              wfPath (Token.lit u2 :: rest2) := rfl
          rw [hL, ih, hR]
          rw [show (Token.param m :: Token.lit u2 :: rest2).reverse =
              (Token.lit u2 :: rest2).reverse ++ [Token.param m] by simp]
          rw [lastIsParam_append_param]
          cases h2 : (Token.lit u2 :: rest2).reverse with
          | nil => exact absurd (congrArg List.reverse h2) (by simp)
          | cons a b => simp [h2]
        | param m2 => simp [wfPath]

/-- A well-formed reversed accumulator reverses to a well-formed path. -/
theorem wfRev_reverse {racc : Path} (h : wfRev racc = true) :
    wfPath racc.reverse = true := by
  induction racc with
  | nil => simp [wfPath]
  | cons t rest ih =>
    cases t with
    | lit s =>
      simp only [wfRev, Bool.and_eq_true] at h
      obtain ⟨⟨h1, h2⟩, h3⟩ := h
      simp [List.reverse_cons, wfPath_append_lit, ih h3, h1, h2]
    | param n =>
      simp only [wfRev, Bool.and_eq_true] at h
      obtain ⟨h1, h3⟩ := h
      simp only [List.reverse_cons, wfPath_append_param, ih h3,
        List.reverse_reverse, Bool.true_and]
      cases rest with
      | nil => simp [lastIsParam]
      | cons t2 rest2 => cases t2 <;> simp_all [lastIsParam]

/-- `pushChar` preserves well-formedness of the accumulator when the
character is not an opening bracket. -/
theorem wfRev_pushChar {racc : Path} {c : Char} (hc : c ≠ '[')
    (h : wfRev racc = true) : wfRev (pushChar racc c) = true := by
  have h1 : String.singleton c ≠ "" := by simp [String.singleton, String.ext_iff]
  have h2 : ('[' : Char) ≠ c := fun he => hc he.symm
  cases racc with
  | nil => simp [pushChar, wfRev, h1, h2]
  | cons t rest =>
    cases t with
    | lit s =>
      simp only [wfRev, Bool.and_eq_true] at h
      obtain ⟨⟨hs1, hs2⟩, h3⟩ := h
      simp only [pushChar, wfRev, Bool.and_eq_true]
      refine ⟨⟨by simp [String.ext_iff, String.data_push], ?_⟩, h3⟩
      simp only [decide_eq_true_eq] at hs2 ⊢
      simp only [String.data_push, List.mem_append, List.mem_singleton]
      rintro (hin | hin)
      · exact hs2 hin
      · exact hc hin.symm
    | param n =>
      simp only [wfRev, Bool.and_eq_true] at h
      simp [pushChar, wfRev, h1, h2, h.1, h.2]

/-- Pushing a parameter after a non-parameter preserves well-formedness of
the accumulator. -/
theorem wfRev_pushParam {racc : Path} {name : String}
    (hlast : lastIsParam racc = false) (h : wfRev racc = true) :
    wfRev (Token.param name :: racc) = true := by
  cases racc with
  | nil => simp [wfRev]
  | cons t rest =>
    cases t with
    | lit s => simp_all [wfRev]
    | param m => simp [lastIsParam] at hlast

/-- Every step of the parser preserves the state invariant. -/
theorem stateWf_step {nc : Char → Bool} {i : Nat} {st : PState} {c : Char}
    (h : stateWf st = true) : stateWf (parseStep nc i st c) = true := by
  cases st with
  | fail e => simp [parseStep, stateWf]
  | scan racc =>
    simp only [stateWf] at h
    by_cases hc : c = '['
    · subst hc
      cases hlp : lastIsParam racc with
      | true => simp [parseStep, hlp, stateWf]
      | false => simp [parseStep, hlp, stateWf, h]
    · simp [parseStep, hc, stateWf, wfRev_pushChar hc h]
  | name acc racc =>
    simp only [stateWf, Bool.and_eq_true, Bool.not_eq_true'] at h
    by_cases hc : c = ']'
    · subst hc
      by_cases ha : acc = ""
      · simp [parseStep, ha, stateWf]
      · simp [parseStep, ha, stateWf, wfRev_pushParam h.2 h.1]
    · by_cases hn : nc c
      · simp [parseStep, hc, hn, stateWf, h.1, h.2]
      · simp [parseStep, hc, hn, stateWf]

/-- The parser invariant holds at the end of a run. -/
theorem parseRun_wf {nc : Char → Bool} :
    ∀ {cs : List Char} {i i2 : Nat} {st st2 : PState},
    parseRun nc cs i st = (i2, st2) → stateWf st = true → stateWf st2 = true := by
  intro cs
  induction cs with
  | nil =>
    intro i i2 st st2 h hw
    simp only [parseRun, Prod.mk.injEq] at h
    rw [← h.2]
    exact hw
  | cons c rest ih =>
    intro i i2 st st2 h hw
    simp only [parseRun] at h
    exact ih h (stateWf_step hw)

/-- Every successfully parsed segment path is well-formed. -/
theorem parse_wf {nc : Char → Bool} {s : String} {p : Path}
    (h : parse nc s = .ok p) : wfPath p = true := by
  rw [parse] at h
  split at h
  · rename_i i2 racc hrun
    simp only [Except.ok.injEq] at h
    rw [← h]
    exact wfRev_reverse (by simpa [stateWf] using parseRun_wf hrun (by simp [stateWf, wfRev]))
  · exact absurd h (by simp)
  · exact absurd h (by simp)

/-- The head of `pushChar` is always a literal. -/
theorem lastIsParam_pushChar (racc : Path) (c : Char) :
    lastIsParam (pushChar racc c) = false := by
  cases racc with
  | nil => rfl
  | cons t rest => cases t <;> rfl

/-- Unfolding: `segScan` on the empty remainder. -/
theorem segScan_nil (nc : Char → Bool) (i : Nat) (ap : Bool) :
    segScan nc [] i ap = none := by
  simp [segScan]

/-- Unfolding: `segScan` on a non-bracket character. -/
theorem segScan_chr {nc : Char → Bool} {c : Char} (hc : c ≠ '[')
    (rest : List Char) (i : Nat) (ap : Bool) :
    segScan nc (c :: rest) i ap = segScan nc rest (i + 1) false := by
  rw [segScan]
  simp [hc]

/-- Unfolding: `segScan` on `[` right after a parameter. -/
theorem segScan_adj (nc : Char → Bool) (rest : List Char) (i : Nat) :
    segScan nc ('[' :: rest) i true = some (.adjacent, i) := by
  rw [segScan]
  simp

/-- Unfolding: `segScan` on `[` whose name run is never closed. -/
theorem segScan_unterm {nc : Char → Bool} {rest : List Char}
    (hdrop : rest.drop (rest.takeWhile fun d => d ≠ ']' && nc d).length = [])
    (i : Nat) :
    segScan nc ('[' :: rest) i false =
      some (.unterminated, i + 1 + (rest.takeWhile fun d => d ≠ ']' && nc d).length) := by
  rw [segScan]
  simp only [Bool.false_eq_true, if_false]
  split
  · split
    · rfl
    · rename_i d rest2 heq
      rw [hdrop] at heq
      exact absurd heq (by simp)
  · rename_i hne
    exact absurd trivial hne

/-- Unfolding: `segScan` on `[` whose name run is closed by `]`. -/
theorem segScan_close {nc : Char → Bool} {rest rest2 : List Char}
    (hdrop : rest.drop (rest.takeWhile fun d => d ≠ ']' && nc d).length = ']' :: rest2)
    (i : Nat) :
    segScan nc ('[' :: rest) i false =
      (if (rest.takeWhile fun d => d ≠ ']' && nc d).isEmpty then some (.emptyName, i + 1)
       else segScan nc rest2 (i + (rest.takeWhile fun d => d ≠ ']' && nc d).length + 2) true) := by
  rw [segScan]
  simp only [Bool.false_eq_true, if_false]
  split
  · split
    · rename_i heq
      rw [hdrop] at heq
      exact absurd heq (by simp)
    · rename_i d r2 heq
      rw [hdrop] at heq
      simp only [List.cons.injEq] at heq
      rw [heq.1, heq.2]
      simp
  · rename_i hne
    exact absurd trivial hne

/-- Unfolding: `segScan` on `[` whose name run hits an invalid character. -/
theorem segScan_bad {nc : Char → Bool} {rest rest2 : List Char} {d : Char}
    (hdrop : rest.drop (rest.takeWhile fun e => e ≠ ']' && nc e).length = d :: rest2)
    (hd : d ≠ ']') (i : Nat) :
    segScan nc ('[' :: rest) i false =
      some (.badChar, i + 1 + (rest.takeWhile fun e => e ≠ ']' && nc e).length) := by
  rw [segScan]
  simp only [Bool.false_eq_true, if_false]
  split
  · split
    · rename_i heq
      rw [hdrop] at heq
      exact absurd heq (by simp)
    · rename_i d2 r2 heq
      rw [hdrop] at heq
      simp only [List.cons.injEq] at heq
      rw [← heq.1]
      simp [hd]
  · rename_i hne
    exact absurd trivial hne

/-- Behaviour of a run started inside a parameter name: the maximal run of
name characters is absorbed into the name, and what follows decides
between closing the parameter, an empty-name failure, an invalid-character
failure, or running off the end of the segment. -/
theorem parseRun_nameRun {nc : Char → Bool} :
    ∀ (cs run : List Char) (i : Nat) (acc : String) (racc : Path),
    cs.takeWhile (fun d => d ≠ ']' && nc d) = run →
    match cs.drop run.length with
    | [] => parseRun nc cs i (.name acc racc) =
        (i + cs.length, .name (String.mk (acc.data ++ run)) racc)
    | d :: rest2 =>
      if d = ']' then
        if acc.data ++ run = [] then
          parseRun nc cs i (.name acc racc) =
            (i + cs.length, .fail ("Missing parameter name at " ++ toString (i + run.length)))
        else
          parseRun nc cs i (.name acc racc) =
            parseRun nc rest2 (i + run.length + 1)
              (.scan (.param (String.mk (acc.data ++ run)) :: racc))
      else parseRun nc cs i (.name acc racc) =
        (i + cs.length, .fail ("Invalid name character at " ++ toString (i + run.length))) := by
  intro cs
  induction cs with
  | nil =>
    intro run i acc racc hrun
    rw [← hrun]
    simp only [List.takeWhile_nil, List.length_nil, List.drop_nil]
    simp [parseRun, String.ext_iff]
  | cons c rest ih =>
    intro run i acc racc hrun
    by_cases hc : c = ']'
    · subst hc
      have hrun0 : run = [] := by rw [← hrun]; simp [List.takeWhile_cons]
      subst hrun0
      simp only [List.length_nil, List.drop_zero]
      rw [if_pos trivial]
      by_cases ha : acc = ""
      · subst ha
        rw [if_pos (by simp)]
        have hps : parseStep nc i (.name "" racc) ']' =
            .fail ("Missing parameter name at " ++ toString i) := by
          simp [parseStep]
        simp only [parseRun, hps, parseRun_fail]
        simp only [List.length_cons, List.length_nil, Prod.mk.injEq]
        constructor
        · omega
        · simp
      · rw [if_neg (show ¬acc.data ++ [] = [] by simpa [String.ext_iff] using ha)]
        have hps : parseStep nc i (.name acc racc) ']' = .scan (.param acc :: racc) := by
          simp [parseStep, ha]
        simp only [parseRun, hps]
        have hmk : String.mk (acc.data ++ []) = acc := String.ext (by simp)
        rw [hmk]
    · by_cases hn : nc c
      · have hpred : (fun d => decide (d ≠ ']') && nc d) c = true := by simp [hc, hn]
        have hrun2 : rest.takeWhile (fun d => d ≠ ']' && nc d) = run.tail ∧
            run = c :: rest.takeWhile (fun d => d ≠ ']' && nc d) := by
          rw [← hrun]
          constructor
          · rw [List.takeWhile_cons, if_pos hpred]
            simp
          · rw [List.takeWhile_cons, if_pos hpred]
        obtain ⟨-, hrun3⟩ := hrun2
        have hps : parseStep nc i (.name acc racc) c = .name (acc.push c) racc := by
          simp [parseStep, hc, hn]
        have ihs := ih (rest.takeWhile fun d => d ≠ ']' && nc d) (i + 1) (acc.push c) racc rfl
        rw [hrun3]
        simp only [List.length_cons, List.drop_succ_cons]
        simp only [parseRun, hps]
        have hdata : (acc.push c).data ++ (rest.takeWhile fun d => d ≠ ']' && nc d) =
            acc.data ++ c :: (rest.takeWhile fun d => d ≠ ']' && nc d) := by
          rw [String.data_push]
          simp
        revert ihs
        cases hdrop : rest.drop (rest.takeWhile fun d => d ≠ ']' && nc d).length with
        | nil =>
          intro ihs
          simp only [] at ihs ⊢
          rw [ihs, hdata]
          simp only [List.length_cons, Prod.mk.injEq]
          exact ⟨by omega, trivial⟩
        | cons d rest2 =>
          intro ihs
          simp only [] at ihs ⊢
          by_cases hd : d = ']'
          · subst hd
            rw [if_pos rfl] at ihs ⊢
            by_cases hacc : acc.data ++ c :: (rest.takeWhile fun d => d ≠ ']' && nc d) = []
            · exact absurd hacc (by simp)
            · rw [if_neg hacc]
              have hacc2 : ¬(acc.push c).data ++ (rest.takeWhile fun d => d ≠ ']' && nc d) = [] := by
                rw [hdata]; exact hacc
              rw [if_neg hacc2] at ihs
              rw [ihs, hdata]
              have h1 : i + 1 + (rest.takeWhile fun d => d ≠ ']' && nc d).length + 1 =
                  i + ((rest.takeWhile fun d => d ≠ ']' && nc d).length + 1) + 1 := by
                omega
              rw [h1]
          · rw [if_neg hd] at ihs ⊢
            rw [ihs]
            have h1 : i + 1 + (rest.takeWhile fun d => d ≠ ']' && nc d).length =
                i + ((rest.takeWhile fun d => d ≠ ']' && nc d).length + 1) := by omega
            rw [h1]
            simp only [List.length_cons, Prod.mk.injEq]
            exact ⟨by omega, trivial⟩
      · have : run = [] := by
          rw [← hrun]
          simp [List.takeWhile_cons, hn]
        subst this
        simp only [List.length_nil, List.drop_zero, if_neg hc]
        have hps : parseStep nc i (.name acc racc) c =
            .fail ("Invalid name character at " ++ toString i) := by
          simp [parseStep, hc, hn]
        simp only [parseRun, hps, parseRun_fail]
        simp
        omega

/-- Correspondence between the parser and the claim-side scanner of C7:
from a top-level state, `segScan` returns no violation exactly when the
run ends in a `scan` state, and otherwise its violation kind and index
describe the run's failure — `unterminated` ends in a `name` state at the
end of the input, every other kind in the `fail` state with the matching
message. -/
theorem parseRun_segScan {nc : Char → Bool} :
    ∀ (n : Nat) (cs : List Char), cs.length < n → ∀ (i : Nat) (racc : Path),
    match segScan nc cs i (lastIsParam racc) with
    | none => ∃ i2 r2, parseRun nc cs i (.scan racc) = (i2, .scan r2)
    | some (.unterminated, j) =>
        (∃ acc2 r2, parseRun nc cs i (.scan racc) = (j, .name acc2 r2)) ∧ j = i + cs.length
    | some (k, j) =>
        parseRun nc cs i (.scan racc) = (i + cs.length, .fail (errMsg k j)) ∧ j ≤ i + cs.length := by
  intro n
  induction n with
  | zero => intro cs h; omega
  | succ n ih =>
    intro cs hlen i racc
    cases cs with
    | nil =>
      rw [segScan_nil]
      exact ⟨i, racc, rfl⟩
    | cons c rest =>
      by_cases hc : c = '['
      · subst hc
        cases hlp : lastIsParam racc with
        | true =>
          rw [segScan_adj]
          have hps : parseStep nc i (.scan racc) '[' =
              .fail ("A parameter must not immediately follow another paramter at " ++ toString i) := by
            simp [parseStep, hlp]
          simp only [parseRun, hps, parseRun_fail, errMsg]
          constructor
          · simp only [Prod.mk.injEq, List.length_cons]
            exact ⟨by omega, trivial⟩
          · simp only [List.length_cons]
            omega
        | false =>
          have hps : parseStep nc i (.scan racc) '[' = .name "" racc := by
            simp [parseStep, hlp]
          have hname := parseRun_nameRun rest (rest.takeWhile fun d => d ≠ ']' && nc d)
            (i + 1) "" racc rfl
          revert hname
          cases hdrop : rest.drop (rest.takeWhile fun d => d ≠ ']' && nc d).length with
          | nil =>
            intro hname
            simp only [] at hname
            rw [segScan_unterm hdrop]
            have hrl : (rest.takeWhile fun d => d ≠ ']' && nc d).length = rest.length := by
              have h1 : (rest.takeWhile fun d => d ≠ ']' && nc d).length ≤ rest.length :=
                (List.takeWhile_sublist _).length_le
              have h2 := congrArg List.length hdrop
              rw [List.length_drop] at h2
              simp only [List.length_nil] at h2
              omega
            constructor
            · refine ⟨String.mk (rest.takeWhile fun d => d ≠ ']' && nc d), racc, ?_⟩
              simp only [parseRun, hps]
              rw [hname]
              simp only [Prod.mk.injEq, List.length_cons]
              constructor
              · omega
              · simp
            · simp only [List.length_cons]
              omega
          | cons d rest2 =>
            intro hname
            simp only [] at hname
            by_cases hd : d = ']'
            · subst hd
              rw [segScan_close hdrop]
              by_cases hemp : (rest.takeWhile fun d => d ≠ ']' && nc d).isEmpty
              · rw [if_pos hemp]
                have hrun0 : (rest.takeWhile fun d => d ≠ ']' && nc d) = [] := by
                  simpa [List.isEmpty_iff] using hemp
                rw [if_pos (by simp [hrun0]), hrun0] at hname
                simp only [parseRun, hps]
                rw [hname]
                simp only [errMsg, List.length_nil, Prod.mk.injEq, List.length_cons]
                refine ⟨⟨by omega, by simp⟩, by omega⟩
              · rw [if_neg hemp]
                have hne : ¬("" : String).data ++ (rest.takeWhile fun d => d ≠ ']' && nc d) = [] := by
                  simpa [List.isEmpty_iff] using hemp
                rw [if_neg hne] at hname
                have hlen2 : rest2.length < n := by
                  have h2 := congrArg List.length hdrop
                  rw [List.length_drop] at h2
                  simp only [List.length_cons] at h2 hlen
                  have h1 : (rest.takeWhile fun d => d ≠ ']' && nc d).length ≤ rest.length :=
                    (List.takeWhile_sublist _).length_le
                  omega
                have := ih rest2 hlen2 (i + 1 + (rest.takeWhile fun d => d ≠ ']' && nc d).length + 1)
                  (.param (String.mk (("" : String).data ++ (rest.takeWhile fun d => d ≠ ']' && nc d))) :: racc)
                rw [show lastIsParam (.param (String.mk (("" : String).data ++
                    (rest.takeWhile fun d => d ≠ ']' && nc d))) :: racc) = true from rfl] at this
                have hidx : i + 1 + (rest.takeWhile fun d => d ≠ ']' && nc d).length + 1 =
                    i + (rest.takeWhile fun d => d ≠ ']' && nc d).length + 2 := by omega
                rw [hidx] at this
                have hcs : (rest.takeWhile fun d => d ≠ ']' && nc d).length + 2 + rest2.length =
                    ('[' :: rest).length := by
                  have h2 := congrArg List.length hdrop
                  rw [List.length_drop] at h2
                  simp only [List.length_cons] at h2
                  have h1 : (rest.takeWhile fun d => d ≠ ']' && nc d).length ≤ rest.length :=
                    (List.takeWhile_sublist _).length_le
                  simp only [List.length_cons]
                  omega
                revert this
                cases hss : segScan nc rest2 (i + (rest.takeWhile fun d => d ≠ ']' && nc d).length + 2) true with
                | none =>
                  intro this
                  obtain ⟨i2, r2, hpr⟩ := this
                  refine ⟨i2, r2, ?_⟩
                  simp only [parseRun, hps]
                  rw [hname, hidx]
                  exact hpr
                | some kj =>
                  obtain ⟨k, j⟩ := kj
                  intro this
                  cases k with
                  | unterminated =>
                    obtain ⟨⟨acc2, r2, hpr⟩, hj⟩ := this
                    constructor
                    · refine ⟨acc2, r2, ?_⟩
                      simp only [parseRun, hps]
                      rw [hname, hidx]
                      exact hpr
                    · rw [hj]
                      omega
                  | adjacent =>
                    obtain ⟨hpr, hj⟩ := this
                    constructor
                    · simp only [parseRun, hps]
                      rw [hname, hidx, hpr]
                      simp only [Prod.mk.injEq]
                      exact ⟨by omega, trivial⟩
                    · omega
                  | emptyName =>
                    obtain ⟨hpr, hj⟩ := this
                    constructor
                    · simp only [parseRun, hps]
                      rw [hname, hidx, hpr]
                      simp only [Prod.mk.injEq]
                      exact ⟨by omega, trivial⟩
                    · omega
                  | badChar =>
                    obtain ⟨hpr, hj⟩ := this
                    constructor
                    · simp only [parseRun, hps]
                      rw [hname, hidx, hpr]
                      simp only [Prod.mk.injEq]
                      exact ⟨by omega, trivial⟩
                    · omega
            · rw [segScan_bad hdrop hd]
              rw [if_neg hd] at hname
              simp only [parseRun, hps]
              rw [hname]
              have hrl : (rest.takeWhile fun d => d ≠ ']' && nc d).length < rest.length := by
                have h2 := congrArg List.length hdrop
                rw [List.length_drop] at h2
                simp only [List.length_cons] at h2
                have h1 : (rest.takeWhile fun d => d ≠ ']' && nc d).length ≤ rest.length :=
                  (List.takeWhile_sublist _).length_le
                omega
              simp only [errMsg, Prod.mk.injEq, List.length_cons]
              refine ⟨⟨by omega, trivial⟩, by omega⟩
      · rw [segScan_chr hc]
        have hps : parseStep nc i (.scan racc) c = .scan (pushChar racc c) := by
          simp [parseStep, hc]
        have hlen2 : rest.length < n := by
          simp only [List.length_cons] at hlen
          omega
        have := ih rest hlen2 (i + 1) (pushChar racc c)
        rw [lastIsParam_pushChar] at this
        revert this
        cases hss : segScan nc rest (i + 1) false with
        | none =>
          intro this
          obtain ⟨i2, r2, hpr⟩ := this
          refine ⟨i2, r2, ?_⟩
          simp only [parseRun, hps]
          exact hpr
        | some kj =>
          obtain ⟨k, j⟩ := kj
          intro this
          cases k with
          | unterminated =>
            obtain ⟨⟨acc2, r2, hpr⟩, hj⟩ := this
            refine ⟨⟨acc2, r2, ?_⟩, ?_⟩
            · simp only [parseRun, hps]
              exact hpr
            · rw [hj]
              simp only [List.length_cons]
              omega
          | adjacent =>
            obtain ⟨hpr, hj⟩ := this
            refine ⟨?_, ?_⟩
            · simp only [parseRun, hps]
              rw [hpr]
              simp only [Prod.mk.injEq, List.length_cons]
              exact ⟨by omega, trivial⟩
            · simp only [List.length_cons]
              omega
          | emptyName =>
            obtain ⟨hpr, hj⟩ := this
            refine ⟨?_, ?_⟩
            · simp only [parseRun, hps]
              rw [hpr]
              simp only [Prod.mk.injEq, List.length_cons]
              exact ⟨by omega, trivial⟩
            · simp only [List.length_cons]
              omega
          | badChar =>
            obtain ⟨hpr, hj⟩ := this
            refine ⟨?_, ?_⟩
            · simp only [parseRun, hps]
              rw [hpr]
              simp only [Prod.mk.injEq, List.length_cons]
              exact ⟨by omega, trivial⟩
            · simp only [List.length_cons]
              omega

/-- Claim C7 (parse error taxonomy): `parse` fails exactly on the segments
the claim-side scanner `segScan` flags — a parameter immediately following
a parameter, an empty parameter name, an unterminated bracket run, and an
invalid name character — and the error message is the flagged kind's
message carrying the flagged character index, which never exceeds the
segment length; on every other segment `parse` succeeds. -/
theorem parse_error_taxonomy (nc : Char → Bool) (s : String) :
    match segScan nc s.data 0 false with
    | none => ∃ p, parse nc s = .ok p
    | some (k, j) => parse nc s = .error (errMsg k j) ∧ j ≤ s.length := by
  have h := @parseRun_segScan nc (s.data.length + 1) s.data (by omega) 0 []
  rw [show lastIsParam [] = false from rfl] at h
  revert h
  cases hss : segScan nc s.data 0 false with
  | none =>
    intro h
    obtain ⟨i2, r2, hpr⟩ := h
    refine ⟨r2.reverse, ?_⟩
    rw [parse, hpr]
    try rfl
  | some kj =>
    obtain ⟨k, j⟩ := kj
    intro h
    have hsl : s.length = s.data.length := rfl
    cases k with
    | unterminated =>
      obtain ⟨⟨acc2, r2, hpr⟩, hj⟩ := h
      constructor
      · rw [parse, hpr]
        try rfl
      · omega
    | adjacent =>
      obtain ⟨hpr, hj⟩ := h
      constructor
      · rw [parse, hpr]
        try rfl
      · omega
    | emptyName =>
      obtain ⟨hpr, hj⟩ := h
      constructor
      · rw [parse, hpr]
        try rfl
      · omega
    | badChar =>
      obtain ⟨hpr, hj⟩ := h
      constructor
      · rw [parse, hpr]
        try rfl
      · omega

/-- Witness for `parse_roundTrip` at a concrete mixed segment. -/
theorem parse_roundTrip_w :
    parse Char.isAlphanum "a[b]c" = .ok [Token.lit "a", Token.param "b", Token.lit "c"] ∧
      serializePath [Token.lit "a", Token.param "b", Token.lit "c"] = "a[b]c" :=
  ⟨by decide, parse_roundTrip Char.isAlphanum "a[b]c" _ (by decide)⟩

/-! ## Lemmas about the matchers -/

/-- Characterization of `find?` over an initial range: the least index
below the bound satisfying the predicate. -/
theorem range_find_spec (p : Nat → Bool) :
    ∀ (n j : Nat),
    (List.range n).find? p = some j ↔
      (j < n ∧ p j = true ∧ ∀ k < j, p k = false) := by
  intro n
  induction n with
  | zero => intro j; simp
  | succ n ih =>
    intro j
    rw [List.range_succ, List.find?_append]
    constructor
    · intro h
      cases hf : (List.range n).find? p with
      | some j2 =>
        rw [hf] at h
        have h2 : some j2 = some j := h
        simp only [Option.some.injEq] at h2
        subst h2
        obtain ⟨ha, hb, hc⟩ := (ih j2).mp hf
        exact ⟨by omega, hb, hc⟩
      | none =>
        rw [hf] at h
        have h2 : List.find? p [n] = some j := h
        simp only [List.find?_cons_eq_some, List.find?_nil, Bool.not_eq_eq_eq_not,
          Bool.not_true, and_false, or_false] at h2
        rcases h2 with ⟨hp, hj⟩ | ⟨-, hbad⟩
        · refine ⟨by omega, hj ▸ hp, ?_⟩
          intro k hk
          have hkn : k < n := by omega
          have := List.find?_eq_none.mp hf k (by simpa using hkn)
          simpa using this
        · exact absurd hbad (by simp)
    · intro ⟨h1, h2, h3⟩
      by_cases hj : j < n
      · rw [(ih j).mpr ⟨hj, h2, h3⟩]
        rfl
      · have hjn : j = n := by omega
        have hf : (List.range n).find? p = none := by
          rw [List.find?_eq_none]
          intro x hx
          have hxn : x < n := by simpa using hx
          simp [h3 x (by omega)]
        rw [hf]
        have h4 : List.find? p [n] = some n := by
          simp [List.find?_cons, hjn ▸ h2]
        have h5 : (Option.none).or (List.find? p [n]) = List.find? p [n] := rfl
        rw [h5, h4, hjn]

/-- Characterization of `idxOf`: the least occurrence position at or after
the offset, within the string. -/
theorem idxOf_spec (s pat : List Char) (o j : Nat) :
    idxOf s pat o = some j ↔
      (j ≤ s.length ∧ o ≤ j ∧ substrAt s j pat = true ∧
        ∀ k < j, ¬(o ≤ k ∧ substrAt s k pat = true)) := by
  rw [idxOf, range_find_spec]
  constructor
  · intro ⟨h1, h2, h3⟩
    simp only [Bool.and_eq_true, decide_eq_true_eq] at h2
    refine ⟨by omega, h2.1, h2.2, ?_⟩
    intro k hk hc
    have := h3 k hk
    simp only [Bool.and_eq_true, decide_eq_true_eq] at this
    rw [hc.2] at this
    simp at this
    omega
  · intro ⟨h1, h2, h3, h4⟩
    refine ⟨by omega, by simp [h2, h3], ?_⟩
    intro k hk
    have := h4 k hk
    cases hok : decide (o ≤ k) with
    | false => simp [hok]
    | true =>
      simp only [decide_eq_true_eq] at hok
      cases hsk : substrAt s k pat with
      | false => simp [hsk]
      | true => exact absurd ⟨hok, hsk⟩ this

/-- A successful exact-substring test stays within the string. -/
theorem substrAt_length {s : List Char} {o : Nat} {pat : List Char}
    (h : substrAt s o pat = true) (ho : o ≤ s.length) :
    o + pat.length ≤ s.length := by
  simp only [substrAt, decide_eq_true_eq] at h
  have := congrArg List.length h
  simp only [List.length_take, List.length_drop] at this
  omega

/-- An exact-substring test is stable under extending the string to the
right. -/
theorem substrAt_extend {s t : List Char} {o : Nat} {pat : List Char}
    (h : substrAt s o pat = true) (ho : o ≤ s.length) :
    substrAt (s ++ t) o pat = true := by
  have hlen := substrAt_length h ho
  simp only [substrAt, decide_eq_true_eq] at h ⊢
  rw [List.drop_append_of_le_length ho, List.take_append_of_le_length (by
    rw [List.length_drop]
    omega)]
  exact h

/-- An exact-substring test within the original string is reflected from
the extended string. -/
theorem substrAt_restrict {s t : List Char} {o : Nat} {pat : List Char}
    (h : substrAt (s ++ t) o pat = true) (ho : o + pat.length ≤ s.length) :
    substrAt s o pat = true := by
  simp only [substrAt, decide_eq_true_eq] at h ⊢
  rw [List.drop_append_of_le_length (by omega),
    List.take_append_of_le_length (by rw [List.length_drop]; omega)] at h
  exact h

/-- The leftmost occurrence is unchanged by extending the string to the
right. -/
theorem idxOf_extend {s t pat : List Char} {o j : Nat}
    (h : idxOf s pat o = some j) : idxOf (s ++ t) pat o = some j := by
  obtain ⟨h1, h2, h3, h4⟩ := (idxOf_spec s pat o j).mp h
  have hjl := substrAt_length h3 h1
  rw [idxOf_spec]
  refine ⟨by simp; omega, h2, substrAt_extend h3 h1, ?_⟩
  intro k hk ⟨hok, hsk⟩
  have hkl : k + pat.length ≤ s.length := by omega
  exact h4 k hk ⟨hok, substrAt_restrict hsk hkl⟩

/-- Dropping the head of a two-or-more token path preserves the
final-token shape. -/
theorem endsLit_cons (tok x : Token) (xs : List Token) :
    endsLit (tok :: x :: xs) = endsLit (x :: xs) := by
  cases tok <;> rfl

/-- A match whose segment path ends in a literal token is unaffected by
appending further characters to the input: the scan never inspects the
input past the final literal, so any extension is accepted with the same
captures. -/
theorem matchGo_extend (t : List Char) :
    ∀ (p : Path) (s : List Char) (o : Nat),
    endsLit p = true → o ≤ s.length →
    ∀ vs, matchGo p s o = some vs → matchGo p (s ++ t) o = some vs := by
  intro p s o
  induction p, s, o using matchGo.induct with
  | case1 s o =>
    intro hend
    simp [endsLit] at hend
  | case2 tok rest s =>
    intro hend ho vs hmatch
    rw [matchGo.eq_def] at hmatch
    simp only [] at hmatch
    rw [if_pos trivial] at hmatch
    exact absurd hmatch (by simp)
  | case3 rest s o hlen a hsub ih =>
    intro hend ho vs hmatch
    rw [matchGo] at hmatch ⊢
    rw [if_neg hlen, if_pos hsub] at hmatch
    have hne2 : ¬(s ++ t).length = o := by
      simp only [List.length_append]
      omega
    rw [if_neg hne2, if_pos (substrAt_extend hsub ho)]
    have ho2 : o + a.length ≤ s.length := substrAt_length hsub ho
    cases rest with
    | nil =>
      simp only [matchGo] at hmatch ⊢
      exact hmatch
    | cons x xs =>
      have hend2 : endsLit (x :: xs) = true := by
        rw [endsLit_cons] at hend
        exact hend
      exact ih hend2 ho2 vs hmatch
  | case4 rest s o hlen a hsub =>
    intro hend ho vs hmatch
    rw [matchGo, if_neg hlen, if_neg hsub] at hmatch
    exact absurd hmatch (by simp)
  | case5 s o hlen a =>
    intro hend
    simp [endsLit] at hend
  | case6 s o hlen a nx rest2 hidx =>
    intro hend ho vs hmatch
    rw [matchGo, if_neg hlen, hidx] at hmatch
    simp only [] at hmatch
    exact absurd hmatch (by simp)
  | case7 s a nx rest2 j hlen hidx =>
    intro hend ho vs hmatch
    rw [matchGo, if_neg hlen, hidx] at hmatch
    simp only [] at hmatch
    rw [if_pos trivial] at hmatch
    exact absurd hmatch (by simp)
  | case8 s o hlen a nx rest2 j hidx hj ps hrec ih =>
    intro hend ho vs hmatch
    rw [matchGo, if_neg hlen, hidx] at hmatch
    simp only [] at hmatch
    rw [if_neg hj, hrec] at hmatch
    simp only [] at hmatch
    obtain ⟨hjle, hoj, hsub, -⟩ := (idxOf_spec s nx.data o j).mp hidx
    have hjnx : j + nx.length ≤ s.length := substrAt_length hsub hjle
    have hne2 : ¬(s ++ t).length = o := by
      simp only [List.length_append]
      omega
    rw [matchGo, if_neg hne2, idxOf_extend hidx]
    simp only []
    rw [if_neg hj]
    have hcap : ((s ++ t).drop o).take (j - o) = (s.drop o).take (j - o) := by
      rw [List.drop_append_of_le_length ho, List.take_append_of_le_length]
      rw [List.length_drop]
      omega
    cases rest2 with
    | nil =>
      simp only [matchGo] at hrec ⊢
      simp only [Option.some.injEq] at hrec
      rw [← hmatch, ← hrec, hcap]
    | cons x xs =>
      have hend2 : endsLit (x :: xs) = true := by
        rw [endsLit_cons, endsLit_cons] at hend
        exact hend
      rw [ih hend2 hjnx ps hrec, hcap]
      exact hmatch
  | case9 s o hlen a nx rest2 j hidx hj hrec ih =>
    intro hend ho vs hmatch
    rw [matchGo, if_neg hlen, hidx] at hmatch
    simp only [] at hmatch
    rw [if_neg hj, hrec] at hmatch
    simp only [] at hmatch
    exact absurd hmatch (by simp)
  | case10 s o hlen a name tail =>
    intro hend ho vs hmatch
    rw [matchGo, if_neg hlen] at hmatch
    exact absurd hmatch (by simp)

/-- Counterexample to claim C2 as stated: the matcher for the segment
pattern `a[p]b` accepts the input segment `aXbY` — the trailing `Y` after
the final literal is never checked, so the tokens need not account for the
input up to its end. -/
theorem createMatch_no_full_consumption :
    createMatch [Token.lit "a", Token.param "p", Token.lit "b"] "aXbY" = some ["X"] := by
  decide

/-- Claim C2 amended: the matcher checks its tokens against a prefix of
the input segment only.  When the segment path ends with a literal token,
any extension of an accepted input is accepted with the same captured
values (so `a[p]b` accepts `aXbY`); full consumption is enforced only by a
trailing parameter, which captures the remainder. -/
theorem createMatch_trailing (p : Path) (hend : endsLit p = true)
    (s t : String) (vs : List String) (h : createMatch p s = some vs) :
    createMatch p (s ++ t) = some vs := by
  have hne : p ≠ [] := by
    intro he
    rw [he] at hend
    simp [endsLit] at hend
  rw [createMatch, if_neg (by simpa using hne)] at h ⊢
  have hdata : (s ++ t).data = s.data ++ t.data := String.data_append s t
  rw [hdata]
  exact matchGo_extend t.data p s.data 0 hend (by omega) vs h

/-- Witness for `createMatch_trailing`: `a[p]b` accepts `aXb` and hence
also its extension `aXbY`, capturing `X` both times. -/
theorem createMatch_trailing_w :
    endsLit [Token.lit "a", Token.param "p", Token.lit "b"] = true ∧
      createMatch [Token.lit "a", Token.param "p", Token.lit "b"] "aXb" = some ["X"] ∧
      createMatch [Token.lit "a", Token.param "p", Token.lit "b"] ("aXb" ++ "Y") = some ["X"] :=
  ⟨by decide, by decide,
    createMatch_trailing _ (by decide) "aXb" "Y" ["X"] (by decide)⟩

/-- The matcher loop agrees with the capture relation `Caps` of claim C3
at every in-range offset. -/
theorem matchGo_iff_caps :
    ∀ (p : Path) (s : List Char) (o : Nat),
    o ≤ s.length → ∀ (vs : List String),
    (matchGo p s o = some vs ↔ Caps s p o vs) := by
  intro p s o
  induction p, s, o using matchGo.induct with
  | case1 s o =>
    intro ho vs
    simp only [matchGo, Option.some.injEq]
    constructor
    · intro h
      rw [← h]
      exact Caps.done o
    · intro h
      cases h
      rfl
  | case2 tok rest s =>
    intro ho vs
    constructor
    · intro hmatch
      rw [matchGo.eq_def] at hmatch
      simp only [] at hmatch
      rw [if_pos trivial] at hmatch
      exact absurd hmatch (by simp)
    · intro hcaps
      cases tok with
      | lit a =>
        cases hcaps with
        | lit _ _ _ _ hlt => omega
      | param a =>
        cases rest with
        | nil =>
          cases hcaps with
          | last _ _ hlt => omega
        | cons x xs =>
          cases x with
          | lit nx =>
            cases hcaps with
            | mid _ _ _ _ _ _ hlt => omega
          | param nm => cases hcaps
  | case3 rest s o hlen a hsub ih =>
    intro ho vs
    rw [matchGo, if_neg hlen, if_pos hsub]
    have ho2 : o + a.length ≤ s.length := substrAt_length hsub ho
    rw [ih ho2 vs]
    constructor
    · intro h
      exact Caps.lit a rest o vs (by omega) (by simpa [substrAt] using hsub) h
    · intro h
      cases h with
      | lit _ _ _ _ hne hsub2 hrest => exact hrest
  | case4 rest s o hlen a hsub =>
    intro ho vs
    rw [matchGo, if_neg hlen, if_neg hsub]
    constructor
    · intro h
      exact absurd h (by simp)
    · intro h
      cases h with
      | lit _ _ _ _ hne hsub2 hrest =>
        exact absurd (by simpa [substrAt] using hsub2) hsub
  | case5 s o hlen a =>
    intro ho vs
    rw [matchGo, if_neg hlen]
    constructor
    · intro h
      simp only [Option.some.injEq] at h
      rw [← h]
      exact Caps.last a o (by omega)
    · intro h
      cases h with
      | last _ _ hlt => rfl
  | case6 s o hlen a nx rest2 hidx =>
    intro ho vs
    rw [matchGo, if_neg hlen, hidx]
    simp only []
    constructor
    · intro h
      exact absurd h (by simp)
    · intro h
      cases h with
      | mid _ _ _ _ j _ _ hj hjo hrest =>
        rw [hidx] at hj
        exact absurd hj (by simp)
  | case7 s a nx rest2 j hlen hidx =>
    intro ho vs
    rw [matchGo, if_neg hlen, hidx]
    simp only []
    rw [if_pos trivial]
    constructor
    · intro h
      exact absurd h (by simp)
    · intro h
      cases h with
      | mid _ _ _ _ j2 _ _ hj hjo hrest =>
        rw [hidx] at hj
        simp only [Option.some.injEq] at hj
        exact absurd hj.symm hjo
  | case8 s o hlen a nx rest2 j hidx hj ps hrec ih =>
    intro ho vs
    rw [matchGo, if_neg hlen, hidx]
    simp only []
    rw [if_neg hj, hrec]
    simp only []
    obtain ⟨hjle, hoj, hsub, -⟩ := (idxOf_spec s nx.data o j).mp hidx
    have hjnx : j + nx.length ≤ s.length := substrAt_length hsub hjle
    constructor
    · intro h
      simp only [Option.some.injEq] at h
      rw [← h]
      exact Caps.mid a nx rest2 o j ps (by omega) hidx hj ((ih hjnx ps).mp hrec)
    · intro h
      cases h with
      | mid _ _ _ _ j2 vs2 _ hj2 hjo hrest =>
        rw [hidx] at hj2
        simp only [Option.some.injEq] at hj2
        subst hj2
        have := (ih hjnx vs2).mpr hrest
        rw [hrec] at this
        simp only [Option.some.injEq] at this
        rw [this]
  | case9 s o hlen a nx rest2 j hidx hj hrec ih =>
    intro ho vs
    rw [matchGo, if_neg hlen, hidx]
    simp only []
    rw [if_neg hj, hrec]
    simp only []
    obtain ⟨hjle, hoj, hsub, -⟩ := (idxOf_spec s nx.data o j).mp hidx
    have hjnx : j + nx.length ≤ s.length := substrAt_length hsub hjle
    constructor
    · intro h
      exact absurd h (by simp)
    · intro h
      cases h with
      | mid _ _ _ _ j2 vs2 _ hj2 hjo hrest =>
        rw [hidx] at hj2
        simp only [Option.some.injEq] at hj2
        subst hj2
        have := (ih hjnx vs2).mpr hrest
        rw [hrec] at this
        exact absurd this (by simp)
  | case10 s o hlen a name tail =>
    intro ho vs
    rw [matchGo, if_neg hlen]
    constructor
    · intro h
      exact absurd h (by simp)
    · intro h
      cases h

/-- Claim C3 (parameter-extent semantics): on any nonempty segment path,
the compiled matcher succeeds with values `vs` exactly when `vs` is the
capture assignment of `Caps` — each parameter followed by a literal
captures precisely the text from the scan offset to the first occurrence
of that literal at or after the offset, a final parameter captures the
remainder of the input, and every capture is nonempty (the offset is
strictly inside the input and the delimiting occurrence is strictly past
the offset). -/
theorem createMatch_caps (p : Path) (hne : p ≠ []) (seg : String)
    (vs : List String) :
    createMatch p seg = some vs ↔ Caps seg.data p 0 vs := by
  rw [createMatch, if_neg (by simpa using hne)]
  exact matchGo_iff_caps p seg.data 0 (by omega) vs

/-- Witness for `createMatch_caps` at the spec's concrete example: the
matcher for `[key]@[value]` on `foo@bar@baz` extracts `foo` and
`bar@baz`. -/
theorem createMatch_caps_w :
    ([Token.param "key", Token.lit "@", Token.param "value"] : Path) ≠ [] ∧
      Caps "foo@bar@baz".data [Token.param "key", Token.lit "@", Token.param "value"] 0
        ["foo", "bar@baz"] :=
  ⟨by decide,
    (createMatch_caps [Token.param "key", Token.lit "@", Token.param "value"]
      (by decide) "foo@bar@baz" ["foo", "bar@baz"]).mp (by decide)⟩

/-! ## Order theory of the sorting comparator (for C4 and C8)

`Ordering.then` bookkeeping, then asymmetry / substitutivity /
transitivity for each layer of `cmpRoutes`. -/

theorem then_lt_iff (x y : Ordering) :
    x.then y = .lt ↔ x = .lt ∨ (x = .eq ∧ y = .lt) := by
  cases x <;> simp [Ordering.then]

theorem then_eq_iff (x y : Ordering) :
    x.then y = .eq ↔ x = .eq ∧ y = .eq := by
  cases x <;> simp [Ordering.then]

theorem then_swap (x y : Ordering) :
    (x.then y).swap = x.swap.then y.swap := by
  cases x <;> cases y <;> rfl

theorem listLtCh_irrefl (a : List Char) : listLtCh a a = false := by
  induction a with
  | nil => rfl
  | cons x xs ih => simp [listLtCh, ih]

theorem listLtCh_asymm {a b : List Char} (h : listLtCh a b = true) :
    listLtCh b a = false := by
  induction a generalizing b with
  | nil =>
    cases b with
    | nil => simp [listLtCh] at h
    | cons y ys => rfl
  | cons x xs ih =>
    cases b with
    | nil => simp [listLtCh] at h
    | cons y ys =>
      rcases lt_trichotomy x y with hxy | hxy | hxy
      · simp [listLtCh, hxy, lt_asymm hxy]
      · subst hxy
        simp only [listLtCh, lt_irrefl, if_false] at h ⊢
        exact ih h
      · simp [listLtCh, hxy, lt_asymm hxy] at h

theorem listLtCh_conn : ∀ {a b : List Char},
    listLtCh a b = false → listLtCh b a = false → a = b := by
  intro a
  induction a with
  | nil =>
    intro b h1 _
    cases b with
    | nil => rfl
    | cons y ys => simp [listLtCh] at h1
  | cons x xs ih =>
    intro b h1 h2
    cases b with
    | nil => simp [listLtCh] at h2
    | cons y ys =>
      rcases lt_trichotomy x y with hxy | hxy | hxy
      · simp [listLtCh, hxy] at h1
      · subst hxy
        simp only [listLtCh, lt_irrefl, if_false] at h1 h2
        rw [ih h1 h2]
      · simp [listLtCh, hxy] at h2

theorem listLtCh_trans : ∀ {a b c : List Char},
    listLtCh a b = true → listLtCh b c = true → listLtCh a c = true := by
  intro a
  induction a with
  | nil =>
    intro b c h1 h2
    cases b with
    | nil => simp [listLtCh] at h1
    | cons y ys =>
      cases c with
      | nil => simp [listLtCh] at h2
      | cons z zs => rfl
  | cons x xs ih =>
    intro b c h1 h2
    cases b with
    | nil => simp [listLtCh] at h1
    | cons y ys =>
      cases c with
      | nil => simp [listLtCh] at h2
      | cons z zs =>
        rcases lt_trichotomy x y with hxy | hxy | hxy
        · rcases lt_trichotomy y z with hyz | hyz | hyz
          · simp [listLtCh, lt_trans hxy hyz]
          · subst hyz; simp [listLtCh, hxy]
          · simp [listLtCh, hyz, lt_asymm hyz] at h2
        · subst hxy
          simp only [listLtCh, lt_irrefl, if_false] at h1
          rcases lt_trichotomy x z with hxz | hxz | hxz
          · simp [listLtCh, hxz]
          · subst hxz
            simp only [listLtCh, lt_irrefl, if_false] at h2 ⊢
            exact ih h1 h2
          · simp [listLtCh, hxz, lt_asymm hxz] at h2
        · simp [listLtCh, hxy, lt_asymm hxy] at h1

theorem litLt_irrefl (a : String) : litLt a a = false := listLtCh_irrefl a.data

theorem litLt_asymm {a b : String} (h : litLt a b = true) : litLt b a = false :=
  listLtCh_asymm h

theorem litLt_conn {a b : String} (h1 : litLt a b = false)
    (h2 : litLt b a = false) : a = b :=
  String.ext (listLtCh_conn h1 h2)

theorem litLt_trans {a b c : String} (h1 : litLt a b = true)
    (h2 : litLt b c = true) : litLt a c = true :=
  listLtCh_trans h1 h2

theorem cmpTok_lit_lt {s t : String} :
    cmpTok (.lit s) (.lit t) = .lt ↔ litLt s t = true := by
  constructor
  · intro h
    by_cases hst : s = t
    · subst hst; simp [cmpTok] at h
    · rw [cmpTok, if_neg hst] at h
      cases hts : litLt t s with
      | true => rw [if_pos hts] at h; exact absurd h (by simp)
      | false =>
        cases hlt : litLt s t with
        | true => rfl
        | false => exact absurd (litLt_conn hlt hts) hst
  · intro h
    have hst : s ≠ t := fun he => by
      subst he; rw [litLt_irrefl] at h; exact absurd h (by simp)
    rw [cmpTok, if_neg hst, if_neg (by simp [litLt_asymm h])]

theorem cmpTok_swap (a b : Token) : cmpTok b a = (cmpTok a b).swap := by
  cases a with
  | lit s =>
    cases b with
    | lit t =>
      by_cases hst : s = t
      · subst hst; simp [cmpTok, Ordering.swap]
      · rw [cmpTok, cmpTok, if_neg hst, if_neg (Ne.symm hst)]
        cases hts : litLt t s with
        | true => simp [litLt_asymm hts, Ordering.swap]
        | false =>
          cases hlt : litLt s t with
          | true => simp [Ordering.swap]
          | false => exact absurd (litLt_conn hlt hts) hst
    | param n => rfl
  | param m => cases b <;> rfl

theorem cmpTok_subst {a b : Token} (h : cmpTok a b = .eq) (c : Token) :
    cmpTok a c = cmpTok b c := by
  cases a with
  | lit s =>
    cases b with
    | lit t =>
      by_cases hst : s = t
      · subst hst; rfl
      · rw [cmpTok, if_neg hst] at h
        split at h <;> exact absurd h (by simp)
    | param n => exact absurd h (by simp [cmpTok])
  | param m =>
    cases b with
    | lit t => exact absurd h (by simp [cmpTok])
    | param n => cases c <;> rfl

theorem cmpTok_subst_r {b c : Token} (h : cmpTok b c = .eq) (a : Token) :
    cmpTok a b = cmpTok a c := by
  rw [cmpTok_swap b a, cmpTok_subst h a, cmpTok_swap c a]

theorem cmpTok_lt_trans {a b c : Token} (h1 : cmpTok a b = .lt)
    (h2 : cmpTok b c = .lt) : cmpTok a c = .lt := by
  cases a with
  | lit s =>
    cases b with
    | lit t =>
      cases c with
      | lit u =>
        exact cmpTok_lit_lt.2 (litLt_trans (cmpTok_lit_lt.1 h1) (cmpTok_lit_lt.1 h2))
      | param n => rfl
    | param m =>
      cases c with
      | lit u => exact absurd h2 (by simp [cmpTok])
      | param n => exact absurd h2 (by simp [cmpTok])
  | param m =>
    cases b <;> exact absurd h1 (by simp [cmpTok])

theorem cmpToks_swap : ∀ (a b : Path), cmpToks b a = (cmpToks a b).swap := by
  intro a
  induction a with
  | nil =>
    intro b
    cases b with
    | nil => rfl
    | cons y ys => cases y <;> rfl
  | cons x xs ih =>
    intro b
    cases b with
    | nil => cases x <;> rfl
    | cons y ys =>
      simp only [cmpToks]
      rw [then_swap, cmpTok_swap, ih]

theorem cmpToks_subst : ∀ {a b : Path}, cmpToks a b = .eq →
    ∀ c, cmpToks a c = cmpToks b c := by
  intro a
  induction a with
  | nil =>
    intro b h c
    cases b with
    | nil => rfl
    | cons y ys => cases y <;> exact absurd h (by simp [cmpToks])
  | cons x xs ih =>
    intro b h c
    cases b with
    | nil => cases x <;> exact absurd h (by simp [cmpToks])
    | cons y ys =>
      simp only [cmpToks] at h
      have h' := (then_eq_iff _ _).1 h
      cases c with
      | nil =>
        cases x with
        | lit s =>
          cases y with
          | lit t => rfl
          | param n => exact absurd h'.1 (by simp [cmpTok])
        | param m =>
          cases y with
          | lit t => exact absurd h'.1 (by simp [cmpTok])
          | param n => rfl
      | cons z zs =>
        simp only [cmpToks]
        rw [cmpTok_subst h'.1 z, ih h'.2 zs]

theorem cmpToks_subst_r {b c : Path} (h : cmpToks b c = .eq) (a : Path) :
    cmpToks a b = cmpToks a c := by
  rw [cmpToks_swap b a, cmpToks_subst h a, cmpToks_swap c a]

theorem cmpToks_lt_trans : ∀ {a b c : Path}, cmpToks a b = .lt →
    cmpToks b c = .lt → cmpToks a c = .lt := by
  intro a
  induction a with
  | nil =>
    intro b c h1 h2
    cases b with
    | nil => exact absurd h1 (by simp [cmpToks])
    | cons y ys =>
      cases y with
      | lit t => exact absurd h1 (by simp [cmpToks])
      | param m =>
        cases c with
        | nil => exact absurd h2 (by simp [cmpToks])
        | cons z zs =>
          simp only [cmpToks] at h2
          rcases (then_lt_iff _ _).1 h2 with hz | ⟨hz, _⟩
          · cases z <;> exact absurd hz (by simp [cmpTok])
          · cases z with
            | lit u => exact absurd hz (by simp [cmpTok])
            | param n => rfl
  | cons x xs ih =>
    intro b c h1 h2
    cases b with
    | nil =>
      cases x with
      | lit s =>
        cases c with
        | nil => exact absurd h2 (by simp [cmpToks])
        | cons z zs =>
          cases z with
          | lit u => exact absurd h2 (by simp [cmpToks])
          | param n =>
            simp only [cmpToks, cmpTok]
            rfl
      | param m => exact absurd h1 (by simp [cmpToks])
    | cons y ys =>
      cases c with
      | nil =>
        cases y with
        | lit t =>
          simp only [cmpToks] at h1
          rcases (then_lt_iff _ _).1 h1 with hx | ⟨hx, _⟩ <;>
          · cases x with
            | lit s => rfl
            | param m => exact absurd hx (by simp [cmpTok])
        | param m => exact absurd h2 (by simp [cmpToks])
      | cons z zs =>
        simp only [cmpToks] at h1 h2 ⊢
        rcases (then_lt_iff _ _).1 h1 with h1a | ⟨h1a, h1b⟩ <;>
          rcases (then_lt_iff _ _).1 h2 with h2a | ⟨h2a, h2b⟩
        · exact (then_lt_iff _ _).2 (Or.inl (cmpTok_lt_trans h1a h2a))
        · have hxz : cmpTok x z = .lt := by
            rw [← cmpTok_subst_r h2a x]; exact h1a
          exact (then_lt_iff _ _).2 (Or.inl hxz)
        · have hxz : cmpTok x z = .lt := by
            rw [cmpTok_subst h1a z]; exact h2a
          exact (then_lt_iff _ _).2 (Or.inl hxz)
        · have hxz : cmpTok x z = .eq := by
            rw [cmpTok_subst h1a z]; exact h2a
          exact (then_lt_iff _ _).2 (Or.inr ⟨hxz, ih h1b h2b⟩)

theorem cmpSegs_swap : ∀ (a b : List Path), cmpSegs b a = (cmpSegs a b).swap := by
  intro a
  induction a with
  | nil =>
    intro b
    cases b with
    | nil => rfl
    | cons y ys => rfl
  | cons x xs ih =>
    intro b
    cases b with
    | nil => rfl
    | cons y ys =>
      simp only [cmpSegs]
      rw [then_swap, cmpToks_swap, ih]

theorem cmpSegs_subst : ∀ {a b : List Path}, a.length = b.length →
    cmpSegs a b = .eq → ∀ c, cmpSegs a c = cmpSegs b c := by
  intro a
  induction a with
  | nil =>
    intro b hl _ c
    cases b with
    | nil => rfl
    | cons y ys => exact absurd hl (by simp)
  | cons x xs ih =>
    intro b hl h c
    cases b with
    | nil => exact absurd hl (by simp)
    | cons y ys =>
      simp only [cmpSegs] at h
      have h' := (then_eq_iff _ _).1 h
      cases c with
      | nil => rfl
      | cons z zs =>
        simp only [cmpSegs]
        rw [cmpToks_subst h'.1 z, ih (by simpa using hl) h'.2 zs]

theorem cmpSegs_lt_trans : ∀ {a b c : List Path}, cmpSegs a b = .lt →
    cmpSegs b c = .lt → cmpSegs a c = .lt := by
  intro a
  induction a with
  | nil =>
    intro b c h1 _
    cases b with
    | nil => exact absurd h1 (by simp [cmpSegs])
    | cons y ys => exact absurd h1 (by simp [cmpSegs])
  | cons x xs ih =>
    intro b c h1 h2
    cases b with
    | nil => exact absurd h1 (by simp [cmpSegs])
    | cons y ys =>
      cases c with
      | nil => exact absurd h2 (by simp [cmpSegs])
      | cons z zs =>
        simp only [cmpSegs] at h1 h2 ⊢
        rcases (then_lt_iff _ _).1 h1 with h1a | ⟨h1a, h1b⟩ <;>
          rcases (then_lt_iff _ _).1 h2 with h2a | ⟨h2a, h2b⟩
        · exact (then_lt_iff _ _).2 (Or.inl (cmpToks_lt_trans h1a h2a))
        · have hxz : cmpToks x z = .lt := by
            rw [← cmpToks_subst_r h2a x]; exact h1a
          exact (then_lt_iff _ _).2 (Or.inl hxz)
        · have hxz : cmpToks x z = .lt := by
            rw [cmpToks_subst h1a z]; exact h2a
          exact (then_lt_iff _ _).2 (Or.inl hxz)
        · have hxz : cmpToks x z = .eq := by
            rw [cmpToks_subst h1a z]; exact h2a
          exact (then_lt_iff _ _).2 (Or.inr ⟨hxz, ih h1b h2b⟩)

theorem cmpRoutes_swap (a b : List Path) : cmpRoutes b a = (cmpRoutes a b).swap := by
  rcases Nat.lt_trichotomy a.length b.length with hl | hl | hl
  · rw [cmpRoutes, cmpRoutes, if_neg (Nat.ne_of_lt hl),
      if_neg (Ne.symm (Nat.ne_of_lt hl)), if_pos hl, if_neg (Nat.lt_asymm hl)]
    rfl
  · rw [cmpRoutes, cmpRoutes, if_pos hl, if_pos hl.symm, cmpSegs_swap]
  · rw [cmpRoutes, cmpRoutes, if_neg (Ne.symm (Nat.ne_of_lt hl)),
      if_neg (Nat.ne_of_lt hl), if_pos hl, if_neg (Nat.lt_asymm hl)]
    rfl

theorem cmpRoutes_eq_parts {a b : List Path} (h : cmpRoutes a b = .eq) :
    a.length = b.length ∧ cmpSegs a b = .eq := by
  by_cases hl : a.length = b.length
  · rw [cmpRoutes, if_pos hl] at h
    exact ⟨hl, h⟩
  · rw [cmpRoutes, if_neg hl] at h
    split at h <;> exact absurd h (by simp)

theorem cmpRoutes_subst {a b : List Path} (h : cmpRoutes a b = .eq) :
    ∀ c, cmpRoutes a c = cmpRoutes b c := by
  intro c
  obtain ⟨hl, hs⟩ := cmpRoutes_eq_parts h
  rw [cmpRoutes, cmpRoutes, hl]
  by_cases hlc : b.length = c.length
  · rw [if_pos hlc, if_pos hlc, cmpSegs_subst hl hs c]
  · rw [if_neg hlc, if_neg hlc]

theorem cmpRoutes_lt_iff {a b : List Path} :
    cmpRoutes a b = .lt ↔
      a.length < b.length ∨ (a.length = b.length ∧ cmpSegs a b = .lt) := by
  rw [cmpRoutes]
  by_cases hl : a.length = b.length
  · rw [if_pos hl]
    simp [hl, Nat.lt_irrefl]
  · rw [if_neg hl]
    by_cases hlt : a.length < b.length
    · simp [hlt, hl]
    · simp [hlt, hl]

theorem cmpRoutes_lt_trans {a b c : List Path} (h1 : cmpRoutes a b = .lt)
    (h2 : cmpRoutes b c = .lt) : cmpRoutes a c = .lt := by
  rcases cmpRoutes_lt_iff.1 h1 with ha | ⟨ha, has⟩ <;>
    rcases cmpRoutes_lt_iff.1 h2 with hb | ⟨hb, hbs⟩
  · exact cmpRoutes_lt_iff.2 (Or.inl (Nat.lt_trans ha hb))
  · exact cmpRoutes_lt_iff.2 (Or.inl (hb ▸ ha))
  · exact cmpRoutes_lt_iff.2 (Or.inl (ha ▸ hb))
  · exact cmpRoutes_lt_iff.2 (Or.inr ⟨ha.trans hb, cmpSegs_lt_trans has hbs⟩)

theorem cmpRoutes_subst_r {b c : List Path} (h : cmpRoutes b c = .eq)
    (a : List Path) : cmpRoutes a b = cmpRoutes a c := by
  rw [cmpRoutes_swap b a, cmpRoutes_subst h a, cmpRoutes_swap c a]

theorem routeLe_total (a b : String × List Path) :
    routeLe a b = true ∨ routeLe b a = true := by
  by_cases h : cmpRoutes a.2 b.2 = .gt
  · right
    have : cmpRoutes b.2 a.2 = .lt := by rw [cmpRoutes_swap, h]; rfl
    simp [routeLe, this]
  · left
    simp [routeLe, h]

theorem routeLe_trans {a b c : String × List Path} (h1 : routeLe a b = true)
    (h2 : routeLe b c = true) : routeLe a c = true := by
  rw [routeLe] at h1 h2 ⊢
  simp only [ne_eq, decide_eq_true_eq] at h1 h2 ⊢
  cases hab : cmpRoutes a.2 b.2 with
  | gt => exact absurd hab h1
  | eq => rw [cmpRoutes_subst hab c.2]; exact h2
  | lt =>
    cases hbc : cmpRoutes b.2 c.2 with
    | gt => exact absurd hbc h2
    | eq =>
      rw [cmpRoutes_subst_r hbc a.2] at hab
      rw [hab]
      simp
    | lt =>
      rw [cmpRoutes_lt_trans hab hbc]
      simp

theorem insSorted_perm (le : α → α → Bool) (x : α) :
    ∀ l : List α, (insSorted le x l).Perm (x :: l) := by
  intro l
  induction l with
  | nil => exact List.Perm.refl _
  | cons y ys ih =>
    rw [insSorted]
    by_cases hxy : le x y = true
    · rw [if_pos hxy]
    · rw [if_neg hxy]
      exact (ih.cons y).trans (List.Perm.swap x y ys)

theorem sortBy_perm (le : α → α → Bool) (l : List α) : (sortBy le l).Perm l := by
  induction l with
  | nil => exact List.Perm.refl _
  | cons x xs ih =>
    show (insSorted le x (sortBy le xs)).Perm (x :: xs)
    exact (insSorted_perm le x (sortBy le xs)).trans (ih.cons x)

theorem insSorted_pairwise {le : α → α → Bool}
    (htot : ∀ a b, le a b = true ∨ le b a = true)
    (htr : ∀ a b c, le a b = true → le b c = true → le a c = true)
    (x : α) : ∀ {l : List α}, l.Pairwise (fun a b => le a b = true) →
    (insSorted le x l).Pairwise (fun a b => le a b = true) := by
  intro l
  induction l with
  | nil => intro _; simp [insSorted]
  | cons y ys ih =>
    intro h
    rw [List.pairwise_cons] at h
    rw [insSorted]
    by_cases hxy : le x y = true
    · rw [if_pos hxy, List.pairwise_cons]
      refine ⟨?hh, List.pairwise_cons.2 h⟩
      intro z hz
      rw [List.mem_cons] at hz
      rcases hz with hz | hz
      · subst hz; exact hxy
      · exact htr x y z hxy (h.1 z hz)
    · rw [if_neg hxy, List.pairwise_cons]
      refine ⟨?hh2, ih h.2⟩
      intro z hz
      have hz' : z ∈ x :: ys := ((insSorted_perm le x ys).mem_iff).1 hz
      rw [List.mem_cons] at hz'
      rcases hz' with hz' | hz'
      · subst hz'
        rcases htot z y with hx | hx
        · exact absurd hx hxy
        · exact hx
      · exact h.1 z hz'

theorem sortBy_pairwise {le : α → α → Bool}
    (htot : ∀ a b, le a b = true ∨ le b a = true)
    (htr : ∀ a b c, le a b = true → le b c = true → le a c = true)
    (l : List α) : (sortBy le l).Pairwise (fun a b => le a b = true) := by
  induction l with
  | nil => simp [sortBy]
  | cons x xs ih => exact insSorted_pairwise htot htr x ih

theorem insSorted_congr {le1 le2 : α → α → Bool} (h : ∀ a b, le1 a b = le2 a b)
    (x : α) : ∀ l : List α, insSorted le1 x l = insSorted le2 x l := by
  intro l
  induction l with
  | nil => rfl
  | cons y ys ih => rw [insSorted, insSorted, h x y, ih]

theorem sortBy_congr {le1 le2 : α → α → Bool} (h : ∀ a b, le1 a b = le2 a b)
    (l : List α) : sortBy le1 l = sortBy le2 l := by
  induction l with
  | nil => rfl
  | cons x xs ih =>
    show insSorted le1 x (sortBy le1 xs) = insSorted le2 x (sortBy le2 xs)
    rw [ih, insSorted_congr h]

theorem firstCmp_range_succ (f : Nat → Ordering) (n : Nat) :
    firstCmp ((List.range (n + 1)).map f) =
      (f 0).then (firstCmp ((List.range n).map fun j => f (j + 1))) := by
  rw [List.range_succ_eq_map, List.map_cons, List.map_map, firstCmp]
  rfl

theorem specTok_some_some (a b : Token) :
    specTokCmp (some a) (some b) = cmpTok a b := by
  cases a with
  | lit s =>
    cases b with
    | lit t =>
      by_cases hst : s = t
      · subst hst; simp [specTokCmp, cmpTok]
      · rw [specTokCmp, cmpTok, if_neg hst, if_neg hst]
        cases hlt : litLt s t with
        | true => simp [litLt_asymm hlt]
        | false =>
          cases hts : litLt t s with
          | true => simp
          | false => exact absurd (litLt_conn hlt hts) hst
    | param n => rfl
  | param m => cases b <;> rfl

theorem cmpToks_spec : ∀ (p q : Path), cmpToks p q = specSegCmp specTokCmp p q := by
  intro p
  induction p with
  | nil =>
    intro q
    cases q with
    | nil => rfl
    | cons y ys =>
      rw [specSegCmp]
      simp only [List.length_nil, List.length_cons, Nat.zero_max]
      rw [firstCmp_range_succ]
      simp only [List.getElem?_nil, List.getElem?_cons_zero]
      cases y <;> rfl
  | cons x xs ih =>
    intro q
    cases q with
    | nil =>
      rw [specSegCmp]
      simp only [List.length_nil, List.length_cons, Nat.max_zero]
      rw [firstCmp_range_succ]
      simp only [List.getElem?_nil, List.getElem?_cons_zero]
      cases x <;> rfl
    | cons y ys =>
      rw [specSegCmp]
      simp only [List.length_cons, Nat.succ_max_succ]
      rw [firstCmp_range_succ]
      simp only [List.getElem?_cons_zero, List.getElem?_cons_succ]
      rw [specTok_some_some]
      simp only [cmpToks]
      rw [ih ys, specSegCmp]

theorem cmpSegs_spec : ∀ (a b : List Path), a.length = b.length →
    cmpSegs a b =
      firstCmp ((a.zip b).map fun pq => specSegCmp specTokCmp pq.1 pq.2) := by
  intro a
  induction a with
  | nil =>
    intro b hl
    cases b with
    | nil => rfl
    | cons y ys => exact absurd hl (by simp)
  | cons x xs ih =>
    intro b hl
    cases b with
    | nil => exact absurd hl (by simp)
    | cons y ys =>
      simp only [cmpSegs, List.zip_cons_cons, List.map_cons, firstCmp]
      rw [cmpToks_spec, ih ys (by simpa using hl)]
      rfl

theorem cmpRoutes_spec (a b : List Path) :
    cmpRoutes a b = specRouteCmp specTokCmp a b := by
  rw [cmpRoutes, specRouteCmp]
  by_cases hl : a.length = b.length
  · rw [if_pos hl, if_pos hl, cmpSegs_spec a b hl]
    rfl
  · rw [if_neg hl, if_neg hl]
    by_cases hlt : a.length < b.length
    · rw [if_pos hlt]; rfl
    · rw [if_neg hlt]; rfl

theorem routeLe_spec (a b : String × List Path) :
    routeLe a b = specLe specTokCmp a b := by
  rw [routeLe, specLe, cmpRoutes_spec]

/-- **C4** (counterexample to the claim as stated): the claim's sorting
rules give no rule for a position where one token list is exhausted while
the other continues, so the routes `x[p]` and `x` compare equal under them
and the stable sort keeps the input order `[x[p], x]`; `buildRoutes`
actually orders `x` before `x[p]` (the source comparator ranks an exhausted
token list before a parameter at that position). -/
theorem buildRoutes_claim_cx :
    (buildRoutes Char.isAlphanum ["x[p]", "x"]).map (fun rs => rs.map Prod.fst) =
      .ok ["x", "x[p]"] ∧
    (["x[p]", "x"].mapM (parseRoute Char.isAlphanum)).map
        (fun ps => (sortBy (specLe claimTokCmp) ps).map Prod.fst) =
      .ok ["x[p]", "x"] := by
  constructor
  · decide
  · decide

/-- **C4** (amended): `buildRoutes` parses every input route and returns
them stably insertion-sorted by the claim's comparator amended with the
exhausted-position rule: fewer segments first; within equal segment
counts, position by position, literal before parameter, literals by
codepoint order, parameters tying, and an exhausted token list ranking
after a literal and before a parameter at that position.  The output is a
permutation of the parsed inputs and is pairwise nondecreasing under that
comparator. -/
theorem buildRoutes_sorting (nc : Char → Bool) (inputs : List String)
    (rs : List (String × List Path)) (h : buildRoutes nc inputs = .ok rs) :
    ∃ ps, inputs.mapM (parseRoute nc) = .ok ps ∧
      rs = sortBy (specLe specTokCmp) ps ∧
      rs.Perm ps ∧
      rs.Pairwise (fun a b => specLe specTokCmp a b = true) := by
  rw [buildRoutes] at h
  cases hm : inputs.mapM (parseRoute nc) with
  | error e =>
    rw [hm] at h
    have h' : Except.error (α := List (String × List Path)) e = Except.ok rs := h
    exact absurd h' (by simp)
  | ok ps =>
    rw [hm] at h
    have h' : Except.ok (ε := String) (sortBy routeLe ps) = Except.ok rs := h
    have h2 : sortBy routeLe ps = rs := by injection h'
    refine ⟨ps, rfl, ?he, ?hp, ?hs⟩
    · rw [← h2, sortBy_congr routeLe_spec]
    · rw [← h2]; exact sortBy_perm routeLe ps
    · rw [← h2]
      have hpw := sortBy_pairwise routeLe_total (fun a b c => routeLe_trans) ps
      refine hpw.imp ?him
      intro a b hab
      rw [← routeLe_spec]
      exact hab

theorem buildRoutes_sorting_w :
    ∃ ps, ["a/b", "c"].mapM (parseRoute Char.isAlphanum) = .ok ps ∧
      [("c", [[Token.lit "c"]]), ("a/b", [[Token.lit "a"], [Token.lit "b"]])] =
        sortBy (specLe specTokCmp) ps ∧
      List.Perm
        [("c", [[Token.lit "c"]]), ("a/b", [[Token.lit "a"], [Token.lit "b"]])]
        ps ∧
      List.Pairwise (fun a b => specLe specTokCmp a b = true)
        [("c", [[Token.lit "c"]]), ("a/b", [[Token.lit "a"], [Token.lit "b"]])] :=
  buildRoutes_sorting Char.isAlphanum ["a/b", "c"]
    [("c", [[Token.lit "c"]]), ("a/b", [[Token.lit "a"], [Token.lit "b"]])]
    (by decide)

/-! ## Trie insertion facts (for C6, C8, C10, C1) -/

theorem lookupStat_setStat : ∀ {ss : List (String × Trie)} {s : String}
    {c0 : Trie}, lookupStat ss s = some c0 → ∀ (c : Trie) (u : String),
    lookupStat (setStat ss s c) u = if s = u then some c else lookupStat ss u := by
  intro ss
  induction ss with
  | nil => intro s c0 h c u; exact absurd h (by simp [lookupStat])
  | cons kc rest ih =>
    intro s c0 h c u
    obtain ⟨k, c1⟩ := kc
    by_cases hks : k = s
    · subst hks
      rw [setStat, if_pos rfl]
      by_cases hku : k = u
      · subst hku
        rw [lookupStat, if_pos rfl, if_pos rfl]
      · rw [lookupStat, if_neg hku, if_neg hku, lookupStat, if_neg hku]
    · rw [lookupStat, if_neg hks] at h
      rw [setStat, if_neg hks]
      by_cases hku : k = u
      · subst hku
        have hsu : s ≠ k := fun he => hks he.symm
        rw [lookupStat, if_pos rfl, if_neg hsu, lookupStat, if_pos rfl]
      · rw [lookupStat, if_neg hku, ih h c u, lookupStat, if_neg hku]

theorem lookupStat_append_none : ∀ {ss : List (String × Trie)} {s : String},
    lookupStat ss s = none → ∀ (c : Trie) (u : String),
    lookupStat (ss ++ [(s, c)]) u =
      if s = u then some c else lookupStat ss u := by
  intro ss
  induction ss with
  | nil =>
    intro s _ c u
    rw [List.nil_append]
    simp [lookupStat]
  | cons kc rest ih =>
    intro s h c u
    obtain ⟨k, c1⟩ := kc
    by_cases hks : k = s
    · rw [lookupStat, if_pos hks] at h
      exact absurd h (by simp)
    · rw [lookupStat, if_neg hks] at h
      rw [List.cons_append]
      by_cases hku : k = u
      · subst hku
        have hsu : s ≠ k := fun he => hks he.symm
        rw [lookupStat, if_pos rfl, if_neg hsu, lookupStat, if_pos rfl]
      · rw [lookupStat, if_neg hku, ih h c u, lookupStat, if_neg hku]

theorem lookupDyn_setDyn : ∀ {ds : List (String × Path × Trie)} {k : String}
    {e0 : Path × Trie}, lookupDyn ds k = some e0 → ∀ (c : Trie) (u : String),
    lookupDyn (setDyn ds k c) u =
      if k = u then some (e0.1, c) else lookupDyn ds u := by
  intro ds
  induction ds with
  | nil => intro k e0 h c u; exact absurd h (by simp [lookupDyn])
  | cons ke rest ih =>
    intro k e0 h c u
    obtain ⟨k0, rep, c1⟩ := ke
    by_cases hks : k0 = k
    · subst hks
      rw [lookupDyn, if_pos rfl] at h
      injection h with he
      subst he
      rw [setDyn, if_pos rfl]
      by_cases hku : k0 = u
      · subst hku
        rw [lookupDyn, if_pos rfl, if_pos rfl]
      · rw [lookupDyn, if_neg hku, if_neg hku, lookupDyn, if_neg hku]
    · rw [lookupDyn, if_neg hks] at h
      rw [setDyn, if_neg hks]
      by_cases hku : k0 = u
      · subst hku
        have hku2 : k ≠ k0 := fun he => hks he.symm
        rw [lookupDyn, if_pos rfl, if_neg hku2, lookupDyn, if_pos rfl]
      · rw [lookupDyn, if_neg hku, ih h c u, lookupDyn, if_neg hku]

theorem lookupDyn_append_none : ∀ {ds : List (String × Path × Trie)}
    {k : String}, lookupDyn ds k = none → ∀ (rep : Path) (c : Trie) (u : String),
    lookupDyn (ds ++ [(k, rep, c)]) u =
      if k = u then some (rep, c) else lookupDyn ds u := by
  intro ds
  induction ds with
  | nil =>
    intro k _ rep c u
    rw [List.nil_append]
    simp [lookupDyn]
  | cons ke rest ih =>
    intro k h rep c u
    obtain ⟨k0, rep1, c1⟩ := ke
    by_cases hks : k0 = k
    · rw [lookupDyn, if_pos hks] at h
      exact absurd h (by simp)
    · rw [lookupDyn, if_neg hks] at h
      rw [List.cons_append]
      by_cases hku : k0 = u
      · subst hku
        have hku2 : k ≠ k0 := fun he => hks he.symm
        rw [lookupDyn, if_pos rfl, if_neg hku2, lookupDyn, if_pos rfl]
      · rw [lookupDyn, if_neg hku, ih h rep c u, lookupDyn, if_neg hku]

theorem hasSeq_empty : ∀ q, hasSeq (.node none [] []) q = false := by
  intro q
  cases q with
  | nil => rfl
  | cons x rest => cases x <;> rfl

theorem insertGo_hasSeq_error : ∀ {steps : List TransStep} {t : Trie}
    (route : String) (ks : List String),
    hasSeq t (steps.map TransStep.key) = true →
    insertGo steps t route ks = .error ("Route is already defined for " ++ route) := by
  intro steps
  induction steps with
  | nil =>
    intro t route ks h
    obtain ⟨term, ss, ds⟩ := t
    cases term with
    | none => simp [hasSeq] at h
    | some x => simp [insertGo]
  | cons st rest ih =>
    intro t route ks h
    obtain ⟨term, ss, ds⟩ := t
    cases st with
    | stat s =>
      rw [List.map_cons] at h
      simp only [TransStep.key] at h
      rw [hasSeq] at h
      cases hlook : lookupStat ss s with
      | none =>
        rw [hlook] at h
        simp at h
      | some c =>
        rw [hlook] at h
        simp only [] at h
        simp only [insertGo]
        rw [hlook]
        simp only []
        rw [ih route ks h]
        rfl
    | dyn k rep =>
      rw [List.map_cons] at h
      simp only [TransStep.key] at h
      rw [hasSeq] at h
      cases hlook : lookupDyn ds k with
      | none =>
        rw [hlook] at h
        simp at h
      | some e =>
        rw [hlook] at h
        simp only [] at h
        simp only [insertGo]
        rw [hlook]
        simp only []
        rw [ih route ks h]
        rfl

theorem insertGo_ok_spec : ∀ {steps : List TransStep} {t : Trie}
    {route : String} {ks : List String} {t' : Trie},
    insertGo steps t route ks = .ok t' →
    hasSeq t (steps.map TransStep.key) = false ∧
    ∀ q, hasSeq t' q = true ↔
      (hasSeq t q = true ∨ q = steps.map TransStep.key) := by
  intro steps
  induction steps with
  | nil =>
    intro t route ks t' h
    obtain ⟨term, ss, ds⟩ := t
    cases term with
    | some x => simp [insertGo] at h
    | none =>
      simp only [insertGo] at h
      injection h with h2
      subst h2
      refine ⟨rfl, ?hq⟩
      intro q
      cases q with
      | nil => simp [hasSeq]
      | cons x rest =>
        cases x with
        | stat s => simp [hasSeq]
        | dyn k => simp [hasSeq]
  | cons st rest ih =>
    intro t route ks t' h
    obtain ⟨term, ss, ds⟩ := t
    cases st with
    | stat s =>
      simp only [insertGo] at h
      cases hlook : lookupStat ss s with
      | some c =>
        rw [hlook] at h
        simp only [] at h
        cases hrec : insertGo rest c route ks with
        | error e =>
          rw [hrec] at h
          exact absurd h (by simp [Except.map])
        | ok c2 =>
          rw [hrec] at h
          simp only [Except.map] at h
          injection h with h2
          subst h2
          obtain ⟨hfal, hupd⟩ := ih hrec
          constructor
          · rw [List.map_cons]
            simp only [TransStep.key]
            rw [hasSeq, hlook]
            simp only []
            exact hfal
          · intro q
            cases q with
            | nil =>
              rw [List.map_cons]
              simp [hasSeq]
            | cons x q' =>
              cases x with
              | stat u =>
                rw [hasSeq, lookupStat_setStat hlook c2 u]
                by_cases hsu : s = u
                · subst hsu
                  rw [if_pos rfl]
                  simp only []
                  rw [hupd q', hasSeq, hlook]
                  simp [List.map_cons, TransStep.key]
                · rw [if_neg hsu]
                  rw [hasSeq]
                  have hne : u ≠ s := fun he => hsu he.symm
                  simp [List.map_cons, TransStep.key, hne]
              | dyn k2 =>
                rw [hasSeq, hasSeq]
                simp [List.map_cons, TransStep.key]
      | none =>
        rw [hlook] at h
        simp only [] at h
        cases hrec : insertGo rest (.node none [] []) route ks with
        | error e =>
          rw [hrec] at h
          exact absurd h (by simp [Except.map])
        | ok c2 =>
          rw [hrec] at h
          simp only [Except.map] at h
          injection h with h2
          subst h2
          obtain ⟨hfal, hupd⟩ := ih hrec
          have hc2 : ∀ q', hasSeq c2 q' = true ↔ q' = List.map TransStep.key rest := by
            intro q'
            rw [hupd q', hasSeq_empty]
            simp
          constructor
          · rw [List.map_cons]
            simp only [TransStep.key]
            rw [hasSeq, hlook]
          · intro q
            cases q with
            | nil =>
              rw [List.map_cons]
              simp [hasSeq]
            | cons x q' =>
              cases x with
              | stat u =>
                rw [hasSeq, lookupStat_append_none hlook c2 u]
                by_cases hsu : s = u
                · subst hsu
                  rw [if_pos rfl]
                  simp only []
                  rw [hc2 q', hasSeq, hlook]
                  simp [List.map_cons, TransStep.key]
                · rw [if_neg hsu]
                  rw [hasSeq]
                  have hne : u ≠ s := fun he => hsu he.symm
                  simp [List.map_cons, TransStep.key, hne]
              | dyn k2 =>
                rw [hasSeq, hasSeq]
                simp [List.map_cons, TransStep.key]
    | dyn k rep =>
      simp only [insertGo] at h
      cases hlook : lookupDyn ds k with
      | some e =>
        obtain ⟨rep0, c⟩ := e
        rw [hlook] at h
        simp only [] at h
        cases hrec : insertGo rest c route ks with
        | error e2 =>
          rw [hrec] at h
          exact absurd h (by simp [Except.map])
        | ok c2 =>
          rw [hrec] at h
          simp only [Except.map] at h
          injection h with h2
          subst h2
          obtain ⟨hfal, hupd⟩ := ih hrec
          constructor
          · rw [List.map_cons]
            simp only [TransStep.key]
            rw [hasSeq, hlook]
            simp only []
            exact hfal
          · intro q
            cases q with
            | nil =>
              rw [List.map_cons]
              simp [hasSeq]
            | cons x q' =>
              cases x with
              | dyn u =>
                rw [hasSeq, lookupDyn_setDyn hlook c2 u]
                by_cases hku : k = u
                · subst hku
                  rw [if_pos rfl]
                  simp only []
                  rw [hupd q', hasSeq, hlook]
                  simp [List.map_cons, TransStep.key]
                · rw [if_neg hku]
                  rw [hasSeq]
                  have hne : u ≠ k := fun he => hku he.symm
                  simp [List.map_cons, TransStep.key, hne]
              | stat s2 =>
                rw [hasSeq, hasSeq]
                simp [List.map_cons, TransStep.key]
      | none =>
        rw [hlook] at h
        simp only [] at h
        cases hrec : insertGo rest (.node none [] []) route ks with
        | error e2 =>
          rw [hrec] at h
          exact absurd h (by simp [Except.map])
        | ok c2 =>
          rw [hrec] at h
          simp only [Except.map] at h
          injection h with h2
          subst h2
          obtain ⟨hfal, hupd⟩ := ih hrec
          have hc2 : ∀ q', hasSeq c2 q' = true ↔ q' = List.map TransStep.key rest := by
            intro q'
            rw [hupd q', hasSeq_empty]
            simp
          constructor
          · rw [List.map_cons]
            simp only [TransStep.key]
            rw [hasSeq, hlook]
          · intro q
            cases q with
            | nil =>
              rw [List.map_cons]
              simp [hasSeq]
            | cons x q' =>
              cases x with
              | dyn u =>
                rw [hasSeq, lookupDyn_append_none hlook rep c2 u]
                by_cases hku : k = u
                · subst hku
                  rw [if_pos rfl]
                  simp only []
                  rw [hc2 q', hasSeq, hlook]
                  simp [List.map_cons, TransStep.key]
                · rw [if_neg hku]
                  rw [hasSeq]
                  have hne : u ≠ k := fun he => hku he.symm
                  simp [List.map_cons, TransStep.key, hne]
              | stat s2 =>
                rw [hasSeq, hasSeq]
                simp [List.map_cons, TransStep.key]

theorem keyseq_map (rp : String × List Path) :
    (rp.2.map stepOf).map TransStep.key = keyseqOf rp := by
  rw [List.map_map]
  rfl

theorem insertGo_ok_exists : ∀ {steps : List TransStep} {t : Trie}
    (route : String) (ks : List String),
    hasSeq t (steps.map TransStep.key) = false →
    ∃ t', insertGo steps t route ks = .ok t' := by
  intro steps
  induction steps with
  | nil =>
    intro t route ks h
    obtain ⟨term, ss, ds⟩ := t
    cases term with
    | some x => simp [hasSeq] at h
    | none => exact ⟨.node (some (route, ks)) ss ds, by simp [insertGo]⟩
  | cons st rest ih =>
    intro t route ks h
    obtain ⟨term, ss, ds⟩ := t
    cases st with
    | stat s =>
      rw [List.map_cons] at h
      simp only [TransStep.key] at h
      rw [hasSeq] at h
      cases hlook : lookupStat ss s with
      | some c =>
        rw [hlook] at h
        simp only [] at h
        obtain ⟨c2, hc2⟩ := ih route ks h
        refine ⟨.node term (setStat ss s c2) ds, ?_⟩
        simp only [insertGo]
        rw [hlook]
        simp only []
        rw [hc2]
        rfl
      | none =>
        obtain ⟨c2, hc2⟩ := ih route ks
          (by rw [hasSeq_empty])
        refine ⟨.node term (ss ++ [(s, c2)]) ds, ?_⟩
        simp only [insertGo]
        rw [hlook]
        simp only []
        rw [hc2]
        rfl
    | dyn k rep =>
      rw [List.map_cons] at h
      simp only [TransStep.key] at h
      rw [hasSeq] at h
      cases hlook : lookupDyn ds k with
      | some e =>
        obtain ⟨rep0, c⟩ := e
        rw [hlook] at h
        simp only [] at h
        obtain ⟨c2, hc2⟩ := ih route ks h
        refine ⟨.node term ss (setDyn ds k c2), ?_⟩
        simp only [insertGo]
        rw [hlook]
        simp only []
        rw [hc2]
        rfl
      | none =>
        obtain ⟨c2, hc2⟩ := ih route ks
          (by rw [hasSeq_empty])
        refine ⟨.node term ss (ds ++ [(k, rep, c2)]), ?_⟩
        simp only [insertGo]
        rw [hlook]
        simp only []
        rw [hc2]
        rfl

theorem foldAdd_ok_spec : ∀ {rs : List (String × List Path)} {t T : Trie},
    rs.foldlM (fun t rp => addToTrie t rp.2 rp.1) t = .ok T →
    ((rs.map keyseqOf).Nodup ∧ ∀ r ∈ rs, hasSeq t (keyseqOf r) = false) ∧
    ∀ q, hasSeq T q = true ↔ (hasSeq t q = true ∨ q ∈ rs.map keyseqOf) := by
  intro rs
  induction rs with
  | nil =>
    intro t T h
    have h' : Except.ok (ε := String) t = Except.ok T := h
    have h2 : t = T := by injection h'
    subst h2
    refine ⟨⟨List.nodup_nil, by simp⟩, ?_⟩
    intro q
    simp
  | cons rp rs ih =>
    intro t T h
    rw [List.foldlM_cons] at h
    cases ha : addToTrie t rp.2 rp.1 with
    | error e =>
      rw [ha] at h
      have h' : Except.error (α := Trie) e = Except.ok T := h
      exact absurd h' (by simp)
    | ok t1 =>
      rw [ha] at h
      have h' : rs.foldlM (fun t rp => addToTrie t rp.2 rp.1) t1 = .ok T := h
      obtain ⟨⟨hnd, hall⟩, hup⟩ := ih h'
      rw [addToTrie] at ha
      obtain ⟨hfal, hupd⟩ := insertGo_ok_spec ha
      rw [keyseq_map] at hfal hupd
      have hstep : ∀ q, hasSeq t1 q = true ↔
          (hasSeq t q = true ∨ q = keyseqOf rp) := hupd
      refine ⟨⟨?_, ?_⟩, ?_⟩
      · rw [List.map_cons, List.nodup_cons]
        refine ⟨?_, hnd⟩
        intro hmem
        obtain ⟨r, hr, he⟩ := List.mem_map.1 hmem
        have := hall r hr
        have h1 : hasSeq t1 (keyseqOf r) = true := by
          rw [hstep]
          exact Or.inr he
        rw [this] at h1
        exact absurd h1 (by simp)
      · intro r hr
        rw [List.mem_cons] at hr
        rcases hr with hr | hr
        · subst hr
          exact hfal
        · have h1 := hall r hr
          by_cases h2 : hasSeq t (keyseqOf r) = true
          · have h3 : hasSeq t1 (keyseqOf r) = true := (hstep _).2 (Or.inl h2)
            rw [h1] at h3
            exact absurd h3 (by simp)
          · simpa using h2
      · intro q
        rw [hup q, hstep q, List.map_cons, List.mem_cons]
        tauto

theorem foldAdd_ok_exists : ∀ {rs : List (String × List Path)} {t : Trie},
    (rs.map keyseqOf).Nodup → (∀ r ∈ rs, hasSeq t (keyseqOf r) = false) →
    ∃ T, rs.foldlM (fun t rp => addToTrie t rp.2 rp.1) t = .ok T := by
  intro rs
  induction rs with
  | nil =>
    intro t _ _
    exact ⟨t, rfl⟩
  | cons rp rs ih =>
    intro t hnd hall
    rw [List.map_cons, List.nodup_cons] at hnd
    have hf : hasSeq t (keyseqOf rp) = false := hall rp (List.mem_cons_self rp rs)
    obtain ⟨t1, ht1⟩ := insertGo_ok_exists rp.1 (rp.2.flatMap pathParams)
      (by rw [keyseq_map]; exact hf)
    have ha : addToTrie t rp.2 rp.1 = .ok t1 := ht1
    obtain ⟨_, hupd⟩ := insertGo_ok_spec ht1
    rw [keyseq_map] at hupd
    have hall1 : ∀ r ∈ rs, hasSeq t1 (keyseqOf r) = false := by
      intro r hr
      by_cases h2 : hasSeq t1 (keyseqOf r) = true
      · rcases (hupd _).1 h2 with h3 | h3
        · rw [hall r (List.mem_cons_of_mem rp hr)] at h3
          exact absurd h3 (by simp)
        · exact absurd (List.mem_map.2 ⟨r, hr, h3⟩) hnd.1
      · simpa using h2
    obtain ⟨T, hT⟩ := ih hnd.2 hall1
    refine ⟨T, ?_⟩
    rw [List.foldlM_cons, ha]
    exact hT

theorem insertGo_error_msg : ∀ {steps : List TransStep} {t : Trie}
    {route : String} {ks : List String} {e : String},
    insertGo steps t route ks = .error e →
    e = "Route is already defined for " ++ route ∧
    hasSeq t (steps.map TransStep.key) = true := by
  intro steps t route ks e h
  cases hseq : hasSeq t (steps.map TransStep.key) with
  | true =>
    have := insertGo_hasSeq_error route ks hseq
    rw [h] at this
    injection this with h2
    exact ⟨h2, rfl⟩
  | false =>
    obtain ⟨t', ht'⟩ := insertGo_ok_exists route ks hseq
    rw [h] at ht'
    exact absurd ht' (by simp)

theorem foldAdd_error_spec : ∀ {rs : List (String × List Path)} {t : Trie}
    {e : String},
    rs.foldlM (fun t rp => addToTrie t rp.2 rp.1) t = .error e →
    ∃ pre r post, rs = pre ++ r :: post ∧
      e = "Route is already defined for " ++ r.1 ∧
      (hasSeq t (keyseqOf r) = true ∨ keyseqOf r ∈ pre.map keyseqOf) := by
  intro rs
  induction rs with
  | nil =>
    intro t e h
    have h' : Except.ok (ε := String) t = Except.error e := h
    exact absurd h' (by simp)
  | cons rp rs ih =>
    intro t e h
    rw [List.foldlM_cons] at h
    cases ha : addToTrie t rp.2 rp.1 with
    | error e0 =>
      rw [ha] at h
      have h' : Except.error (α := Trie) e0 = Except.error e := h
      have he : e0 = e := by injection h'
      subst he
      obtain ⟨hmsg, hseq⟩ := insertGo_error_msg ha
      rw [keyseq_map] at hseq
      exact ⟨[], rp, rs, rfl, hmsg, Or.inl hseq⟩
    | ok t1 =>
      rw [ha] at h
      have h' : rs.foldlM (fun t rp => addToTrie t rp.2 rp.1) t1 = .error e := h
      obtain ⟨pre, r, post, hsplit, hmsg, hdup⟩ := ih h'
      obtain ⟨_, hupd⟩ := insertGo_ok_spec ha
      rw [keyseq_map] at hupd
      refine ⟨rp :: pre, r, post, by rw [hsplit]; rfl, hmsg, ?_⟩
      rcases hdup with hd | hd
      · rcases (hupd _).1 hd with hd2 | hd2
        · exact Or.inl hd2
        · exact Or.inr (by rw [List.map_cons, List.mem_cons]; exact Or.inl hd2)
      · exact Or.inr (by rw [List.map_cons, List.mem_cons]; exact Or.inr hd)

/-- **C6**: with the sorted parse `rs` of the inputs in hand,
`createRouter` succeeds exactly when no two registered routes reduce to the
same transition-key sequence (static segments by their literal text,
dynamic segments by their structural `pathToKey` key, parameter names
ignored); on failure the duplicate-route message names the route being
inserted, whose key sequence already occurred earlier in `rs`.  In
particular `createRouter(["[a]","[b]"])` fails with
`Route is already defined for [b]`. -/
theorem createRouter_duplicate :
    (∀ (nc : Char → Bool) (inputs : List String) (rs : List (String × List Path)),
      buildRoutes nc inputs = .ok rs →
      (((∃ T, createRouter nc inputs = .ok T) ↔ (rs.map keyseqOf).Nodup) ∧
       ∀ e, createRouter nc inputs = .error e →
         ∃ pre r post, rs = pre ++ r :: post ∧
           e = "Route is already defined for " ++ r.1 ∧
           keyseqOf r ∈ pre.map keyseqOf)) ∧
    createRouter Char.isAlphanum ["[a]", "[b]"] =
      .error "Route is already defined for [b]" := by
  constructor
  · intro nc inputs rs hb
    have hc : createRouter nc inputs =
        rs.foldlM (fun t rp => addToTrie t rp.2 rp.1) emptyTrie := by
      rw [createRouter, hb]
      rfl
    constructor
    · constructor
      · rintro ⟨T, hT⟩
        rw [hc] at hT
        exact (foldAdd_ok_spec hT).1.1
      · intro hnd
        obtain ⟨T, hT⟩ := foldAdd_ok_exists hnd
          (fun r _ => hasSeq_empty (keyseqOf r))
        exact ⟨T, by rw [hc]; exact hT⟩
    · intro e he
      rw [hc] at he
      obtain ⟨pre, r, post, hsplit, hmsg, hdup⟩ := foldAdd_error_spec he
      refine ⟨pre, r, post, hsplit, hmsg, ?_⟩
      rcases hdup with hd | hd
      · have hd2 : hasSeq (.node none [] []) (keyseqOf r) = true := hd
        rw [hasSeq_empty] at hd2
        exact absurd hd2 (by simp)
      · exact hd
  · rfl

theorem createRouter_duplicate_w :
    ((∃ T, createRouter Char.isAlphanum ["a", "[p]"] = .ok T) ↔
      (([("a", [[Token.lit "a"]]), ("[p]", [[Token.param "p"]])].map
        keyseqOf).Nodup)) ∧
    ∀ e, createRouter Char.isAlphanum ["a", "[p]"] = .error e →
      ∃ pre r post,
        [("a", [[Token.lit "a"]]), ("[p]", [[Token.param "p"]])] =
          pre ++ r :: post ∧
        e = "Route is already defined for " ++ r.1 ∧
        keyseqOf r ∈ pre.map keyseqOf :=
  createRouter_duplicate.1 Char.isAlphanum ["a", "[p]"]
    [("a", [[Token.lit "a"]]), ("[p]", [[Token.param "p"]])] (by decide)

/-! ## Input-order independence (for C8) -/

theorem buildRoutes_ok_struct {nc : Char → Bool} {inputs : List String}
    {rs : List (String × List Path)} (h : buildRoutes nc inputs = .ok rs) :
    ∃ ps, inputs.mapM (parseRoute nc) = .ok ps ∧ rs = sortBy routeLe ps := by
  rw [buildRoutes] at h
  cases hm : inputs.mapM (parseRoute nc) with
  | error e =>
    rw [hm] at h
    have h' : Except.error (α := List (String × List Path)) e = Except.ok rs := h
    exact absurd h' (by simp)
  | ok ps =>
    rw [hm] at h
    have h' : Except.ok (ε := String) (sortBy routeLe ps) = Except.ok rs := h
    have h2 : sortBy routeLe ps = rs := by injection h'
    exact ⟨ps, rfl, h2.symm⟩

theorem mapM_ok_perm {α β : Type} (f : α → Except String β) :
    ∀ {l1 l2 : List α}, l1.Perm l2 → ∀ {o1 : List β},
    l1.mapM f = .ok o1 → ∃ o2, l2.mapM f = .ok o2 ∧ o1.Perm o2 := by
  intro l1 l2 hp
  induction hp with
  | nil =>
    intro o1 h
    exact ⟨o1, h, List.Perm.refl o1⟩
  | @cons x t1 t2 p ih =>
    intro o1 h
    rw [List.mapM_cons] at h
    cases hfx : f x with
    | error e =>
      rw [hfx] at h
      have h' : Except.error (α := List β) e = Except.ok o1 := h
      exact absurd h' (by simp)
    | ok b =>
      rw [hfx] at h
      cases hmt : t1.mapM f with
      | error e =>
        rw [hmt] at h
        have h' : Except.error (α := List β) e = Except.ok o1 := h
        exact absurd h' (by simp)
      | ok bs =>
        rw [hmt] at h
        have h' : Except.ok (ε := String) (b :: bs) = Except.ok o1 := h
        have h2 : b :: bs = o1 := by injection h'
        obtain ⟨bs2, hbs2, hpbs⟩ := ih hmt
        refine ⟨b :: bs2, ?_, ?_⟩
        · rw [List.mapM_cons, hfx, hbs2]
          rfl
        · rw [← h2]
          exact hpbs.cons b
  | swap x y l =>
    intro o1 h
    rw [List.mapM_cons] at h
    cases hfy : f y with
    | error e =>
      rw [hfy] at h
      have h' : Except.error (α := List β) e = Except.ok o1 := h
      exact absurd h' (by simp)
    | ok by2 =>
      rw [hfy, List.mapM_cons] at h
      cases hfx : f x with
      | error e =>
        rw [hfx] at h
        have h' : Except.error (α := List β) e = Except.ok o1 := h
        exact absurd h' (by simp)
      | ok bx =>
        rw [hfx] at h
        cases hml : List.mapM f l with
        | error e =>
          rw [hml] at h
          have h' : Except.error (α := List β) e = Except.ok o1 := h
          exact absurd h' (by simp)
        | ok bs =>
          rw [hml] at h
          have h' : Except.ok (ε := String) (by2 :: bx :: bs) = Except.ok o1 := h
          have h2 : by2 :: bx :: bs = o1 := by injection h'
          refine ⟨bx :: by2 :: bs, ?_, ?_⟩
          · rw [List.mapM_cons, hfx, List.mapM_cons, hfy, hml]
            rfl
          · rw [← h2]
            exact List.Perm.swap bx by2 bs
  | trans p1 p2 ih1 ih2 =>
    intro o1 h
    obtain ⟨o2, h2, hp12⟩ := ih1 h
    obtain ⟨o3, h3, hp23⟩ := ih2 h2
    exact ⟨o3, h3, hp12.trans hp23⟩

theorem serializeKeyTok_congr {a b : Token} (h : tokKey a = tokKey b) :
    serializeKeyTok a = serializeKeyTok b := by
  cases a with
  | lit s =>
    cases b with
    | lit t =>
      simp only [tokKey, Option.some.injEq] at h
      rw [h]
    | param n => exact absurd h (by simp [tokKey])
  | param m =>
    cases b with
    | lit t => exact absurd h (by simp [tokKey])
    | param n => rfl

theorem pathToKey_congr : ∀ {p q : Path}, p.map tokKey = q.map tokKey →
    pathToKey p = pathToKey q := by
  intro p
  induction p with
  | nil =>
    intro q h
    cases q with
    | nil => rfl
    | cons u r2 => exact absurd h (by simp)
  | cons t r ih =>
    intro q h
    cases q with
    | nil => exact absurd h (by simp)
    | cons u r2 =>
      simp only [List.map_cons, List.cons.injEq] at h
      cases r with
      | nil =>
        cases r2 with
        | nil => exact serializeKeyTok_congr h.1
        | cons b r2' => exact absurd h.2 (by simp)
      | cons a r' =>
        cases r2 with
        | nil => exact absurd h.2 (by simp)
        | cons b r2' =>
          show serializeKeyTok t ++ "|" ++ pathToKey (a :: r') =
            serializeKeyTok u ++ "|" ++ pathToKey (b :: r2')
          rw [serializeKeyTok_congr h.1, ih h.2]

theorem stepOf_key_congr : ∀ {p q : Path}, p.map tokKey = q.map tokKey →
    (stepOf p).key = (stepOf q).key := by
  intro p q h
  cases p with
  | nil =>
    cases q with
    | nil => rfl
    | cons u r2 => exact absurd h (by simp)
  | cons t r =>
    cases q with
    | nil => exact absurd h (by simp)
    | cons u r2 =>
      simp only [List.map_cons, List.cons.injEq] at h
      cases r with
      | nil =>
        cases r2 with
        | nil =>
          cases t with
          | lit s =>
            cases u with
            | lit s2 =>
              simp only [tokKey] at h
              have h2 : s = s2 := by injection h.1
              rw [h2]
            | param n => exact absurd h.1 (by simp [tokKey])
          | param m =>
            cases u with
            | lit s2 => exact absurd h.1 (by simp [tokKey])
            | param n =>
              show TransKey.dyn (pathToKey [Token.param m]) =
                TransKey.dyn (pathToKey [Token.param n])
              rfl
        | cons b r2' => exact absurd h.2 (by simp)
      | cons a r' =>
        cases r2 with
        | nil => exact absurd h.2 (by simp)
        | cons b r2' =>
          have hmap : (t :: a :: r').map tokKey = (u :: b :: r2').map tokKey := by
            simp only [List.map_cons, List.cons.injEq]
            exact ⟨h.1, by simpa using h.2⟩
          have hkey := pathToKey_congr hmap
          have e1 : stepOf (t :: a :: r') =
              .dyn (pathToKey (t :: a :: r')) (t :: a :: r') := by
            cases t <;> rfl
          have e2 : stepOf (u :: b :: r2') =
              .dyn (pathToKey (u :: b :: r2')) (u :: b :: r2') := by
            cases u <;> rfl
          rw [e1, e2]
          show TransKey.dyn (pathToKey (t :: a :: r')) =
            TransKey.dyn (pathToKey (u :: b :: r2'))
          rw [hkey]

theorem cmpToks_eq_tokKey : ∀ {p q : Path}, cmpToks p q = .eq →
    p.map tokKey = q.map tokKey := by
  intro p
  induction p with
  | nil =>
    intro q h
    cases q with
    | nil => rfl
    | cons u r2 => cases u <;> exact absurd h (by simp [cmpToks])
  | cons t r ih =>
    intro q h
    cases q with
    | nil => cases t <;> exact absurd h (by simp [cmpToks])
    | cons u r2 =>
      simp only [cmpToks] at h
      have h' := (then_eq_iff _ _).1 h
      have htk : tokKey t = tokKey u := by
        cases t with
        | lit s =>
          cases u with
          | lit s2 =>
            have h2 := h'.1
            rw [cmpTok] at h2
            by_cases hss : s = s2
            · rw [hss]
            · rw [if_neg hss] at h2
              split at h2 <;> exact absurd h2 (by simp)
          | param n => exact absurd h'.1 (by simp [cmpTok])
        | param m =>
          cases u with
          | lit s2 => exact absurd h'.1 (by simp [cmpTok])
          | param n => rfl
      rw [List.map_cons, List.map_cons, htk, ih h'.2]

theorem cmpSegs_eq_forall : ∀ {a b : List Path}, a.length = b.length →
    cmpSegs a b = .eq → List.Forall₂ (fun p q => cmpToks p q = .eq) a b := by
  intro a
  induction a with
  | nil =>
    intro b hl _
    cases b with
    | nil => exact List.Forall₂.nil
    | cons y ys => exact absurd hl (by simp)
  | cons x xs ih =>
    intro b hl h
    cases b with
    | nil => exact absurd hl (by simp)
    | cons y ys =>
      simp only [cmpSegs] at h
      have h' := (then_eq_iff _ _).1 h
      exact List.Forall₂.cons h'.1 (ih (by simpa using hl) h'.2)

theorem forall₂_keyseq : ∀ {l1 l2 : List Path},
    List.Forall₂ (fun p q => cmpToks p q = .eq) l1 l2 →
    l1.map (fun p => (stepOf p).key) = l2.map (fun p => (stepOf p).key) := by
  intro l1 l2 h
  induction h with
  | nil => rfl
  | cons hpq _ ih =>
    rw [List.map_cons, List.map_cons,
      stepOf_key_congr (cmpToks_eq_tokKey hpq), ih]

theorem cmpRoutes_eq_keyseq {a b : String × List Path}
    (h : cmpRoutes a.2 b.2 = .eq) : keyseqOf a = keyseqOf b := by
  obtain ⟨hl, hs⟩ := cmpRoutes_eq_parts h
  exact forall₂_keyseq (cmpSegs_eq_forall hl hs)

theorem sorted_perm_eq : ∀ {l1 l2 : List (String × List Path)},
    l1.Perm l2 →
    l1.Pairwise (fun a b => cmpRoutes a.2 b.2 = .lt) →
    l2.Pairwise (fun a b => routeLe a b = true) →
    l1 = l2 := by
  intro l1
  induction l1 with
  | nil =>
    intro l2 hp _ _
    exact (List.Perm.eq_nil hp.symm).symm
  | cons x xs ih =>
    intro l2 hp h1 h2
    cases l2 with
    | nil => exact absurd (List.Perm.eq_nil hp) (by simp)
    | cons y ys =>
      by_cases hxy : x = y
      · subst hxy
        rw [ih hp.cons_inv (List.pairwise_cons.1 h1).2 (List.pairwise_cons.1 h2).2]
      · exfalso
        have hy : y ∈ x :: xs := hp.mem_iff.2 (List.mem_cons_self y ys)
        have hx : x ∈ y :: ys := hp.mem_iff.1 (List.mem_cons_self x xs)
        rw [List.mem_cons] at hy hx
        rcases hy with hy | hy
        · exact hxy hy.symm
        rcases hx with hx | hx
        · exact hxy hx
        have hlt : cmpRoutes x.2 y.2 = .lt := (List.pairwise_cons.1 h1).1 y hy
        have hle : routeLe y x = true := (List.pairwise_cons.1 h2).1 x hx
        rw [routeLe] at hle
        simp only [ne_eq, decide_eq_true_eq] at hle
        have hgt : cmpRoutes y.2 x.2 = .gt := by rw [cmpRoutes_swap, hlt]; rfl
        exact hle hgt

/-- **C8**: registering any two permutations of the same pattern list,
when both succeed, produces the identical sorted `buildRoutes` output, the
identical trie, and hence identical match results for every pathname:
success forces the transition-key sequences to be pairwise distinct, so no
two distinct routes tie under the comparator and the stable sort's output
is independent of the input order. -/
theorem router_order_independent
    (nc : Char → Bool) (in1 in2 : List String) (hperm : in1.Perm in2)
    (rs1 rs2 : List (String × List Path))
    (h1 : buildRoutes nc in1 = .ok rs1) (h2 : buildRoutes nc in2 = .ok rs2)
    (T1 T2 : Trie) (hT1 : createRouter nc in1 = .ok T1)
    (hT2 : createRouter nc in2 = .ok T2) :
    rs1 = rs2 ∧ T1 = T2 ∧
      ∀ pathname, routerMatch T1 pathname = routerMatch T2 pathname := by
  obtain ⟨ps1, hm1, hs1⟩ := buildRoutes_ok_struct h1
  obtain ⟨ps2, hm2, hs2⟩ := buildRoutes_ok_struct h2
  obtain ⟨ps2', hm2', hp12⟩ := mapM_ok_perm (parseRoute nc) hperm hm1
  rw [hm2'] at hm2
  have hps : ps2' = ps2 := by injection hm2
  subst hps
  have hperm12 : rs1.Perm rs2 := by
    rw [hs1, hs2]
    exact ((sortBy_perm routeLe ps1).trans hp12).trans (sortBy_perm routeLe ps2').symm
  have hc1 : createRouter nc in1 =
      rs1.foldlM (fun t rp => addToTrie t rp.2 rp.1) emptyTrie := by
    rw [createRouter, h1]; rfl
  have hc2 : createRouter nc in2 =
      rs2.foldlM (fun t rp => addToTrie t rp.2 rp.1) emptyTrie := by
    rw [createRouter, h2]; rfl
  rw [hc1] at hT1
  rw [hc2] at hT2
  have hnd : (rs1.map keyseqOf).Nodup := (foldAdd_ok_spec hT1).1.1
  have hsort1 : rs1.Pairwise (fun a b => routeLe a b = true) := by
    rw [hs1]
    exact sortBy_pairwise routeLe_total (fun a b c => routeLe_trans) ps1
  have hsort2 : rs2.Pairwise (fun a b => routeLe a b = true) := by
    rw [hs2]
    exact sortBy_pairwise routeLe_total (fun a b c => routeLe_trans) ps2'
  have hne : rs1.Pairwise (fun a b => keyseqOf a ≠ keyseqOf b) :=
    List.pairwise_map.1 hnd
  have hstrict : rs1.Pairwise (fun a b => cmpRoutes a.2 b.2 = .lt) := by
    refine (hsort1.and hne).imp ?_
    intro a b hab
    obtain ⟨hle, hkne⟩ := hab
    rw [routeLe] at hle
    simp only [ne_eq, decide_eq_true_eq] at hle
    cases hcr : cmpRoutes a.2 b.2 with
    | lt => rfl
    | eq => exact absurd (cmpRoutes_eq_keyseq hcr) hkne
    | gt => exact absurd hcr hle
  have heq : rs1 = rs2 := sorted_perm_eq hperm12 hstrict hsort2
  have hTT : T1 = T2 := by
    rw [← heq] at hT2
    rw [hT1] at hT2
    injection hT2
  exact ⟨heq, hTT, fun pathname => by rw [hTT]⟩

theorem router_order_independent_w :
    [("a", [[Token.lit "a"]]), ("b", [[Token.lit "b"]])] =
      [("a", [[Token.lit "a"]]), ("b", [[Token.lit "b"]])] ∧
    Trie.node none [("a", Trie.node (some ("a", [])) [] []),
        ("b", Trie.node (some ("b", [])) [] [])] [] =
      Trie.node none [("a", Trie.node (some ("a", [])) [] []),
        ("b", Trie.node (some ("b", [])) [] [])] [] ∧
    ∀ pathname,
      routerMatch (Trie.node none [("a", Trie.node (some ("a", [])) [] []),
        ("b", Trie.node (some ("b", [])) [] [])] []) pathname =
      routerMatch (Trie.node none [("a", Trie.node (some ("a", [])) [] []),
        ("b", Trie.node (some ("b", [])) [] [])] []) pathname :=
  router_order_independent Char.isAlphanum ["a", "b"] ["b", "a"]
    (List.Perm.swap "b" "a" [])
    [("a", [[Token.lit "a"]]), ("b", [[Token.lit "b"]])]
    [("a", [[Token.lit "a"]]), ("b", [[Token.lit "b"]])]
    (by decide) (by decide)
    (Trie.node none [("a", Trie.node (some ("a", [])) [] []),
      ("b", Trie.node (some ("b", [])) [] [])] [])
    (Trie.node none [("a", Trie.node (some ("a", [])) [] []),
      ("b", Trie.node (some ("b", [])) [] [])] [])
    (by rfl) (by rfl)

/-! ## Result shape (for C10) -/

theorem wfPath_tail : ∀ {tok : Token} {rest : Path},
    wfPath (tok :: rest) = true → wfPath rest = true := by
  intro tok rest h
  cases tok with
  | lit s =>
    rw [wfPath] at h
    simp only [Bool.and_eq_true] at h
    exact h.2
  | param m =>
    cases rest with
    | nil => rfl
    | cons x rest2 =>
      cases x with
      | lit s2 => exact h
      | param m2 =>
        have hf : wfPath (Token.param m :: Token.param m2 :: rest2) = false := rfl
        rw [hf] at h
        exact absurd h (by simp)

theorem pathParams_length : ∀ (p : Path), (pathParams p).length = paramsCount p := by
  intro p
  induction p with
  | nil => rfl
  | cons t rest ih =>
    cases t with
    | lit s => simpa [pathParams, paramsCount, List.countP_cons] using ih
    | param m => simpa [pathParams, paramsCount, List.countP_cons] using ih

theorem flatMap_params_length : ∀ (paths : List Path),
    (paths.flatMap pathParams).length = (paths.map paramsCount).sum := by
  intro paths
  induction paths with
  | nil => rfl
  | cons p rest ih =>
    rw [List.flatMap_cons, List.length_append, pathParams_length, ih,
      List.map_cons, List.sum_cons]

theorem matchGo_length : ∀ (p : Path) (s : List Char) (o : Nat),
    ∀ vs, matchGo p s o = some vs → vs.length = paramsCount p := by
  intro p s o
  induction p, s, o using matchGo.induct with
  | case1 s o =>
    intro vs h
    simp only [matchGo] at h
    injection h with h2
    rw [← h2]
    rfl
  | case2 tok rest s =>
    intro vs h
    rw [matchGo.eq_def] at h
    simp only [] at h
    rw [if_pos trivial] at h
    exact absurd h (by simp)
  | case3 rest s o hlen a hsub ih =>
    intro vs h
    rw [matchGo, if_neg hlen, if_pos hsub] at h
    rw [ih vs h]
    simp [paramsCount, List.countP_cons]
  | case4 rest s o hlen a hsub =>
    intro vs h
    rw [matchGo, if_neg hlen, if_neg hsub] at h
    exact absurd h (by simp)
  | case5 s o hlen a =>
    intro vs h
    rw [matchGo, if_neg hlen] at h
    injection h with h2
    rw [← h2]
    rfl
  | case6 s o hlen a nx rest2 hidx =>
    intro vs h
    rw [matchGo, if_neg hlen, hidx] at h
    simp only [] at h
    exact absurd h (by simp)
  | case7 s a nx rest2 j hlen hidx =>
    intro vs h
    rw [matchGo, if_neg hlen, hidx] at h
    simp only [] at h
    rw [if_pos trivial] at h
    exact absurd h (by simp)
  | case8 s o hlen a nx rest2 j hidx hj ps hrec ih =>
    intro vs h
    rw [matchGo, if_neg hlen, hidx] at h
    simp only [] at h
    rw [if_neg hj, hrec] at h
    simp only [] at h
    injection h with h2
    rw [← h2]
    simp only [List.length_cons]
    rw [ih ps hrec]
    simp [paramsCount, List.countP_cons]
  | case9 s o hlen a nx rest2 j hidx hj hrec ih =>
    intro vs h
    rw [matchGo, if_neg hlen, hidx] at h
    simp only [] at h
    rw [if_neg hj, hrec] at h
    simp only [] at h
    exact absurd h (by simp)
  | case10 s o hlen a name tail =>
    intro vs h
    rw [matchGo, if_neg hlen] at h
    exact absurd h (by simp)

theorem createMatch_length {p : Path} {seg : String} {vs : List String}
    (h : createMatch p seg = some vs) : vs.length = paramsCount p := by
  rw [createMatch] at h
  by_cases hp : p.length = 0
  · rw [if_pos hp] at h
    have hpn : p = [] := List.length_eq_zero.1 hp
    subst hpn
    by_cases hseg : seg = ""
    · rw [if_pos hseg] at h
      injection h with h2
      rw [← h2]
      rfl
    · rw [if_neg hseg] at h
      exact absurd h (by simp)
  · rw [if_neg hp] at h
    exact matchGo_length p seg.data 0 vs h

theorem serializeKeyTok_brackets {t : Token}
    (h : ∀ s, t = Token.lit s → '[' ∉ s.data) :
    (serializeKeyTok t).data.count '[' =
      (if paramsCount [t] = 1 then 1 else 0) := by
  cases t with
  | lit s =>
    have h2 := h s rfl
    rw [serializeKeyTok]
    rw [List.count_eq_zero.2 h2]
    rfl
  | param m =>
    have h2 : paramsCount [Token.param m] = 1 := rfl
    have h3 : serializeKeyTok (Token.param m) = "[]" := rfl
    rw [h2, h3]
    decide

theorem pathToKey_brackets : ∀ {p : Path}, wfPath p = true →
    (pathToKey p).data.count '[' = paramsCount p := by
  intro p
  induction p with
  | nil => decide
  | cons t rest ih =>
    intro hwf
    have hlitp : ∀ s, t = Token.lit s → '[' ∉ s.data := by
      intro s he
      subst he
      rw [wfPath] at hwf
      simp only [Bool.and_eq_true, decide_eq_true_eq] at hwf
      exact hwf.1.2
    cases rest with
    | nil =>
      have := serializeKeyTok_brackets hlitp
      cases t with
      | lit s =>
        rw [show pathToKey [Token.lit s] = serializeKeyTok (Token.lit s) from rfl]
        exact this
      | param m =>
        have h1 : pathToKey [Token.param m] = "[]" := rfl
        have h2 : paramsCount [Token.param m] = 1 := rfl
        rw [h1, h2]
        decide
    | cons a r' =>
      have hkey : pathToKey (t :: a :: r') =
          serializeKeyTok t ++ "|" ++ pathToKey (a :: r') := rfl
      rw [hkey]
      have hdata : (serializeKeyTok t ++ "|" ++ pathToKey (a :: r')).data =
          (serializeKeyTok t).data ++ "|".data ++ (pathToKey (a :: r')).data := by
        rw [String.data_append, String.data_append]
      rw [hdata, List.count_append, List.count_append]
      have hrest := ih (wfPath_tail hwf)
      have hhead := serializeKeyTok_brackets hlitp
      rw [hrest, hhead]
      have hbar : ("|".data.count '[') = 0 := by decide
      rw [hbar]
      cases t with
      | lit s => simp [paramsCount, List.countP_cons]
      | param m => simp [paramsCount, List.countP_cons, Nat.add_comm]

theorem paramsCount_of_key {p q : Path} (hp : wfPath p = true)
    (hq : wfPath q = true) (h : pathToKey p = pathToKey q) :
    paramsCount p = paramsCount q := by
  rw [← pathToKey_brackets hp, ← pathToKey_brackets hq, h]

theorem lookupStat_mem : ∀ {ss : List (String × Trie)} {s : String} {c : Trie},
    lookupStat ss s = some c → (s, c) ∈ ss := by
  intro ss
  induction ss with
  | nil => intro s c h; exact absurd h (by simp [lookupStat])
  | cons kc rest ih =>
    intro s c h
    obtain ⟨k, c1⟩ := kc
    by_cases hks : k = s
    · subst hks
      rw [lookupStat, if_pos rfl] at h
      injection h with h2
      subst h2
      exact List.mem_cons_self _ _
    · rw [lookupStat, if_neg hks] at h
      exact List.mem_cons_of_mem _ (ih h)

theorem lookupDyn_mem : ∀ {ds : List (String × Path × Trie)} {k : String}
    {e : Path × Trie}, lookupDyn ds k = some e → (k, e) ∈ ds := by
  intro ds
  induction ds with
  | nil => intro k e h; exact absurd h (by simp [lookupDyn])
  | cons ke rest ih =>
    intro k e h
    obtain ⟨k0, e1⟩ := ke
    by_cases hks : k0 = k
    · subst hks
      rw [lookupDyn, if_pos rfl] at h
      injection h with h2
      subst h2
      exact List.mem_cons_self _ _
    · rw [lookupDyn, if_neg hks] at h
      exact List.mem_cons_of_mem _ (ih h)

theorem setStat_mem : ∀ {ss : List (String × Trie)} {s : String} {c : Trie}
    {e : String × Trie}, e ∈ setStat ss s c → e = (s, c) ∨ e ∈ ss := by
  intro ss
  induction ss with
  | nil => intro s c e h; exact absurd h (by simp [setStat])
  | cons kc rest ih =>
    intro s c e h
    obtain ⟨k, c1⟩ := kc
    by_cases hks : k = s
    · subst hks
      rw [setStat, if_pos rfl] at h
      rw [List.mem_cons] at h
      rcases h with h | h
      · exact Or.inl h
      · exact Or.inr (List.mem_cons_of_mem _ h)
    · rw [setStat, if_neg hks] at h
      rw [List.mem_cons] at h
      rcases h with h | h
      · exact Or.inr (h ▸ List.mem_cons_self _ _)
      · rcases ih h with h2 | h2
        · exact Or.inl h2
        · exact Or.inr (List.mem_cons_of_mem _ h2)

theorem setDyn_mem : ∀ {ds : List (String × Path × Trie)} {k : String}
    {c : Trie} {rep0 : Path} {c0 : Trie},
    lookupDyn ds k = some (rep0, c0) →
    ∀ {e : String × Path × Trie}, e ∈ setDyn ds k c →
    e = (k, rep0, c) ∨ e ∈ ds := by
  intro ds
  induction ds with
  | nil => intro k c rep0 c0 h; exact absurd h (by simp [lookupDyn])
  | cons ke rest ih =>
    intro k c rep0 c0 h e he
    obtain ⟨k0, rep1, c1⟩ := ke
    by_cases hks : k0 = k
    · subst hks
      rw [lookupDyn, if_pos rfl] at h
      injection h with h2
      rw [setDyn, if_pos rfl] at he
      rw [List.mem_cons] at he
      rcases he with he | he
      · left
        rw [he]
        have hr : rep1 = rep0 := by
          have := congrArg Prod.fst h2
          exact this
        rw [hr]
      · exact Or.inr (List.mem_cons_of_mem _ he)
    · rw [lookupDyn, if_neg hks] at h
      rw [setDyn, if_neg hks] at he
      rw [List.mem_cons] at he
      rcases he with he | he
      · exact Or.inr (he ▸ List.mem_cons_self _ _)
      · rcases ih h he with h2 | h2
        · exact Or.inl h2
        · exact Or.inr (List.mem_cons_of_mem _ h2)

theorem inv_any (n : Nat) : Inv (.node none [] []) n := by
  refine Inv.mk none [] [] n ?_ ?_ ?_ ?_
  · intro r ks he
    exact absurd he (by simp)
  · intro e he
    exact absurd he (by simp)
  · intro e he
    exact absurd he (by simp)
  · intro e he
    exact absurd he (by simp)

theorem stepOf_shape (p : Path) :
    (∃ s, stepOf p = .stat s ∧ paramsCount p = 0) ∨
    (stepOf p = .dyn (pathToKey p) p ∧ p ≠ []) := by
  cases p with
  | nil => exact Or.inl ⟨"", rfl, rfl⟩
  | cons t rest =>
    cases rest with
    | nil =>
      cases t with
      | lit s => exact Or.inl ⟨s, rfl, rfl⟩
      | param m => exact Or.inr ⟨rfl, by simp⟩
    | cons a r' =>
      refine Or.inr ⟨?_, by simp⟩
      cases t <;> rfl

theorem insertGo_inv : ∀ {paths : List Path} {t : Trie} {route : String}
    {ks : List String} {n : Nat} {t' : Trie},
    Inv t n →
    (∀ p ∈ paths, wfPath p = true) →
    ks.length = n + (paths.map paramsCount).sum →
    insertGo (paths.map stepOf) t route ks = .ok t' →
    Inv t' n := by
  intro paths
  induction paths with
  | nil =>
    intro t route ks n t' hinv hwf hks h
    cases hinv with
    | mk term ss ds n hterm hrep hs hd =>
      cases term with
      | some x => simp [insertGo] at h
      | none =>
        simp only [insertGo] at h
        injection h with h2
        subst h2
        refine Inv.mk _ ss ds n ?_ hrep hs hd
        intro r ks2 he
        injection he with he2
        have hks2 : ks = ks2 := congrArg Prod.snd he2
        rw [← hks2, hks]
        simp
  | cons p rest ih =>
    intro t route ks n t' hinv hwf hks h
    cases hinv with
    | mk term ss ds n hterm hrep hs hd =>
      have hwfp : wfPath p = true := hwf p (List.mem_cons_self p rest)
      have hwfrest : ∀ q ∈ rest, wfPath q = true :=
        fun q hq => hwf q (List.mem_cons_of_mem p hq)
      rw [List.map_cons, List.sum_cons] at hks
      rw [List.map_cons] at h
      rcases stepOf_shape p with ⟨s, hstep, hp0⟩ | ⟨hstep, hpne⟩
      · rw [hstep] at h
        rw [hp0] at hks
        simp only [insertGo] at h
        cases hlook : lookupStat ss s with
        | some c =>
          rw [hlook] at h
          simp only [] at h
          cases hrec : insertGo (rest.map stepOf) c route ks with
          | error e =>
            rw [hrec] at h
            exact absurd h (by simp [Except.map])
          | ok c2 =>
            rw [hrec] at h
            simp only [Except.map] at h
            injection h with h2
            subst h2
            have hinvc2 : Inv c2 n :=
              ih (hs _ (lookupStat_mem hlook)) hwfrest (by omega) hrec
            refine Inv.mk term _ ds n hterm hrep ?_ hd
            intro e he
            rcases setStat_mem he with he2 | he2
            · rw [he2]
              exact hinvc2
            · exact hs e he2
        | none =>
          rw [hlook] at h
          simp only [] at h
          cases hrec : insertGo (rest.map stepOf) (.node none [] []) route ks with
          | error e =>
            rw [hrec] at h
            exact absurd h (by simp [Except.map])
          | ok c2 =>
            rw [hrec] at h
            simp only [Except.map] at h
            injection h with h2
            subst h2
            have hinvc2 : Inv c2 n := ih (inv_any n) hwfrest (by omega) hrec
            refine Inv.mk term _ ds n hterm hrep ?_ hd
            intro e he
            rw [List.mem_append] at he
            rcases he with he | he
            · exact hs e he
            · rw [List.mem_singleton] at he
              rw [he]
              exact hinvc2
      · rw [hstep] at h
        simp only [insertGo] at h
        cases hlook : lookupDyn ds (pathToKey p) with
        | some e0 =>
          obtain ⟨rep0, c⟩ := e0
          rw [hlook] at h
          simp only [] at h
          cases hrec : insertGo (rest.map stepOf) c route ks with
          | error e =>
            rw [hrec] at h
            exact absurd h (by simp [Except.map])
          | ok c2 =>
            rw [hrec] at h
            simp only [Except.map] at h
            injection h with h2
            subst h2
            have hmem : (pathToKey p, rep0, c) ∈ ds := lookupDyn_mem hlook
            obtain ⟨hwr, hrne, hrkey⟩ := hrep _ hmem
            have hcnt : paramsCount rep0 = paramsCount p :=
              paramsCount_of_key hwr hwfp hrkey
            have hinvc : Inv c (n + paramsCount rep0) := hd _ hmem
            have hinvc2 : Inv c2 (n + paramsCount rep0) :=
              ih hinvc hwfrest (by rw [hcnt]; omega) hrec
            refine Inv.mk term ss _ n hterm ?_ hs ?_
            · intro e he
              rcases setDyn_mem hlook he with he2 | he2
              · rw [he2]
                exact ⟨hwr, hrne, hrkey⟩
              · exact hrep e he2
            · intro e he
              rcases setDyn_mem hlook he with he2 | he2
              · rw [he2]
                exact hinvc2
              · exact hd e he2
        | none =>
          rw [hlook] at h
          simp only [] at h
          cases hrec : insertGo (rest.map stepOf) (.node none [] []) route ks with
          | error e =>
            rw [hrec] at h
            exact absurd h (by simp [Except.map])
          | ok c2 =>
            rw [hrec] at h
            simp only [Except.map] at h
            injection h with h2
            subst h2
            have hinvc2 : Inv c2 (n + paramsCount p) :=
              ih (inv_any (n + paramsCount p)) hwfrest (by omega) hrec
            refine Inv.mk term ss _ n hterm ?_ hs ?_
            · intro e he
              rw [List.mem_append] at he
              rcases he with he | he
              · exact hrep e he
              · rw [List.mem_singleton] at he
                rw [he]
                exact ⟨hwfp, hpne, rfl⟩
            · intro e he
              rw [List.mem_append] at he
              rcases he with he | he
              · exact hd e he
              · rw [List.mem_singleton] at he
                rw [he]
                exact hinvc2

theorem foldAdd_inv : ∀ {rs : List (String × List Path)} {t T : Trie},
    Inv t 0 → (∀ rp ∈ rs, ∀ p ∈ rp.2, wfPath p = true) →
    rs.foldlM (fun t rp => addToTrie t rp.2 rp.1) t = .ok T → Inv T 0 := by
  intro rs
  induction rs with
  | nil =>
    intro t T hinv _ h
    have h' : Except.ok (ε := String) t = Except.ok T := h
    have h2 : t = T := by injection h'
    exact h2 ▸ hinv
  | cons rp rs ih =>
    intro t T hinv hwf h
    rw [List.foldlM_cons] at h
    cases ha : addToTrie t rp.2 rp.1 with
    | error e =>
      rw [ha] at h
      have h' : Except.error (α := Trie) e = Except.ok T := h
      exact absurd h' (by simp)
    | ok t1 =>
      rw [ha] at h
      have h' : rs.foldlM (fun t rp => addToTrie t rp.2 rp.1) t1 = .ok T := h
      rw [addToTrie] at ha
      have hinv1 : Inv t1 0 :=
        insertGo_inv hinv (hwf rp (List.mem_cons_self rp rs))
          (by rw [flatMap_params_length]; omega) ha
      exact ih hinv1 (fun q hq => hwf q (List.mem_cons_of_mem rp hq)) h'

theorem mapM_ok_mem {α β : Type} (f : α → Except String β) :
    ∀ {l : List α} {o : List β}, l.mapM f = .ok o →
    ∀ b ∈ o, ∃ a, f a = .ok b := by
  intro l
  induction l with
  | nil =>
    intro o h b hb
    rw [List.mapM_nil] at h
    have h' : Except.ok (ε := String) ([] : List β) = Except.ok o := h
    have h2 : ([] : List β) = o := by injection h'
    rw [← h2] at hb
    exact absurd hb (by simp)
  | cons x xs ih =>
    intro o h b hb
    rw [List.mapM_cons] at h
    cases hfx : f x with
    | error e =>
      rw [hfx] at h
      have h' : Except.error (α := List β) e = Except.ok o := h
      exact absurd h' (by simp)
    | ok b0 =>
      rw [hfx] at h
      cases hmt : xs.mapM f with
      | error e =>
        rw [hmt] at h
        have h' : Except.error (α := List β) e = Except.ok o := h
        exact absurd h' (by simp)
      | ok bs =>
        rw [hmt] at h
        have h' : Except.ok (ε := String) (b0 :: bs) = Except.ok o := h
        have h2 : b0 :: bs = o := by injection h'
        rw [← h2, List.mem_cons] at hb
        rcases hb with hb | hb
        · exact ⟨x, by rw [hfx, hb]⟩
        · exact ih hmt b hb

theorem parseRoute_ok_wf {nc : Char → Bool} {route : String}
    {rp : String × List Path} (h : parseRoute nc route = .ok rp) :
    ∀ p ∈ rp.2, wfPath p = true := by
  rw [parseRoute] at h
  cases hm : (splitSlash route).mapM (parse nc) with
  | error e =>
    rw [hm] at h
    have h' : Except.error (α := String × List Path) e = Except.ok rp := h
    exact absurd h' (by simp)
  | ok ps =>
    rw [hm] at h
    have h' : Except.ok (ε := String) (route, ps) = Except.ok rp := h
    have h2 : (route, ps) = rp := by injection h'
    intro p hp
    rw [← h2] at hp
    obtain ⟨s, hs⟩ := mapM_ok_mem (parse nc) hm p hp
    exact parse_wf hs

theorem buildRoutes_wf {nc : Char → Bool} {inputs : List String}
    {rs : List (String × List Path)} (h : buildRoutes nc inputs = .ok rs) :
    ∀ rp ∈ rs, ∀ p ∈ rp.2, wfPath p = true := by
  obtain ⟨ps, hm, hsort⟩ := buildRoutes_ok_struct h
  intro rp hrp
  have hrp2 : rp ∈ ps := by
    rw [hsort] at hrp
    exact (sortBy_perm routeLe ps).mem_iff.1 hrp
  obtain ⟨route, hroute⟩ := mapM_ok_mem (parseRoute nc) hm rp hrp2
  exact parseRoute_ok_wf hroute

theorem results_shape : ∀ {segs : List String} {t : Trie} {n : Nat}
    {vals : List String}, Inv t n → vals.length = n →
    ∀ r ∈ results t segs vals, r.keys.length = r.values.length := by
  intro segs
  induction segs with
  | nil =>
    intro t n vals hinv hlen r hr
    cases hinv with
    | mk term ss ds n hterm hrep hs hd =>
      cases term with
      | none => simp [results] at hr
      | some x =>
        obtain ⟨route, ks⟩ := x
        simp only [results] at hr
        rw [List.mem_singleton] at hr
        rw [hr]
        show ks.length = vals.length
        rw [hterm route ks rfl, hlen]
  | cons seg rest ih =>
    intro t n vals hinv hlen r hr
    cases hinv with
    | mk term ss ds n hterm hrep hs hd =>
      simp only [results] at hr
      rw [List.mem_append] at hr
      rcases hr with hr | hr
      · cases hlook : lookupStat ss seg with
        | none =>
          rw [hlook] at hr
          simp at hr
        | some c =>
          rw [hlook] at hr
          simp only [] at hr
          exact ih (hs _ (lookupStat_mem hlook)) hlen r hr
      · rw [List.mem_flatMap] at hr
        obtain ⟨e, he, hre⟩ := hr
        cases hm : createMatch e.2.1 seg with
        | none =>
          rw [hm] at hre
          simp at hre
        | some ps =>
          rw [hm] at hre
          simp only [] at hre
          have hlen2 : (vals ++ ps).length = n + paramsCount e.2.1 := by
            rw [List.length_append, hlen, createMatch_length hm]
          exact ih (hd e he) hlen2 r hre

/-- **C10**: every `Result` yielded by a successfully built router has
`keys` and `values` of equal length (both possibly empty): each terminal
stores exactly the route's parameter names, and along any match path the
accumulated values grow by exactly the parameter count of each matched
dynamic segment — the shared-matcher reuse is harmless here because two
segment paths with the same structural key have the same parameter
count. -/
theorem result_shape (nc : Char → Bool) (inputs : List String) (T : Trie)
    (hT : createRouter nc inputs = .ok T) (pathname : String) :
    ∀ r ∈ routerMatch T pathname, r.keys.length = r.values.length := by
  cases hb : buildRoutes nc inputs with
  | error e =>
    rw [createRouter, hb] at hT
    have h' : Except.error (α := Trie) e = Except.ok T := hT
    exact absurd h' (by simp)
  | ok rs =>
    have hc : createRouter nc inputs =
        rs.foldlM (fun t rp => addToTrie t rp.2 rp.1) emptyTrie := by
      rw [createRouter, hb]; rfl
    rw [hc] at hT
    have hinv : Inv T 0 := foldAdd_inv (inv_any 0) (buildRoutes_wf hb) hT
    intro r hr
    rw [routerMatch] at hr
    exact results_shape hinv List.length_nil r hr

theorem result_shape_w :
    (Result.mk "[p]" ["p"] ["x"]).keys.length =
      (Result.mk "[p]" ["p"] ["x"]).values.length :=
  result_shape Char.isAlphanum ["[p]"]
    (Trie.node none []
      [("[]", [Token.param "p"],
        Trie.node (some ("[p]", ["p"])) [] [])])
    (by rfl) "x" (Result.mk "[p]" ["p"] ["x"]) (by decide)

/-! ## Old/new engine equivalence (for C5) -/

theorem substrAt_end {s : List Char} {o : Nat} {part : List Char}
    (ho : s.length = o) (hp : part ≠ []) : substrAt s o part = false := by
  subst ho
  rw [substrAt]
  simp only [decide_eq_false_iff_not]
  intro he
  rw [List.drop_length] at he
  simp only [List.take_nil] at he
  exact hp he.symm

theorem string_data_ne {part : String} (h : part ≠ "") : part.data ≠ [] := by
  intro he
  exact h (String.ext (by rw [he]))

theorem matchGoOld_eq : ∀ (p : Path) (s : List Char) (o : Nat),
    wfPath p = true → matchGoOld p s o = matchGo p s o := by
  intro p s o
  induction p, s, o using matchGo.induct with
  | case1 s o =>
    intro _
    rfl
  | case2 tok rest s =>
    intro hwf
    rw [matchGo.eq_def]
    simp only []
    rw [if_pos trivial]
    cases tok with
    | lit part =>
      have hne : part ≠ "" := by
        rw [wfPath] at hwf
        simp only [Bool.and_eq_true, decide_eq_true_eq] at hwf
        exact hwf.1.1
      rw [matchGoOld, substrAt_end rfl (string_data_ne hne)]
      simp
    | param m =>
      rw [matchGoOld.eq_def]
      simp only []
      rw [if_pos trivial]
  | case3 rest s o hlen a hsub ih =>
    intro hwf
    rw [matchGo, if_neg hlen, if_pos hsub]
    rw [matchGoOld, if_pos hsub]
    exact ih (wfPath_tail hwf)
  | case4 rest s o hlen a hsub =>
    intro hwf
    rw [matchGo, if_neg hlen, if_neg hsub]
    rw [matchGoOld, if_neg hsub]
  | case5 s o hlen a =>
    intro hwf
    rw [matchGo, if_neg hlen]
    rw [matchGoOld, if_neg hlen]
  | case6 s o hlen a nx rest2 hidx =>
    intro hwf
    rw [matchGo, if_neg hlen, hidx]
    rw [matchGoOld, if_neg hlen, hidx]
  | case7 s a nx rest2 j hlen hidx =>
    intro hwf
    rw [matchGo, if_neg hlen, hidx]
    simp only []
    rw [if_pos trivial]
    rw [matchGoOld, if_neg hlen, hidx]
    simp only []
    rw [if_pos trivial]
  | case8 s o hlen a nx rest2 j hidx hj ps hrec ih =>
    intro hwf
    have hwf2 : wfPath rest2 = true := wfPath_tail (wfPath_tail hwf)
    rw [matchGo, if_neg hlen, hidx]
    simp only []
    rw [if_neg hj, hrec]
    rw [matchGoOld, if_neg hlen, hidx]
    simp only []
    rw [if_neg hj, ih hwf2, hrec]
  | case9 s o hlen a nx rest2 j hidx hj hrec ih =>
    intro hwf
    have hwf2 : wfPath rest2 = true := wfPath_tail (wfPath_tail hwf)
    rw [matchGo, if_neg hlen, hidx]
    simp only []
    rw [if_neg hj, hrec]
    rw [matchGoOld, if_neg hlen, hidx]
    simp only []
    rw [if_neg hj, ih hwf2, hrec]
  | case10 s o hlen a name tail =>
    intro hwf
    have hf : wfPath (Token.param a :: Token.param name :: tail) = false := rfl
    rw [hf] at hwf
    exact absurd hwf (by simp)

theorem createMatchOld_eq {p : Path} (hwf : wfPath p = true) (hne : p ≠ [])
    (seg : String) : createMatchOld p seg = createMatch p seg := by
  rw [createMatchOld, createMatch,
    if_neg (fun h => hne (List.length_eq_zero.1 h))]
  exact matchGoOld_eq p seg.data 0 hwf

theorem stepOfOld_eq {p : Path} (hne : p ≠ []) : stepOfOld p = stepOf p := by
  cases p with
  | nil => exact absurd rfl hne
  | cons t rest =>
    cases rest with
    | nil => cases t <;> rfl
    | cons a r' => cases t <;> rfl

theorem flatMap_congr {α β : Type} : ∀ {l : List α} {f g : α → List β},
    (∀ a ∈ l, f a = g a) → l.flatMap f = l.flatMap g := by
  intro l
  induction l with
  | nil => intro f g _; rfl
  | cons x xs ih =>
    intro f g h
    rw [List.flatMap_cons, List.flatMap_cons, h x (List.mem_cons_self x xs),
      ih (fun a ha => h a (List.mem_cons_of_mem x ha))]

theorem resultsOld_eq : ∀ {segs : List String} {t : Trie} {n : Nat},
    Inv t n → ∀ vals, resultsOld t segs vals = results t segs vals := by
  intro segs
  induction segs with
  | nil =>
    intro t n hinv vals
    cases hinv with
    | mk term ss ds n hterm hrep hs hd => rfl
  | cons seg rest ih =>
    intro t n hinv vals
    cases hinv with
    | mk term ss ds n hterm hrep hs hd =>
      simp only [results, resultsOld]
      congr 1
      · cases hlook : lookupStat ss seg with
        | none => rfl
        | some c =>
          simp only []
          exact ih (hs _ (lookupStat_mem hlook)) vals
      · refine flatMap_congr ?_
        intro d hd2
        obtain ⟨hwr, hrne, hrkey⟩ := hrep d hd2
        rw [createMatchOld_eq hwr hrne seg]
        cases hm : createMatch d.2.1 seg with
        | none => rfl
        | some ps =>
          simp only []
          exact ih (hd d hd2) (vals ++ ps)

theorem foldlM_congr {α : Type}
    {f g : Trie → α → Except String Trie} :
    ∀ {l : List α}, (∀ a ∈ l, ∀ t, f t a = g t a) →
    ∀ t, l.foldlM f t = l.foldlM g t := by
  intro l
  induction l with
  | nil => intro _ t; rfl
  | cons x xs ih =>
    intro h t
    rw [List.foldlM_cons, List.foldlM_cons, h x (List.mem_cons_self x xs) t]
    cases hgx : g t x with
    | error e => rfl
    | ok t1 => exact ih (fun a ha t2 => h a (List.mem_cons_of_mem x ha) t2) t1

theorem addToTrieOld_eq {paths : List Path} (h : ∀ p ∈ paths, p ≠ [])
    (t : Trie) (route : String) :
    addToTrieOld t paths route = addToTrie t paths route := by
  rw [addToTrieOld, addToTrie]
  congr 1
  exact List.map_congr_left (fun p hp => stepOfOld_eq (h p hp))

theorem mapM_ok_mem2 {α β : Type} (f : α → Except String β) :
    ∀ {l : List α} {o : List β}, l.mapM f = .ok o →
    ∀ b ∈ o, ∃ a ∈ l, f a = .ok b := by
  intro l
  induction l with
  | nil =>
    intro o h b hb
    rw [List.mapM_nil] at h
    have h' : Except.ok (ε := String) ([] : List β) = Except.ok o := h
    have h2 : ([] : List β) = o := by injection h'
    rw [← h2] at hb
    exact absurd hb (by simp)
  | cons x xs ih =>
    intro o h b hb
    rw [List.mapM_cons] at h
    cases hfx : f x with
    | error e =>
      rw [hfx] at h
      have h' : Except.error (α := List β) e = Except.ok o := h
      exact absurd h' (by simp)
    | ok b0 =>
      rw [hfx] at h
      cases hmt : xs.mapM f with
      | error e =>
        rw [hmt] at h
        have h' : Except.error (α := List β) e = Except.ok o := h
        exact absurd h' (by simp)
      | ok bs =>
        rw [hmt] at h
        have h' : Except.ok (ε := String) (b0 :: bs) = Except.ok o := h
        have h2 : b0 :: bs = o := by injection h'
        rw [← h2, List.mem_cons] at hb
        rcases hb with hb | hb
        · exact ⟨x, List.mem_cons_self x xs, by rw [hfx, hb]⟩
        · obtain ⟨a, ha, hfa⟩ := ih hmt b hb
          exact ⟨a, List.mem_cons_of_mem x ha, hfa⟩

theorem parseRoute_ok_nonempty {nc : Char → Bool} {route : String}
    {rp : String × List Path} (h : parseRoute nc route = .ok rp)
    (hseg : ∀ seg ∈ splitSlash route, seg ≠ "") : ∀ p ∈ rp.2, p ≠ [] := by
  rw [parseRoute] at h
  cases hm : (splitSlash route).mapM (parse nc) with
  | error e =>
    rw [hm] at h
    have h' : Except.error (α := String × List Path) e = Except.ok rp := h
    exact absurd h' (by simp)
  | ok ps =>
    rw [hm] at h
    have h' : Except.ok (ε := String) (route, ps) = Except.ok rp := h
    have h2 : (route, ps) = rp := by injection h'
    intro p hp hpe
    rw [← h2] at hp
    obtain ⟨seg, hsin, hparse⟩ := mapM_ok_mem2 (parse nc) hm p hp
    have hrt := parse_roundTrip nc seg p hparse
    subst hpe
    exact hseg seg hsin hrt.symm

/-- **C5** (counterexample to the claim as stated): the two engine
versions disagree on the empty segment path produced by an empty segment.
The new `createMatch` rejects any nonempty input on the empty path while
the old one accepts everything, and the old `addToTrie` turns an empty
path into a dynamic transition where the new one uses a static `""`
transition, so the routers for `/x` (whose first segment is empty)
disagree on the pathname `q/x`. -/
theorem old_new_cx :
    createMatchOld [] "q" = some [] ∧
    createMatch [] "q" = none ∧
    (routerMatchOldE (createRouterOld Char.isAlphanum ["/x"]) "q/x").map
      Result.route = ["/x"] ∧
    (routerMatchE (createRouter Char.isAlphanum ["/x"]) "q/x").map
      Result.route = [] := by
  refine ⟨by decide, by decide, by decide, by decide⟩

/-- **C5** (amended): the two engine versions agree on every route set
whose `/`-separated segments are all nonempty — the matchers agree on
every well-formed nonempty segment path, the tries coincide, and so do
all match sequences; the disagreement is confined to empty segments
(empty segment paths). -/
theorem old_new_engine_equiv (nc : Char → Bool) (inputs : List String)
    (hne : ∀ route ∈ inputs, ∀ seg ∈ splitSlash route, seg ≠ "") :
    createRouterOld nc inputs = createRouter nc inputs ∧
    ∀ pathname, routerMatchOldE (createRouterOld nc inputs) pathname =
      routerMatchE (createRouter nc inputs) pathname := by
  cases hb : buildRoutes nc inputs with
  | error e =>
    have h1 : createRouterOld nc inputs = .error e := by
      rw [createRouterOld, hb]; rfl
    have h2 : createRouter nc inputs = .error e := by
      rw [createRouter, hb]; rfl
    rw [h1, h2]
    exact ⟨rfl, fun pathname => rfl⟩
  | ok rs =>
    have hnep : ∀ rp ∈ rs, ∀ p ∈ rp.2, p ≠ [] := by
      intro rp hrp
      obtain ⟨ps, hm, hsort⟩ := buildRoutes_ok_struct hb
      have hrp2 : rp ∈ ps := by
        rw [hsort] at hrp
        exact (sortBy_perm routeLe ps).mem_iff.1 hrp
      obtain ⟨route, hrin, hroute⟩ := mapM_ok_mem2 (parseRoute nc) hm rp hrp2
      exact parseRoute_ok_nonempty hroute (hne route hrin)
    have hco : createRouterOld nc inputs =
        rs.foldlM (fun t rp => addToTrieOld t rp.2 rp.1) emptyTrie := by
      rw [createRouterOld, hb]; rfl
    have hcn : createRouter nc inputs =
        rs.foldlM (fun t rp => addToTrie t rp.2 rp.1) emptyTrie := by
      rw [createRouter, hb]; rfl
    have hfold : rs.foldlM (fun t rp => addToTrieOld t rp.2 rp.1) emptyTrie =
        rs.foldlM (fun t rp => addToTrie t rp.2 rp.1) emptyTrie :=
      foldlM_congr (fun rp hrp t => addToTrieOld_eq (hnep rp hrp) t rp.1)
        emptyTrie
    have heq : createRouterOld nc inputs = createRouter nc inputs := by
      rw [hco, hcn, hfold]
    refine ⟨heq, ?_⟩
    intro pathname
    rw [heq]
    cases hT : createRouter nc inputs with
    | error e => rfl
    | ok T =>
      have hinv : Inv T 0 := by
        rw [hcn] at hT
        exact foldAdd_inv (inv_any 0) (buildRoutes_wf hb) hT
      show routerMatchOld T pathname = routerMatch T pathname
      rw [routerMatchOld, routerMatch]
      exact resultsOld_eq hinv []

theorem old_new_engine_equiv_w :
    createRouterOld Char.isAlphanum ["x/[p]"] =
      createRouter Char.isAlphanum ["x/[p]"] ∧
    ∀ pathname,
      routerMatchOldE (createRouterOld Char.isAlphanum ["x/[p]"]) pathname =
      routerMatchE (createRouter Char.isAlphanum ["x/[p]"]) pathname :=
  old_new_engine_equiv Char.isAlphanum ["x/[p]"] (by decide)

/-! ## Enumeration order (for C1) -/

theorem setStat_keys : ∀ (ss : List (String × Trie)) (s : String) (c : Trie),
    (setStat ss s c).map (·.1) = ss.map (·.1) := by
  intro ss
  induction ss with
  | nil => intro s c; rfl
  | cons kc rest ih =>
    intro s c
    obtain ⟨k, c1⟩ := kc
    by_cases hks : k = s
    · rw [setStat, if_pos hks]
      rfl
    · rw [setStat, if_neg hks, List.map_cons, List.map_cons, ih]

theorem setDyn_keys : ∀ (ds : List (String × Path × Trie)) (k : String)
    (c : Trie), (setDyn ds k c).map (·.1) = ds.map (·.1) := by
  intro ds
  induction ds with
  | nil => intro k c; rfl
  | cons ke rest ih =>
    intro k c
    obtain ⟨k0, rep, c1⟩ := ke
    by_cases hks : k0 = k
    · rw [setDyn, if_pos hks]
      rfl
    · rw [setDyn, if_neg hks, List.map_cons, List.map_cons, ih]

theorem lookupStat_none_not_mem : ∀ {ss : List (String × Trie)} {s : String},
    lookupStat ss s = none → s ∉ ss.map (·.1) := by
  intro ss
  induction ss with
  | nil => intro s _; simp
  | cons kc rest ih =>
    intro s h
    obtain ⟨k, c1⟩ := kc
    by_cases hks : k = s
    · rw [lookupStat, if_pos hks] at h
      exact absurd h (by simp)
    · rw [lookupStat, if_neg hks] at h
      rw [List.map_cons, List.mem_cons]
      rintro (he | he)
      · exact hks he.symm
      · exact ih h he

theorem lookupDyn_none_not_mem : ∀ {ds : List (String × Path × Trie)}
    {k : String}, lookupDyn ds k = none → k ∉ ds.map (·.1) := by
  intro ds
  induction ds with
  | nil => intro k _; simp
  | cons ke rest ih =>
    intro k h
    obtain ⟨k0, e1⟩ := ke
    by_cases hks : k0 = k
    · rw [lookupDyn, if_pos hks] at h
      exact absurd h (by simp)
    · rw [lookupDyn, if_neg hks] at h
      rw [List.map_cons, List.mem_cons]
      rintro (he | he)
      · exact hks he.symm
      · exact ih h he

theorem nodupKeys_empty : NodupKeys (.node none [] []) := by
  refine NodupKeys.mk none [] [] List.nodup_nil List.nodup_nil ?_ ?_
  · intro e he
    exact absurd he (by simp)
  · intro e he
    exact absurd he (by simp)

theorem insertGo_nodup : ∀ {steps : List TransStep} {t : Trie}
    {route : String} {ks : List String} {t' : Trie},
    NodupKeys t → insertGo steps t route ks = .ok t' → NodupKeys t' := by
  intro steps
  induction steps with
  | nil =>
    intro t route ks t' hnd h
    cases hnd with
    | mk term ss ds hss hds hs hd =>
      cases term with
      | some x => simp [insertGo] at h
      | none =>
        simp only [insertGo] at h
        injection h with h2
        subst h2
        exact NodupKeys.mk _ ss ds hss hds hs hd
  | cons st rest ih =>
    intro t route ks t' hnd h
    cases hnd with
    | mk term ss ds hss hds hs hd =>
      cases st with
      | stat s =>
        simp only [insertGo] at h
        cases hlook : lookupStat ss s with
        | some c =>
          rw [hlook] at h
          simp only [] at h
          cases hrec : insertGo rest c route ks with
          | error e =>
            rw [hrec] at h
            exact absurd h (by simp [Except.map])
          | ok c2 =>
            rw [hrec] at h
            simp only [Except.map] at h
            injection h with h2
            subst h2
            refine NodupKeys.mk term _ ds ?_ hds ?_ hd
            · rw [setStat_keys]
              exact hss
            · intro e he
              rcases setStat_mem he with he2 | he2
              · rw [he2]
                exact ih (hs _ (lookupStat_mem hlook)) hrec
              · exact hs e he2
        | none =>
          rw [hlook] at h
          simp only [] at h
          cases hrec : insertGo rest (.node none [] []) route ks with
          | error e =>
            rw [hrec] at h
            exact absurd h (by simp [Except.map])
          | ok c2 =>
            rw [hrec] at h
            simp only [Except.map] at h
            injection h with h2
            subst h2
            refine NodupKeys.mk term _ ds ?_ hds ?_ hd
            · rw [List.map_append]
              rw [List.nodup_append]
              refine ⟨hss, by simp, ?_⟩
              intro a ha
              simp only [List.map_cons, List.map_nil, List.mem_singleton]
              intro he
              exact lookupStat_none_not_mem hlook (he ▸ ha)
            · intro e he
              rw [List.mem_append] at he
              rcases he with he | he
              · exact hs e he
              · rw [List.mem_singleton] at he
                rw [he]
                exact ih nodupKeys_empty hrec
      | dyn k rep =>
        simp only [insertGo] at h
        cases hlook : lookupDyn ds k with
        | some e0 =>
          obtain ⟨rep0, c⟩ := e0
          rw [hlook] at h
          simp only [] at h
          cases hrec : insertGo rest c route ks with
          | error e =>
            rw [hrec] at h
            exact absurd h (by simp [Except.map])
          | ok c2 =>
            rw [hrec] at h
            simp only [Except.map] at h
            injection h with h2
            subst h2
            refine NodupKeys.mk term ss _ hss ?_ hs ?_
            · rw [setDyn_keys]
              exact hds
            · intro e he
              rcases setDyn_mem hlook he with he2 | he2
              · rw [he2]
                exact ih (hd _ (lookupDyn_mem hlook)) hrec
              · exact hd e he2
        | none =>
          rw [hlook] at h
          simp only [] at h
          cases hrec : insertGo rest (.node none [] []) route ks with
          | error e =>
            rw [hrec] at h
            exact absurd h (by simp [Except.map])
          | ok c2 =>
            rw [hrec] at h
            simp only [Except.map] at h
            injection h with h2
            subst h2
            refine NodupKeys.mk term ss _ hss ?_ hs ?_
            · rw [List.map_append]
              rw [List.nodup_append]
              refine ⟨hds, by simp, ?_⟩
              intro a ha
              simp only [List.map_cons, List.map_nil, List.mem_singleton]
              intro he
              exact lookupDyn_none_not_mem hlook (he ▸ ha)
            · intro e he
              rw [List.mem_append] at he
              rcases he with he | he
              · exact hd e he
              · rw [List.mem_singleton] at he
                rw [he]
                exact ih nodupKeys_empty hrec

theorem foldAdd_nodup : ∀ {rs : List (String × List Path)} {t T : Trie},
    NodupKeys t →
    rs.foldlM (fun t rp => addToTrie t rp.2 rp.1) t = .ok T → NodupKeys T := by
  intro rs
  induction rs with
  | nil =>
    intro t T hnd h
    have h' : Except.ok (ε := String) t = Except.ok T := h
    have h2 : t = T := by injection h'
    exact h2 ▸ hnd
  | cons rp rs ih =>
    intro t T hnd h
    rw [List.foldlM_cons] at h
    cases ha : addToTrie t rp.2 rp.1 with
    | error e =>
      rw [ha] at h
      have h' : Except.error (α := Trie) e = Except.ok T := h
      exact absurd h' (by simp)
    | ok t1 =>
      rw [ha] at h
      have h' : rs.foldlM (fun t rp => addToTrie t rp.2 rp.1) t1 = .ok T := h
      rw [addToTrie] at ha
      exact ih (insertGo_nodup hnd ha) h'

theorem lookupDyn_of_mem_nodup : ∀ {ds : List (String × Path × Trie)}
    {d : String × Path × Trie}, (ds.map (·.1)).Nodup → d ∈ ds →
    lookupDyn ds d.1 = some d.2 := by
  intro ds
  induction ds with
  | nil => intro d _ hd; exact absurd hd (by simp)
  | cons e rest ih =>
    intro d hnd hd
    rw [List.map_cons, List.nodup_cons] at hnd
    rw [List.mem_cons] at hd
    obtain ⟨k0, e1⟩ := e
    rcases hd with hd | hd
    · rw [hd]
      rw [lookupDyn, if_pos rfl]
    · have hne : k0 ≠ d.1 := fun he =>
        hnd.1 (he ▸ List.mem_map.2 ⟨d, hd, rfl⟩)
      rw [lookupDyn, if_neg hne]
      exact ih hnd.2 hd

theorem idxDyn_pairwise : ∀ {ds : List (String × Path × Trie)},
    (ds.map (·.1)).Nodup →
    ds.Pairwise (fun d1 d2 => idxDyn ds d1.1 < idxDyn ds d2.1) := by
  intro ds
  induction ds with
  | nil => intro _; exact List.Pairwise.nil
  | cons e rest ih =>
    intro hnd
    rw [List.map_cons, List.nodup_cons] at hnd
    obtain ⟨k0, e1⟩ := e
    rw [List.pairwise_cons]
    constructor
    · intro d2 hd2
      have hne : k0 ≠ d2.1 := fun he =>
        hnd.1 (he ▸ List.mem_map.2 ⟨d2, hd2, rfl⟩)
      rw [idxDyn, if_pos rfl, idxDyn, if_neg hne]
      omega
    · have hrest := ih hnd.2
      refine List.Pairwise.imp_of_mem ?_ hrest
      intro a b ha hb hlt
      have hna : k0 ≠ a.1 := fun he =>
        hnd.1 (he ▸ List.mem_map.2 ⟨a, ha, rfl⟩)
      have hnb : k0 ≠ b.1 := fun he =>
        hnd.1 (he ▸ List.mem_map.2 ⟨b, hb, rfl⟩)
      rw [idxDyn, if_neg hna, idxDyn, if_neg hnb]
      omega

theorem lex_irrefl : ∀ (l : List Nat), ¬ List.Lex (· < ·) l l := by
  intro l
  induction l with
  | nil => intro h; cases h
  | cons x xs ih =>
    intro h
    cases h with
    | cons h2 => exact ih h2
    | rel h2 => exact lt_irrefl x h2

theorem pairwise_flatMap {α β : Type} {R : β → β → Prop} :
    ∀ {l : List α} {f : α → List β},
    (∀ a ∈ l, (f a).Pairwise R) →
    l.Pairwise (fun a b => ∀ x ∈ f a, ∀ y ∈ f b, R x y) →
    (l.flatMap f).Pairwise R := by
  intro l
  induction l with
  | nil => intro f _ _; simp
  | cons a rest ih =>
    intro f hin hacross
    rw [List.flatMap_cons, List.pairwise_append]
    rw [List.pairwise_cons] at hacross
    refine ⟨hin a (List.mem_cons_self a rest),
      ih (fun b hb => hin b (List.mem_cons_of_mem a hb)) hacross.2, ?_⟩
    intro x hx y hy
    rw [List.mem_flatMap] at hy
    obtain ⟨b, hb, hyb⟩ := hy
    exact hacross.1 b hb x hx y hyb

theorem results_eq_aux : ∀ (segs : List String) (t : Trie) (vals : List String),
    results t segs vals = (resultsAux t segs vals).map (fun e => e.2) := by
  intro segs
  induction segs with
  | nil =>
    intro t vals
    obtain ⟨term, ss, ds⟩ := t
    cases term with
    | none => rfl
    | some x =>
      obtain ⟨r, ks⟩ := x
      rfl
  | cons seg rest ih =>
    intro t vals
    obtain ⟨term, ss, ds⟩ := t
    simp only [results, resultsAux, List.map_append]
    congr 1
    · cases hlook : lookupStat ss seg with
      | none => rfl
      | some c =>
        simp only []
        rw [ih, List.map_map]
        rfl
    · rw [List.map_flatMap]
      refine flatMap_congr ?_
      intro d hd2
      cases hm : createMatch d.2.1 seg with
      | none => rfl
      | some ps =>
        simp only []
        rw [ih, List.map_map]
        rfl

theorem rankSeq_stat {term : Option (String × List String)}
    {ss : List (String × Trie)} {ds : List (String × Path × Trie)}
    {seg : String} {c : Trie} (hlook : lookupStat ss seg = some c)
    (e : List TransKey) :
    rankSeq (.node term ss ds) (.stat seg :: e) = 0 :: rankSeq c e := by
  rw [rankSeq, hlook]

theorem rankSeq_dyn {term : Option (String × List String)}
    {ss : List (String × Trie)} {ds : List (String × Path × Trie)}
    {k : String} {e0 : Path × Trie} (hlook : lookupDyn ds k = some e0)
    (e : List TransKey) :
    rankSeq (.node term ss ds) (.dyn k :: e) =
      (1 + idxDyn ds k) :: rankSeq e0.2 e := by
  rw [rankSeq, hlook]

theorem resultsAux_ordered : ∀ {segs : List String} {t : Trie},
    NodupKeys t → ∀ vals,
    ((resultsAux t segs vals).map (fun e => rankSeq t e.1)).Pairwise
      (fun a b => List.Lex (· < ·) a b) := by
  intro segs
  induction segs with
  | nil =>
    intro t hnd vals
    obtain ⟨term, ss, ds⟩ := t
    cases term with
    | none => simp [resultsAux]
    | some x =>
      obtain ⟨r, ks⟩ := x
      simp [resultsAux]
  | cons seg rest ih =>
    intro t hnd vals
    cases hnd with
    | mk term ss ds hss hds hs hd =>
      simp only [resultsAux, List.map_append]
      rw [List.pairwise_append]
      refine ⟨?_, ?_, ?_⟩
      · cases hlook : lookupStat ss seg with
        | none => simp
        | some c =>
          simp only []
          simp only [List.map_map]
          have hmc : ∀ e ∈ resultsAux c rest vals,
              ((fun e => rankSeq (Trie.node term ss ds) e.1) ∘
                (fun e => (TransKey.stat seg :: e.1, e.2))) e =
              0 :: rankSeq c e.1 := by
            intro e _
            show rankSeq (Trie.node term ss ds) (TransKey.stat seg :: e.1) = _
            rw [rankSeq_stat hlook]
          rw [List.map_congr_left hmc]
          have hih := ih (hs _ (lookupStat_mem hlook)) vals
          rw [List.pairwise_map] at hih ⊢
          refine hih.imp ?_
          intro a b hab
          exact List.Lex.cons hab
      · rw [List.map_flatMap]
        refine pairwise_flatMap ?_ ?_
        · intro d hd2
          cases hm : createMatch d.2.1 seg with
          | none => simp
          | some ps =>
            simp only []
            simp only [List.map_map]
            have hlookd : lookupDyn ds d.1 = some d.2 :=
              lookupDyn_of_mem_nodup hds hd2
            have hmc : ∀ e ∈ resultsAux d.2.2 rest (vals ++ ps),
                ((fun e => rankSeq (Trie.node term ss ds) e.1) ∘
                  (fun e => (TransKey.dyn d.1 :: e.1, e.2))) e =
                (1 + idxDyn ds d.1) :: rankSeq d.2.2 e.1 := by
              intro e _
              show rankSeq (Trie.node term ss ds) (TransKey.dyn d.1 :: e.1) = _
              rw [rankSeq_dyn hlookd]
            rw [List.map_congr_left hmc]
            have hih := ih (hd _ hd2) (vals ++ ps)
            rw [List.pairwise_map] at hih ⊢
            refine hih.imp ?_
            intro a b hab
            exact List.Lex.cons hab
        · have hidx := idxDyn_pairwise hds
          refine List.Pairwise.imp_of_mem ?_ hidx
          intro d1 d2 hd1 hd2 hlt x hx y hy
          cases hm1 : createMatch d1.2.1 seg with
          | none =>
            rw [hm1] at hx
            simp at hx
          | some ps1 =>
            rw [hm1] at hx
            simp only [List.map_map] at hx
            rw [List.mem_map] at hx
            obtain ⟨e1, he1, hxe⟩ := hx
            cases hm2 : createMatch d2.2.1 seg with
            | none =>
              rw [hm2] at hy
              simp at hy
            | some ps2 =>
              rw [hm2] at hy
              simp only [List.map_map] at hy
              rw [List.mem_map] at hy
              obtain ⟨e2, he2, hye⟩ := hy
              have hx2 : x = (1 + idxDyn ds d1.1) :: rankSeq d1.2.2 e1.1 := by
                rw [← hxe]
                show rankSeq (Trie.node term ss ds) (TransKey.dyn d1.1 :: e1.1) = _
                rw [rankSeq_dyn (lookupDyn_of_mem_nodup hds hd1)]
              have hy2 : y = (1 + idxDyn ds d2.1) :: rankSeq d2.2.2 e2.1 := by
                rw [← hye]
                show rankSeq (Trie.node term ss ds) (TransKey.dyn d2.1 :: e2.1) = _
                rw [rankSeq_dyn (lookupDyn_of_mem_nodup hds hd2)]
              rw [hx2, hy2]
              exact List.Lex.rel (by omega)
      · intro x hx y hy
        cases hlook : lookupStat ss seg with
        | none =>
          rw [hlook] at hx
          simp at hx
        | some c =>
          rw [hlook] at hx
          simp only [List.map_map] at hx
          rw [List.mem_map] at hx
          obtain ⟨e1, he1, hxe⟩ := hx
          have hx2 : x = 0 :: rankSeq c e1.1 := by
            rw [← hxe]
            show rankSeq (Trie.node term ss ds) (TransKey.stat seg :: e1.1) = _
            rw [rankSeq_stat hlook]
          rw [List.map_flatMap, List.mem_flatMap] at hy
          obtain ⟨d, hdm, hyd⟩ := hy
          cases hm : createMatch d.2.1 seg with
          | none =>
            rw [hm] at hyd
            simp at hyd
          | some ps =>
            rw [hm] at hyd
            simp only [List.map_map] at hyd
            rw [List.mem_map] at hyd
            obtain ⟨e2, he2, hye⟩ := hyd
            have hy2 : y = (1 + idxDyn ds d.1) :: rankSeq d.2.2 e2.1 := by
              rw [← hye]
              show rankSeq (Trie.node term ss ds) (TransKey.dyn d.1 :: e2.1) = _
              rw [rankSeq_dyn (lookupDyn_of_mem_nodup hds hdm)]
            rw [hx2, hy2]
            exact List.Lex.rel (by omega)

theorem resultsAux_traces_ne {segs : List String} {t : Trie}
    (hnd : NodupKeys t) (vals : List String) :
    ((resultsAux t segs vals).map (fun e => e.1)).Pairwise
      (fun a b => a ≠ b) := by
  have h := @resultsAux_ordered segs t hnd vals
  rw [List.pairwise_map] at h ⊢
  refine h.imp ?_
  intro a b hab he
  rw [he] at hab
  exact lex_irrefl _ hab

/-- **C1** (counterexample to the claim as stated): with routes
`[q]`, `z[p]/a`, `[p]/a`, `buildRoutes` orders `z[p]/a` before `[p]/a`,
but because the dynamic segments `[q]` and `[p]` share the structural key
`[]`, the first segment of `[p]/a` rides the dynamic transition created
for `[q]` — which was inserted first — so on the pathname `z1/a` the
router yields `[p]/a` strictly before `z[p]/a`, inverting the sorted
priority. -/
theorem priority_claim_cx :
    (buildRoutes Char.isAlphanum ["[q]", "z[p]/a", "[p]/a"]).map
      (fun rs => rs.map Prod.fst) = .ok ["[q]", "z[p]/a", "[p]/a"] ∧
    (routerMatchE (createRouter Char.isAlphanum ["[q]", "z[p]/a", "[p]/a"])
      "z1/a").map Result.route = ["[p]/a", "z[p]/a"] := by
  refine ⟨by decide, by decide⟩

/-- **C1** (amended): the enumeration order of a successfully built router
is exactly the depth-first discovery order of terminal trie nodes, taking
at each node the static transition first and then the dynamic transitions
in insertion order: the match results are the instrumented enumeration's
results, the rank sequences of the discovered transition-key traces are
strictly lexicographically increasing in yield order, and the traces are
pairwise distinct — each terminal contributes at most one Result per
call.  (Because the matcher cache keys dynamic transitions structurally,
insertion order can differ from the §4.3 sort order, which is why the
claim as stated fails.) -/
theorem priority_order (nc : Char → Bool) (inputs : List String) (T : Trie)
    (hT : createRouter nc inputs = .ok T) (pathname : String) :
    routerMatch T pathname =
      (resultsAux T (splitSlash pathname) []).map (fun e => e.2) ∧
    ((resultsAux T (splitSlash pathname) []).map
      (fun e => rankSeq T e.1)).Pairwise (fun a b => List.Lex (· < ·) a b) ∧
    ((resultsAux T (splitSlash pathname) []).map (fun e => e.1)).Pairwise
      (fun a b => a ≠ b) := by
  have hndk : NodupKeys T := by
    cases hb : buildRoutes nc inputs with
    | error e =>
      rw [createRouter, hb] at hT
      have h' : Except.error (α := Trie) e = Except.ok T := hT
      exact absurd h' (by simp)
    | ok rs =>
      have hc : createRouter nc inputs =
          rs.foldlM (fun t rp => addToTrie t rp.2 rp.1) emptyTrie := by
        rw [createRouter, hb]; rfl
      rw [hc] at hT
      exact foldAdd_nodup nodupKeys_empty hT
  refine ⟨?_, resultsAux_ordered hndk [], resultsAux_traces_ne hndk []⟩
  rw [routerMatch]
  exact results_eq_aux (splitSlash pathname) T []

theorem priority_order_w :
    routerMatch (Trie.node none [("a", Trie.node (some ("a", [])) [] [])] [])
      "a" =
      (resultsAux (Trie.node none [("a", Trie.node (some ("a", [])) [] [])] [])
        (splitSlash "a") []).map (fun e => e.2) ∧
    ((resultsAux (Trie.node none [("a", Trie.node (some ("a", [])) [] [])] [])
      (splitSlash "a") []).map
      (fun e => rankSeq
        (Trie.node none [("a", Trie.node (some ("a", [])) [] [])] []) e.1)).Pairwise
      (fun a b => List.Lex (· < ·) a b) ∧
    ((resultsAux (Trie.node none [("a", Trie.node (some ("a", [])) [] [])] [])
      (splitSlash "a") []).map (fun e => e.1)).Pairwise (fun a b => a ≠ b) :=
  priority_order Char.isAlphanum ["a"]
    (Trie.node none [("a", Trie.node (some ("a", [])) [] [])] [])
    (by rfl) "a"

end TrieRouter